import Mathlib

/-!
Verification of the ripples influence-maximization core: the Huffman
compression layer over RR (reverse-reachable) sets (`src/include/ripples/huffman.h`)
and the greedy seed selectors (`src/include/ripples/find_most_influential.h`).

The C++ sources are shallowly embedded: byte buffers become `Nat → Nat`
(index to byte value), machine words become `Nat` with explicit `% 2 ^ 64`
where 64-bit overflow is possible, vectors become lists, and the on-heap
Huffman tree becomes an inductive type.  Near-duplicate entry points of the
source (`encodeRR`, `encodeRR2`, `encodeRR22`, ...) share a parameterised
core exactly where their bodies are textually identical in the source.
-/

namespace Ripples

/-! ## Bitstream arithmetic

The encoder packs variable-length Huffman codes into a byte buffer
big-endian, MSB-first (`longToBytes_bigEndian` plus the `lackBits`
remainder machinery).  We relate byte buffers to abstract bit lists:
`natOfBits` is the value of an MSB-first bit list, `streamByte S i` is byte
`i` of the packed form of stream `S` (zero-padded in its low bits). -/

/-- Value of an MSB-first list of bits. -/
def natOfBits (bs : List Bool) : Nat :=
  bs.foldl (fun a b => 2 * a + b.toNat) 0

/-- First `n` bits of `l`, zero-padded at the end up to length `n`. -/
def takePad (n : Nat) (l : List Bool) : List Bool :=
  l.take n ++ List.replicate (n - l.length) false

/-- Byte `i` of the big-endian, MSB-first packing of bit stream `S`. -/
def streamByte (S : List Bool) (i : Nat) : Nat :=
  natOfBits (takePad 8 (S.drop (8 * i)))

/-- Bit `i` of byte buffer `buf`, as read by the decoder:
`(s[i>>3] >> (7 - i%8)) & 0x01` in the source. -/
def bufBit (buf : Nat → Nat) (i : Nat) : Bool :=
  (buf (i / 8)) >>> (7 - i % 8) % 2 = 1

theorem natOfBits_foldl (bs : List Bool) (a : Nat) :
    bs.foldl (fun a b => 2 * a + b.toNat) a = a * 2 ^ bs.length + natOfBits bs := by
  induction bs generalizing a with
  | nil => simp [natOfBits]
  | cons b t ih =>
      simp only [List.foldl_cons, natOfBits, List.length_cons]
      rw [ih, ih (2 * 0 + b.toNat)]
      ring

theorem natOfBits_append (xs ys : List Bool) :
    natOfBits (xs ++ ys) = natOfBits xs * 2 ^ ys.length + natOfBits ys := by
  unfold natOfBits
  rw [List.foldl_append, natOfBits_foldl]
  rfl

theorem natOfBits_lt (bs : List Bool) : natOfBits bs < 2 ^ bs.length := by
  induction bs with
  | nil => simp [natOfBits]
  | cons b t ih =>
      have : natOfBits (b :: t) = (2 * 0 + b.toNat) * 2 ^ t.length + natOfBits t := by
        unfold natOfBits
        simpa using natOfBits_foldl t (2 * 0 + b.toNat)
      rw [this]
      have hb : b.toNat ≤ 1 := Bool.toNat_le b
      have h2 : (2 * 0 + b.toNat) * 2 ^ t.length ≤ 2 ^ t.length := by
        nlinarith [Nat.pos_pow_of_pos t.length (show 0 < 2 by norm_num)]
      calc (2 * 0 + b.toNat) * 2 ^ t.length + natOfBits t
          < (2 * 0 + b.toNat) * 2 ^ t.length + 2 ^ t.length := by omega
        _ ≤ 2 ^ t.length + 2 ^ t.length := by omega
        _ = 2 ^ (t.length + 1) := by ring
        _ = 2 ^ (b :: t).length := by simp

theorem natOfBits_replicate_false (k : Nat) :
    natOfBits (List.replicate k false) = 0 := by
  induction k with
  | zero => simp [natOfBits]
  | succ n ih =>
      have : List.replicate (n + 1) false = false :: List.replicate n false := rfl
      rw [this]
      unfold natOfBits at ih ⊢
      simpa using ih

theorem natOfBits_append_replicate (xs : List Bool) (k : Nat) :
    natOfBits (xs ++ List.replicate k false) = natOfBits xs * 2 ^ k := by
  rw [natOfBits_append, natOfBits_replicate_false]
  simp

theorem takePad_eq_map_range (n : Nat) (l : List Bool) :
    takePad n l = (List.range n).map (fun j => l.getD j false) := by
  induction l generalizing n with
  | nil =>
      simp only [takePad, List.take_nil, List.length_nil, Nat.sub_zero, List.nil_append]
      induction n with
      | zero => rfl
      | succ k ih =>
          rw [List.range_succ, List.map_append, ← ih, List.replicate_succ']
          rfl
  | cons a t ih =>
      cases n with
      | zero => simp [takePad]
      | succ m =>
          have h1 : takePad (m + 1) (a :: t) = a :: takePad m t := by
            simp [takePad, List.replicate, List.take_succ_cons]
          rw [h1, ih m, List.range_succ_eq_map]
          simp only [List.map_cons, List.getD_cons_zero, List.map_map]
          congr 1

theorem length_map_range {α : Type} (n : Nat) (f : Nat → α) :
    ((List.range n).map f).length = n := by simp

theorem getD_drop (l : List Bool) (k j : Nat) :
    (l.drop k).getD j false = l.getD (k + j) false := by
  simp [List.getD_eq_getElem?_getD, List.getElem?_drop]

theorem streamByte_explicit (S : List Bool) (i : Nat) :
    streamByte S i =
      128 * (S.getD (8 * i) false).toNat + 64 * (S.getD (8 * i + 1) false).toNat +
      32 * (S.getD (8 * i + 2) false).toNat + 16 * (S.getD (8 * i + 3) false).toNat +
      8 * (S.getD (8 * i + 4) false).toNat + 4 * (S.getD (8 * i + 5) false).toNat +
      2 * (S.getD (8 * i + 6) false).toNat + (S.getD (8 * i + 7) false).toNat := by
  unfold streamByte
  rw [takePad_eq_map_range]
  have hr : List.range 8 = [0, 1, 2, 3, 4, 5, 6, 7] := by decide
  rw [hr]
  simp only [List.map_cons, List.map_nil, getD_drop]
  unfold natOfBits
  simp only [List.foldl_cons, List.foldl_nil]
  ring_nf

theorem byteBit_aux (b0 b1 b2 b3 b4 b5 b6 b7 : Bool) (r : Fin 8) :
    (decide ((128 * b0.toNat + 64 * b1.toNat + 32 * b2.toNat + 16 * b3.toNat +
        8 * b4.toNat + 4 * b5.toNat + 2 * b6.toNat + b7.toNat) / 2 ^ (7 - (r : Nat)) % 2 = 1))
      = [b0, b1, b2, b3, b4, b5, b6, b7].getD (r : Nat) false := by
  revert b0 b1 b2 b3 b4 b5 b6 b7 r
  decide

theorem bufBit_streamByte (S : List Bool) (i : Nat) :
    bufBit (streamByte S) i = S.getD i false := by
  have hr : i % 8 < 8 := Nat.mod_lt _ (by norm_num)
  unfold bufBit
  rw [streamByte_explicit, Nat.shiftRight_eq_div_pow]
  have key := byteBit_aux (S.getD (8 * (i / 8)) false) (S.getD (8 * (i / 8) + 1) false)
    (S.getD (8 * (i / 8) + 2) false) (S.getD (8 * (i / 8) + 3) false)
    (S.getD (8 * (i / 8) + 4) false) (S.getD (8 * (i / 8) + 5) false)
    (S.getD (8 * (i / 8) + 6) false) (S.getD (8 * (i / 8) + 7) false) ⟨i % 8, hr⟩
  rw [key]
  have h8 : i % 8 = 0 ∨ i % 8 = 1 ∨ i % 8 = 2 ∨ i % 8 = 3 ∨ i % 8 = 4 ∨ i % 8 = 5 ∨
      i % 8 = 6 ∨ i % 8 = 7 := by omega
  rcases h8 with h | h | h | h | h | h | h | h <;>
    simp only [h, List.getD_cons_zero, List.getD_cons_succ] <;>
    (congr 1; omega)

theorem pow_two_pos (n : Nat) : 0 < 2 ^ n := Nat.pos_pow_of_pos n (by norm_num)

/-- Extracting byte `d` of a left-aligned 64-bit code word recovers byte `d`
of the code's bit list.  This is the heart of `longToBytes_bigEndian`
correctness: the stored word is `natOfBits c * 2 ^ (64 - |c|)` and the
encoder emits its bytes most-significant first. -/
theorem extract_byte (c : List Bool) (hL : c.length ≤ 64) (d : Nat) (hd : d < 8) :
    natOfBits c * 2 ^ (64 - c.length) / 2 ^ (8 * (7 - d)) % 256 = streamByte c d := by
  rcases Nat.lt_or_ge (8 * d) c.length with hlt | hge
  · rcases Nat.lt_or_ge (8 * d + 8) c.length with hin | hout
    · -- interior byte: c = a ++ b ++ e with |a| = 8d, |b| = 8
      have hsplit : c = c.take (8 * d) ++ ((c.drop (8 * d)).take 8 ++ (c.drop (8 * d)).drop 8) := by
        rw [List.take_append_drop, List.take_append_drop]
      set a := c.take (8 * d) with ha
      set b := (c.drop (8 * d)).take 8 with hb
      set e := (c.drop (8 * d)).drop 8 with he
      have hla : a.length = 8 * d := by
        rw [ha, List.length_take]
        omega
      have hlb : b.length = 8 := by
        rw [hb, List.length_take, List.length_drop]
        omega
      have hle : e.length = c.length - 8 * d - 8 := by
        rw [he, List.length_drop, List.length_drop]
      have hstream : streamByte c d = natOfBits b := by
        unfold streamByte takePad
        have h1 : (c.drop (8 * d)).length = c.length - 8 * d := List.length_drop _ _
        have h2 : 8 - (c.drop (8 * d)).length = 0 := by omega
        rw [h2, List.replicate_zero, List.append_nil]
      have hN : natOfBits c = (natOfBits a * 2 ^ 8 + natOfBits b) * 2 ^ e.length + natOfBits e := by
        conv_lhs => rw [hsplit]
        rw [natOfBits_append, natOfBits_append, List.length_append, hlb, pow_add]
        ring
      have hexp : 8 * (7 - d) = e.length + (64 - c.length) := by omega
      have hNe : natOfBits e < 2 ^ e.length := natOfBits_lt e
      have hNb : natOfBits b < 256 := by
        have := natOfBits_lt b
        rw [hlb] at this
        simpa using this
      rw [hstream, hN, hexp, pow_add]
      rw [Nat.mul_div_mul_right _ _ (pow_two_pos (64 - c.length))]
      have hdv : ((natOfBits a * 2 ^ 8 + natOfBits b) * 2 ^ e.length + natOfBits e)
          / 2 ^ e.length = natOfBits a * 2 ^ 8 + natOfBits b := by
        rw [Nat.add_comm, Nat.add_mul_div_right _ _ (pow_two_pos e.length),
          Nat.div_eq_of_lt hNe]
        omega
      rw [hdv]
      have h256 : natOfBits a * 2 ^ 8 + natOfBits b = natOfBits b + 256 * natOfBits a := by
        norm_num
        ring
      rw [h256, Nat.add_mul_mod_self_left, Nat.mod_eq_of_lt hNb]
    · -- final, possibly partial, byte: c = a ++ b with |b| = L - 8d ∈ [1, 8]
      have hsplit : c = c.take (8 * d) ++ c.drop (8 * d) := (List.take_append_drop _ _).symm
      set a := c.take (8 * d) with ha
      set b := c.drop (8 * d) with hb
      have hla : a.length = 8 * d := by
        rw [ha, List.length_take]
        omega
      have hlb : b.length = c.length - 8 * d := by
        rw [hb, List.length_drop]
      have hm1 : 1 ≤ b.length := by omega
      have hm8 : b.length ≤ 8 := by omega
      have hstream : streamByte c d = natOfBits b * 2 ^ (8 - b.length) := by
        unfold streamByte takePad
        rw [← hb, List.take_of_length_le hm8, natOfBits_append_replicate]
      have hN : natOfBits c = natOfBits a * 2 ^ b.length + natOfBits b := by
        conv_lhs => rw [hsplit]
        rw [natOfBits_append]
      have hexp : 64 - c.length = (8 - b.length) + (8 * (7 - d)) := by omega
      have hNb : natOfBits b < 2 ^ b.length := natOfBits_lt b
      rw [hstream, hN, hexp, pow_add, ← Nat.mul_assoc,
        Nat.mul_div_cancel _ (pow_two_pos (8 * (7 - d)))]
      have hdist : (natOfBits a * 2 ^ b.length + natOfBits b) * 2 ^ (8 - b.length)
          = natOfBits b * 2 ^ (8 - b.length) + 256 * natOfBits a := by
        have h28 : 2 ^ b.length * 2 ^ (8 - b.length) = 256 := by
          rw [← pow_add]
          have : b.length + (8 - b.length) = 8 := by omega
          rw [this]
          norm_num
        calc (natOfBits a * 2 ^ b.length + natOfBits b) * 2 ^ (8 - b.length)
            = natOfBits b * 2 ^ (8 - b.length)
              + (2 ^ b.length * 2 ^ (8 - b.length)) * natOfBits a := by ring
          _ = natOfBits b * 2 ^ (8 - b.length) + 256 * natOfBits a := by rw [h28]
      rw [hdist, Nat.add_mul_mod_self_left]
      have hlt256 : natOfBits b * 2 ^ (8 - b.length) < 256 := by
        have h28 : 2 ^ b.length * 2 ^ (8 - b.length) = 256 := by
          rw [← pow_add]
          have : b.length + (8 - b.length) = 8 := by omega
          rw [this]
          norm_num
        calc natOfBits b * 2 ^ (8 - b.length) < 2 ^ b.length * 2 ^ (8 - b.length) :=
              Nat.mul_lt_mul_of_lt_of_le hNb (Nat.le_refl _) (pow_two_pos _)
          _ = 256 := h28
      exact Nat.mod_eq_of_lt hlt256
  · -- byte entirely past the code: it reads zero
    have hdrop : c.drop (8 * d) = [] := List.drop_eq_nil_of_le hge
    have hstream : streamByte c d = 0 := by
      unfold streamByte
      rw [hdrop]
      have : takePad 8 [] = List.replicate 8 false := by
        simp [takePad]
      rw [this, natOfBits_replicate_false]
    rw [hstream]
    have hexp : 64 - c.length = (8 * (7 - d)) + (8 + 8 * d - c.length) := by omega
    have hre : natOfBits c * 2 ^ (64 - c.length)
        = natOfBits c * 2 ^ (8 + 8 * d - c.length) * 2 ^ (8 * (7 - d)) := by
      rw [hexp, pow_add]
      ring
    rw [hre, Nat.mul_div_cancel _ (pow_two_pos _)]
    have h8 : 8 + 8 * d - c.length = (8 * d - c.length) + 8 := by omega
    have hre2 : natOfBits c * 2 ^ (8 + 8 * d - c.length)
        = natOfBits c * 2 ^ (8 * d - c.length) * 256 := by
      rw [h8, pow_add]
      norm_num
      ring
    rw [hre2]
    exact Nat.mul_mod_left _ _

/-- Bitwise or of numbers with disjoint bit ranges is addition: the encoder's
`*p |= code >> (64 - lackBits)` merges fresh low bits into a byte whose low
`lackBits` bits are still zero. -/
theorem lor_eq_add : ∀ (k a b : Nat), 2 ^ k ∣ a → b < 2 ^ k → a ||| b = a + b := by
  intro k
  induction k with
  | zero =>
      intro a b _ hb
      interval_cases b
      simp
  | succ m ih =>
      intro a b ha hb
      obtain ⟨a', rfl⟩ := ha
      have hbf : (2 : Nat) ^ (m + 1) * a' = Nat.bit false (2 ^ m * a') := by
        simp [Nat.bit]
        ring
      have hbb : b = Nat.bit (decide (b % 2 = 1)) (b / 2) := by
        rcases Nat.even_or_odd b with he | ho
        · have h0 : b % 2 = 0 := Nat.even_iff.mp he
          simp [Nat.bit, h0]
          omega
        · have h1 : b % 2 = 1 := Nat.odd_iff.mp ho
          simp [Nat.bit, h1]
          omega
      have h3 : b / 2 < 2 ^ m := by
        have he : (2 : Nat) ^ (m + 1) = 2 * 2 ^ m := by ring
        omega
      rw [hbf, hbb, Nat.lor_bit]
      simp only [Bool.false_or]
      rw [ih _ _ ⟨a', rfl⟩ h3]
      rcases Nat.even_or_odd b with he | ho
      · have h0 : b % 2 = 0 := Nat.even_iff.mp he
        simp [Nat.bit, h0]
        omega
      · have h1 : b % 2 = 1 := Nat.odd_iff.mp ho
        simp [Nat.bit, h1]
        omega

/-! ## The Huffman tree (`struct node_t`, `HuffmanTree`)

The source allocates nodes from a pool with raw child pointers; leaves have
`t = 1` and carry a vertex id `c` and a frequency, internal nodes carry two
children and the sum of their frequencies.  We embed nodes as an inductive
tree.  The binary min-heap `qq[1..qend)` keyed by `freq` is embedded as the
list of its element trees (`qq[i]` is entry `i - 1`); `qinsert`/`qremove`
transcribe the sift-up/sift-down index loops. -/

inductive HNode where
  | leaf (freq : Nat) (c : Nat)
  | internal (freq : Nat) (l r : HNode)
deriving DecidableEq, Repr

def HNode.freq : HNode → Nat
  | .leaf f _ => f
  | .internal f _ _ => f

/-- Vertices at the leaves, in left-to-right order. -/
def HNode.labels : HNode → List Nat
  | .leaf _ c => [c]
  | .internal _ l r => l.labels ++ r.labels

def HNode.depth : HNode → Nat
  | .leaf _ _ => 0
  | .internal _ l r => 1 + max l.depth r.depth

/-- `qq[i]` of the 1-indexed heap array. -/
def get1 (h : List HNode) (i : Nat) : HNode :=
  h.getD (i - 1) (HNode.leaf 0 0)

/-- Writing `qq[i] = n`. -/
def set1 (h : List HNode) (i : Nat) (n : HNode) : List HNode :=
  h.set (i - 1) n

/-- Sift-up loop of `qinsert`: the hole starts at `i = qend` and moves to the
parent `j = i/2` while the parent's `freq` is strictly larger.  The index at
least halves per iteration, so fuel `i` always suffices; on exhausted fuel we
place the node, matching the loop exit. -/
def qinsertAux (n : HNode) : Nat → List HNode → Nat → List HNode
  | 0, h, i => set1 h i n
  | fuel + 1, h, i =>
      let j := i / 2
      if 1 ≤ j ∧ n.freq < (get1 h j).freq then qinsertAux n fuel (set1 h i (get1 h j)) j
      else set1 h i n

/-- `qinsert`: grow the heap by one slot and sift the new node up. -/
def qinsert (n : HNode) (h : List HNode) : List HNode :=
  qinsertAux n (h.length + 1) (h ++ [n]) (h.length + 1)

/-- Sift-down loop of `qremove` (from index `i`, 1-based).  The source runs it
only from `i = 1`; the index at least doubles per iteration, so fuel
`h.length` suffices at every call site. -/
def siftDown : Nat → List HNode → Nat → List HNode
  | 0, h, _ => h
  | fuel + 1, h, i =>
      let l := 2 * i
      if 1 ≤ i ∧ l ≤ h.length then
        let l2 := if l + 1 ≤ h.length ∧ (get1 h (l + 1)).freq < (get1 h l).freq then l + 1
          else l
        if (get1 h l2).freq < (get1 h i).freq then
          siftDown fuel (set1 (set1 h i (get1 h l2)) l2 (get1 h i)) l2
        else h
      else h

/-- `qremove`: pop `qq[1]`, move the last element to the root, sift down.
Returns `none` when the heap is empty (`qend < 2`, where the source returns
the null pointer). -/
def qremove (h : List HNode) : Option (HNode × List HNode) :=
  match h with
  | [] => none
  | _ :: _ =>
      some (get1 h 1, siftDown h.length ((set1 h 1 (get1 h h.length)).dropLast) 1)

/-- The `while (qend > 2) qinsert(new_node(0, 0, qremove(), qremove()))` loop
of `initByRRRSets*`, with fuel (one merge per unit; `h.length` is plenty).
The C argument evaluation order of the two `qremove()` calls is unspecified;
we take `left` to be the first pop — no theorem below depends on it. -/
def mergeLoopF : Nat → List HNode → List HNode
  | 0, h => h
  | fuel + 1, h =>
      if 2 ≤ h.length then
        match qremove h with
        | none => h
        | some (a, h1) =>
            match qremove h1 with
            | none => h1
            | some (b, h2) =>
                mergeLoopF fuel (qinsert (HNode.internal (a.freq + b.freq) a b) h2)
      else h

def mergeLoop (h : List HNode) : List HNode :=
  mergeLoopF h.length h

theorem count_set_add {α : Type} [DecidableEq α] (l : List α) (p : Nat) (x a : α)
    (hp : p < l.length) :
    (l.set p x).count a + (if l[p] == a then 1 else 0)
      = l.count a + (if x == a then 1 else 0) := by
  rw [List.set_eq_take_cons_drop x hp]
  conv_rhs => rw [← List.take_append_drop p l, List.drop_eq_getElem_cons hp]
  simp only [List.count_append, List.count_cons]
  omega

theorem count_eraseIdx_add {α : Type} [DecidableEq α] (l : List α) (p : Nat) (a : α)
    (hp : p < l.length) :
    (l.eraseIdx p).count a + (if l[p] == a then 1 else 0) = l.count a := by
  rw [List.eraseIdx_eq_take_drop_succ]
  conv_rhs => rw [← List.take_append_drop p l, List.drop_eq_getElem_cons hp]
  simp only [List.count_append, List.count_cons]
  omega

theorem set1_perm (n : HNode) (h : List HNode) (i : Nat) (h1 : 1 ≤ i) (h2 : i ≤ h.length) :
    (set1 h i n).Perm (n :: h.eraseIdx (i - 1)) := by
  have hpi : i - 1 < h.length := by omega
  apply List.perm_iff_count.mpr
  intro a
  have e2 := count_set_add h (i - 1) n a hpi
  have e3 := count_eraseIdx_add h (i - 1) a hpi
  rw [List.count_cons]
  unfold set1
  split_ifs at e2 e3 ⊢ <;> omega

theorem qinsertAux_perm (n : HNode) : ∀ (fuel i : Nat) (h : List HNode),
    1 ≤ i → i ≤ h.length →
    (qinsertAux n fuel h i).Perm (n :: h.eraseIdx (i - 1)) := by
  intro fuel
  induction fuel with
  | zero =>
      intro i h h1 h2
      exact set1_perm n h i h1 h2
  | succ m ih =>
      intro i h h1 h2
      rw [qinsertAux]
      split_ifs with hc
      · have hj1 : 1 ≤ i / 2 := hc.1
        have hji : i / 2 < i := by omega
        have hi2 : 2 ≤ i := by omega
        have hlen : (set1 h i (get1 h (i / 2))).length = h.length := by
          simp [set1]
        have hrec := ih (i / 2) (set1 h i (get1 h (i / 2))) hj1 (by omega)
        refine hrec.trans (List.Perm.cons n ?_)
        apply List.perm_iff_count.mpr
        intro a
        have hpe : i / 2 - 1 < (set1 h i (get1 h (i / 2))).length := by omega
        have hpe0 : i / 2 - 1 < h.length := by omega
        have hpi : i - 1 < h.length := by omega
        have e1 := count_eraseIdx_add (set1 h i (get1 h (i / 2))) (i / 2 - 1) a hpe
        have e2 := count_set_add h (i - 1) (get1 h (i / 2)) a hpi
        have e3 := count_eraseIdx_add h (i - 1) a hpi
        have hgg : (set1 h i (get1 h (i / 2)))[i / 2 - 1] = h[i / 2 - 1] := by
          unfold set1
          rw [List.getElem_set_ne]
          omega
        have hx : get1 h (i / 2) = h[i / 2 - 1] := by
          unfold get1
          exact List.getD_eq_getElem h _ hpe0
        rw [hgg] at e1
        rw [hx] at e1 e2 ⊢
        unfold set1 at e1 ⊢
        split_ifs at e1 e2 e3 ⊢ <;> omega
      · exact set1_perm n h i h1 h2

theorem set_swap_perm (h : List HNode) (p q : Nat) (hp : p < h.length) (hq : q < h.length)
    (hpq : p ≠ q) : (((h.set p (h[q])).set q (h[p]))).Perm h := by
  apply List.perm_iff_count.mpr
  intro a
  have hq2 : q < (h.set p (h[q])).length := by simp [hq]
  have e1 := count_set_add (h.set p (h[q])) q (h[p]) a hq2
  have e2 := count_set_add h p (h[q]) a hp
  have hgg : (h.set p (h[q]))[q] = h[q] := by
    rw [List.getElem_set_ne]
    omega
  rw [hgg] at e1
  split_ifs at e1 e2 ⊢ <;> omega

theorem siftDown_perm : ∀ (fuel : Nat) (h : List HNode) (i : Nat),
    (siftDown fuel h i).Perm h := by
  intro fuel
  induction fuel with
  | zero =>
      intro h i
      exact List.Perm.refl h
  | succ m ih =>
      intro h i
      rw [siftDown]
      simp only []
      have hstep : ∀ l2 : Nat, 1 ≤ i → i + 1 ≤ l2 → l2 ≤ h.length →
          (siftDown m (set1 (set1 h i (get1 h l2)) l2 (get1 h i)) l2).Perm h := by
        intro l2 hi1 hl2i hl2b
        have hrec := ih (set1 (set1 h i (get1 h l2)) l2 (get1 h i)) l2
        refine hrec.trans ?_
        have hgi : get1 h l2 = h[l2 - 1] := List.getD_eq_getElem h _ (by omega)
        have hgp : get1 h i = h[i - 1] := List.getD_eq_getElem h _ (by omega)
        unfold set1
        have hsw := set_swap_perm h (i - 1) (l2 - 1) (by omega) (by omega) (by omega)
        convert hsw using 4
      split_ifs with hc hl2c hcmp hcmp2
      · exact hstep (2 * i + 1) hc.1 (by omega) hl2c.1
      · exact List.Perm.refl h
      · exact hstep (2 * i) hc.1 (by omega) hc.2
      · exact List.Perm.refl h
      · exact List.Perm.refl h

theorem qinsert_perm (n : HNode) (h : List HNode) : (qinsert n h).Perm (n :: h) := by
  unfold qinsert
  have hp := qinsertAux_perm n (h.length + 1) (h.length + 1) (h ++ [n]) (by omega) (by simp)
  refine hp.trans (List.Perm.cons n ?_)
  have heq : (h ++ [n]).eraseIdx (h.length + 1 - 1) = h := by
    rw [List.eraseIdx_eq_take_drop_succ]
    have h1 : (h ++ [n]).take (h.length + 1 - 1) = h := by
      simp
    have h2 : (h ++ [n]).drop (h.length + 1 - 1 + 1) = [] := by
      apply List.drop_eq_nil_of_le
      simp
    rw [h1, h2, List.append_nil]
  rw [heq]

theorem getD_last_cons_perm : ∀ (t : List HNode), t ≠ [] →
    t.Perm (t.getD (t.length - 1) (HNode.leaf 0 0) :: t.dropLast) := by
  intro t
  induction t with
  | nil => intro hc; exact absurd rfl hc
  | cons a s ih =>
      intro _
      cases s with
      | nil => exact List.Perm.refl _
      | cons b u =>
          have hstep : (a :: b :: u).getD ((a :: b :: u).length - 1) (HNode.leaf 0 0)
              = (b :: u).getD ((b :: u).length - 1) (HNode.leaf 0 0) := by
            have hl : (a :: b :: u).length - 1 = ((b :: u).length - 1) + 1 := by simp
            rw [hl, List.getD_cons_succ]
          have hdl : (a :: b :: u).dropLast = a :: (b :: u).dropLast := rfl
          rw [hstep, hdl]
          refine (List.Perm.cons a (ih (by simp))).trans ?_
          exact List.Perm.swap _ _ _

theorem qremove_perm (h : List HNode) (n : HNode) (h2 : List HNode)
    (he : qremove h = some (n, h2)) : h.Perm (n :: h2) := by
  match h with
  | [] => simp [qremove] at he
  | x :: t =>
      simp only [qremove, Option.some.injEq, Prod.mk.injEq] at he
      obtain ⟨hn, hh2⟩ := he
      have hperm2 : h2.Perm ((set1 (x :: t) 1 (get1 (x :: t) (x :: t).length)).dropLast) := by
        rw [← hh2]
        exact siftDown_perm (x :: t).length _ 1
      cases t with
      | nil =>
          have hev : (set1 [x] 1 (get1 [x] 1)).dropLast = ([] : List HNode) := rfl
          rw [List.length_cons, List.length_nil] at hperm2
          rw [hev] at hperm2
          have h2nil : h2 = [] := hperm2.eq_nil
          rw [h2nil, ← hn]
          have hx : get1 [x] 1 = x := rfl
          rw [hx]
      | cons y s =>
          have hv : get1 (x :: y :: s) (x :: y :: s).length
              = (y :: s).getD ((y :: s).length - 1) (HNode.leaf 0 0) := by
            unfold get1
            have hl : (x :: y :: s).length - 1 = (y :: s).length - 1 + 1 := by simp
            rw [hl, List.getD_cons_succ]
          have hset : ∀ v : HNode, set1 (x :: y :: s) 1 v = v :: y :: s := fun v => rfl
          rw [hv, hset] at hperm2
          have hdl : (((y :: s).getD ((y :: s).length - 1) (HNode.leaf 0 0)) :: y :: s).dropLast
              = ((y :: s).getD ((y :: s).length - 1) (HNode.leaf 0 0)) :: (y :: s).dropLast := rfl
          rw [hdl] at hperm2
          rw [← hn]
          have hnx : get1 (x :: y :: s) 1 = x := rfl
          rw [hnx]
          exact (List.Perm.cons x (getD_last_cons_perm (y :: s) (by simp))).trans
            (List.Perm.cons x hperm2.symm)

theorem qremove_some (x : HNode) (t : List HNode) :
    qremove (x :: t) = some (get1 (x :: t) 1,
      siftDown (x :: t).length
        ((set1 (x :: t) 1 (get1 (x :: t) (x :: t).length)).dropLast) 1) := rfl

/-- Leaf labels of every tree currently in the heap. -/
def heapLabels (h : List HNode) : List Nat :=
  (h.map HNode.labels).flatten

theorem heapLabels_perm (h1 h2 : List HNode) (hp : h1.Perm h2) :
    (heapLabels h1).Perm (heapLabels h2) :=
  (hp.map HNode.labels).flatten

theorem heapLabels_cons (n : HNode) (h : List HNode) :
    heapLabels (n :: h) = n.labels ++ heapLabels h := rfl

theorem qremove_of_ne_nil (h : List HNode) (hne : h ≠ []) :
    ∃ n h2, qremove h = some (n, h2) ∧ h.Perm (n :: h2) := by
  cases h with
  | nil => exact absurd rfl hne
  | cons x t => exact ⟨_, _, rfl, qremove_perm _ _ _ rfl⟩

/-- The merge loop preserves the multiset of leaf labels across the heap. -/
theorem mergeLoopF_labels : ∀ (f : Nat) (h : List HNode),
    (heapLabels (mergeLoopF f h)).Perm (heapLabels h) := by
  intro f
  induction f with
  | zero => intro h; exact List.Perm.refl _
  | succ m ih =>
      intro h
      by_cases hlen : 2 ≤ h.length
      · obtain ⟨a, h1, hq1, hp1⟩ := qremove_of_ne_nil h (by
          intro hc
          rw [hc] at hlen
          simp at hlen)
        have hlen1 : h1.length + 1 = h.length := by
          have := hp1.length_eq
          simp at this
          omega
        obtain ⟨b, h2, hq2, hp2⟩ := qremove_of_ne_nil h1 (by
          intro hc
          rw [hc] at hlen1
          simp at hlen1
          omega)
        simp only [mergeLoopF, if_pos hlen, hq1, hq2]
        refine (ih _).trans ?_
        refine (heapLabels_perm _ _ (qinsert_perm _ _)).trans ?_
        have h3 : heapLabels ((HNode.internal (a.freq + b.freq) a b) :: h2)
            = (a.labels ++ b.labels) ++ heapLabels h2 := rfl
        rw [h3]
        have hstep1 : (heapLabels h).Perm (a.labels ++ heapLabels h1) :=
          heapLabels_perm _ _ hp1
        have hstep2 : (heapLabels h1).Perm (b.labels ++ heapLabels h2) :=
          heapLabels_perm _ _ hp2
        rw [List.append_assoc]
        exact (List.Perm.append_left a.labels hstep2.symm).trans hstep1.symm
      · simp only [mergeLoopF, if_neg hlen]
        exact List.Perm.refl _

theorem mergeLoopF_length : ∀ (f : Nat) (h : List HNode), 1 ≤ h.length → h.length ≤ f + 1 →
    (mergeLoopF f h).length = 1 := by
  intro f
  induction f with
  | zero =>
      intro h hl hu
      have : h.length = 1 := by omega
      simpa [mergeLoopF] using this
  | succ m ih =>
      intro h hl hu
      by_cases hlen : 2 ≤ h.length
      · obtain ⟨a, h1, hq1, hp1⟩ := qremove_of_ne_nil h (by
          intro hc
          rw [hc] at hlen
          simp at hlen)
        have hlen1 : h1.length + 1 = h.length := by
          have := hp1.length_eq
          simp at this
          omega
        obtain ⟨b, h2, hq2, hp2⟩ := qremove_of_ne_nil h1 (by
          intro hc
          rw [hc] at hlen1
          simp at hlen1
          omega)
        have hlen2 : h2.length + 1 = h1.length := by
          have := hp2.length_eq
          simp at this
          omega
        simp only [mergeLoopF, if_pos hlen, hq1, hq2]
        have hqlen : (qinsert (HNode.internal (a.freq + b.freq) a b) h2).length
            = h2.length + 1 := by
          have := (qinsert_perm (HNode.internal (a.freq + b.freq) a b) h2).length_eq
          simpa using this
        apply ih <;> omega
      · simp only [mergeLoopF, if_neg hlen]
        omega

/-! ## Code-book construction (`initByRRRSets`, `initByRRRSets2`, `initByRRRSets3`)

All three variants compute per-vertex frequencies over the pool, insert one
leaf per vertex of nonzero frequency (updating `maxvtx` on `freq[i] >= max_freq`),
merge down to a single tree, and call `build_code`.  `initByRRRSets2` also
tallies `globalcnt`, which does not feed back into the tree or `maxvtx`. -/

/-- The `freq` array: occurrence count of `v` over all RR sets. -/
def rrFreq (R : List (List Nat)) (v : Nat) : Nat :=
  R.flatten.count v

/-- One step of the leaf-insertion scan: state is `(maxvtx, max_freq, heap)`. -/
def initScanStep (freq : Nat → Nat) (st : Nat × Nat × List HNode) (i : Nat) :
    Nat × Nat × List HNode :=
  if freq i ≠ 0 then
    ((if st.2.1 ≤ freq i then i else st.1),
     (if st.2.1 ≤ freq i then freq i else st.2.1),
     qinsert (HNode.leaf (freq i) i) st.2.2)
  else st

/-- The `for (i = 0; i < allNodes; i++)` scan of `initByRRRSets*`. -/
def initScan (freq : Nat → Nat) (allNodes : Nat) : Nat × Nat × List HNode :=
  (List.range allNodes).foldl (initScanStep freq) (0, 0, [])

/-- Heap after leaf insertion. -/
def huffmanHeapInit (R : List (List Nat)) (stateNum : Nat) : List HNode :=
  (initScan (rrFreq R) (2 * stateNum)).2.2

/-- The `maxvtx` remembered by `initByRRRSets` / `initByRRRSets3`. -/
def huffmanMaxvtx (R : List (List Nat)) (stateNum : Nat) : Nat :=
  (initScan (rrFreq R) (2 * stateNum)).1

/-- The final Huffman tree `qq[1]` after the merge loop.  For an empty pool the
source dereferences an uninitialised root; we return a dummy leaf. -/
def huffmanTreeOf (R : List (List Nat)) (stateNum : Nat) : HNode :=
  (mergeLoop (huffmanHeapInit R stateNum)).headD (HNode.leaf 0 0)

theorem initScan_heap_labels (freq : Nat → Nat) :
    ∀ (l : List Nat) (st : Nat × Nat × List HNode),
      (heapLabels (l.foldl (initScanStep freq) st).2.2).Perm
        ((l.filter (fun i => freq i ≠ 0)) ++ heapLabels st.2.2) := by
  intro l
  induction l with
  | nil => intro st; exact List.Perm.refl _
  | cons i l' ih =>
      intro st
      rw [List.foldl_cons]
      refine (ih (initScanStep freq st i)).trans ?_
      by_cases hf : freq i ≠ 0
      · have hstep : (heapLabels (initScanStep freq st i).2.2).Perm (i :: heapLabels st.2.2) := by
          simp only [initScanStep, if_pos hf]
          exact heapLabels_perm _ _ (qinsert_perm _ _)
        have hfl : (i :: l').filter (fun i => freq i ≠ 0) = i :: l'.filter (fun i => freq i ≠ 0) := by
          simp [hf]
        rw [hfl]
        refine (List.Perm.append_left _ hstep).trans ?_
        exact @List.perm_middle _ i (l'.filter fun j => decide (freq j ≠ 0))
          (heapLabels st.2.2)
      · have hstep : (initScanStep freq st i).2.2 = st.2.2 := by
          simp [initScanStep, hf]
        have hfl : (i :: l').filter (fun i => freq i ≠ 0) = l'.filter (fun i => freq i ≠ 0) := by
          simp [hf]
        rw [hstep, hfl]

theorem huffmanHeapInit_labels (R : List (List Nat)) (stateNum : Nat) :
    (heapLabels (huffmanHeapInit R stateNum)).Perm
      ((List.range (2 * stateNum)).filter (fun i => rrFreq R i ≠ 0)) := by
  unfold huffmanHeapInit initScan
  refine (initScan_heap_labels (rrFreq R) (List.range (2 * stateNum)) (0, 0, [])).trans ?_
  simp [heapLabels]

theorem huffmanTreeOf_labels (R : List (List Nat)) (stateNum : Nat)
    (hne : 1 ≤ (huffmanHeapInit R stateNum).length) :
    (huffmanTreeOf R stateNum).labels.Perm
      ((List.range (2 * stateNum)).filter (fun i => rrFreq R i ≠ 0)) := by
  have hlen : (mergeLoop (huffmanHeapInit R stateNum)).length = 1 := by
    unfold mergeLoop
    exact mergeLoopF_length _ _ hne (by omega)
  obtain ⟨t, ht⟩ : ∃ t, mergeLoop (huffmanHeapInit R stateNum) = [t] := by
    match hx : mergeLoop (huffmanHeapInit R stateNum), hlen with
    | [t], _ => exact ⟨t, rfl⟩
  have hlab : (heapLabels [t]).Perm (heapLabels (huffmanHeapInit R stateNum)) := by
    rw [← ht]
    exact mergeLoopF_labels _ _
  have h1 : heapLabels [t] = t.labels := by
    simp [heapLabels]
  have h2 : huffmanTreeOf R stateNum = t := by
    unfold huffmanTreeOf
    rw [ht]
    rfl
  rw [h2]
  rw [h1] at hlab
  exact hlab.trans (huffmanHeapInit_labels R stateNum)

/-- Invariant of the maxvtx scan: either nothing seen had positive frequency,
or `maxvtx` attains the maximum frequency and is the largest such index
(ties update because the source tests `freq[i] >= max_freq`). -/
def initScanInv (f : Nat → Nat) (seen : List Nat) (st : Nat × Nat × List HNode) : Prop :=
  (st.2.1 = 0 ∧ st.1 = 0 ∧ ∀ i ∈ seen, f i = 0) ∨
  (st.2.1 ≠ 0 ∧ st.1 ∈ seen ∧ f st.1 = st.2.1 ∧ (∀ i ∈ seen, f i ≤ st.2.1) ∧
    (∀ i ∈ seen, f i = st.2.1 → i ≤ st.1))

theorem initScanInv_step (f : Nat → Nat) (seen : List Nat) (st : Nat × Nat × List HNode)
    (i : Nat) (hseen : ∀ j ∈ seen, j < i) (h : initScanInv f seen st) :
    initScanInv f (seen ++ [i]) (initScanStep f st i) := by
  unfold initScanStep
  by_cases hf : f i ≠ 0
  · rw [if_pos hf]
    by_cases hle : st.2.1 ≤ f i
    · right
      refine ⟨by simp [hle, hf], by simp [hle], by simp [hle], ?_, ?_⟩
      · intro j hj
        simp only [hle, if_pos]
        rcases List.mem_append.1 hj with hj | hj
        · rcases h with ⟨hmf, _, hall⟩ | ⟨_, _, _, hub, _⟩
          · rw [hall j hj]
            omega
          · exact le_trans (hub j hj) hle
        · simp at hj
          subst hj
          rfl
      · intro j hj _
        simp only [hle, if_pos]
        rcases List.mem_append.1 hj with hj | hj
        · exact le_of_lt (hseen j hj)
        · simp at hj
          omega
    · right
      rcases h with ⟨hmf, _, _⟩ | ⟨hmf, hmem, hfv, hub, hties⟩
      · omega
      · refine ⟨by simpa [hle] using hmf, ?_, by simpa [hle] using hfv, ?_, ?_⟩
        · simp only [if_neg hle, List.mem_append]
          exact Or.inl hmem
        · intro j hj
          simp only [if_neg hle]
          rcases List.mem_append.1 hj with hj | hj
          · exact hub j hj
          · simp at hj
            subst hj
            omega
        · intro j hj htie
          simp only [if_neg hle] at htie ⊢
          rcases List.mem_append.1 hj with hj | hj
          · exact hties j hj htie
          · simp at hj
            subst hj
            omega
  · rw [if_neg hf]
    rcases h with ⟨hmf, hmv, hall⟩ | ⟨hmf, hmem, hfv, hub, hties⟩
    · left
      refine ⟨hmf, hmv, ?_⟩
      intro j hj
      rcases List.mem_append.1 hj with hj | hj
      · exact hall j hj
      · simp at hj
        subst hj
        omega
    · right
      refine ⟨hmf, List.mem_append.2 (Or.inl hmem), hfv, ?_, ?_⟩
      · intro j hj
        rcases List.mem_append.1 hj with hj | hj
        · exact hub j hj
        · simp at hj
          subst hj
          omega
      · intro j hj htie
        rcases List.mem_append.1 hj with hj | hj
        · exact hties j hj htie
        · simp at hj
          subst hj
          omega

theorem initScan_inv (f : Nat → Nat) (N : Nat) :
    initScanInv f (List.range N) (initScan f N) := by
  induction N with
  | zero =>
      left
      refine ⟨rfl, rfl, ?_⟩
      intro i hi
      simp at hi
  | succ m ih =>
      unfold initScan at ih ⊢
      rw [List.range_succ, List.foldl_append, List.foldl_cons, List.foldl_nil]
      exact initScanInv_step f (List.range m) _ m (fun j hj => List.mem_range.1 hj) ih

theorem huffmanMaxvtx_ge (R : List (List Nat)) (stateNum : Nat) (i : Nat)
    (hi : i < 2 * stateNum) :
    rrFreq R i ≤ rrFreq R (huffmanMaxvtx R stateNum) := by
  have h := initScan_inv (rrFreq R) (2 * stateNum)
  unfold huffmanMaxvtx
  rcases h with ⟨hmf, hmv, hall⟩ | ⟨hmf, hmem, hfv, hub, _⟩
  · rw [hall i (List.mem_range.2 hi)]
    exact Nat.zero_le _
  · rw [hfv]
    exact hub i (List.mem_range.2 hi)

theorem huffmanMaxvtx_largest (R : List (List Nat)) (stateNum : Nat) (i : Nat)
    (hi : i < 2 * stateNum) (hne : rrFreq R i ≠ 0)
    (htie : rrFreq R i = rrFreq R (huffmanMaxvtx R stateNum)) :
    i ≤ huffmanMaxvtx R stateNum := by
  have h := initScan_inv (rrFreq R) (2 * stateNum)
  unfold huffmanMaxvtx at htie ⊢
  rcases h with ⟨hmf, hmv, hall⟩ | ⟨hmf, hmem, hfv, hub, hties⟩
  · exact absurd (hall i (List.mem_range.2 hi)) hne
  · exact hties i (List.mem_range.2 hi) (htie.trans hfv)

/-! ## `build_code`: walking the tree assigning 0/1 code words

The source stores, per leaf vertex `c`, two 64-bit words `code[c][0..1]` and
a byte `cout[c] = (unsigned char)len`.  For `len ≤ 64` the bits sit
left-aligned in word 0.  A vertex with no leaf keeps the `memset` defaults
(`cout = 0`), which routes it to the overflow path of the encoders. -/

structure CodeEntry where
  sym : Nat
  w0 : Nat
  w1 : Nat
  cw : Nat
deriving DecidableEq, Repr

/-- `build_code(huffmanTree, n, len, out1, out2)`, producing the list of
`(c, code[c][0], code[c][1], cout[c])` stores in traversal order. -/
def build_code (n : HNode) (len : Nat) (out1 out2 : Nat) : List CodeEntry :=
  match n with
  | .leaf _ c =>
      if len ≤ 64 then
        [⟨c, (out1 <<< (64 - len)) % 2 ^ 64, out2, len % 256⟩]
      else
        [⟨c, out1, (out2 <<< (128 - len)) % 2 ^ 64, len % 256⟩]
  | .internal _ l r =>
      if len >>> 6 = 0 then
        build_code l (len + 1) (((out1 <<< 1) % 2 ^ 64) ||| 0) 0 ++
        build_code r (len + 1) (((out1 <<< 1) % 2 ^ 64) ||| 1) 0
      else
        build_code l (len + 1) out1
          ((if len % 64 ≠ 0 then (out2 <<< 1) % 2 ^ 64 else out2) ||| 0) ++
        build_code r (len + 1) out1
          ((if len % 64 ≠ 0 then (out2 <<< 1) % 2 ^ 64 else out2) ||| 1)

/-- Reading `cout[v]` (0 for vertices never assigned a code, per `memset`).
A vertex at two leaves would be written twice in C; the trees built here have
distinct leaf labels, so `find?` agrees with the array. -/
def coutOf (es : List CodeEntry) (v : Nat) : Nat :=
  match es.find? (fun e => e.sym == v) with
  | some e => e.cw
  | none => 0

/-- Reading `code[v][0]`. -/
def code0Of (es : List CodeEntry) (v : Nat) : Nat :=
  match es.find? (fun e => e.sym == v) with
  | some e => e.w0
  | none => 0

/-- The complete code book of `initByRRRSets*`: `build_code(qq[1], 0, 0, 0)`. -/
def huffmanCodes (R : List (List Nat)) (stateNum : Nat) : List CodeEntry :=
  build_code (huffmanTreeOf R stateNum) 0 0 0

/-- Root-to-leaf paths: left = 0, right = 1. -/
inductive LeafPath : HNode → List Bool → Nat → Prop where
  | leaf (f c : Nat) : LeafPath (.leaf f c) [] c
  | left {l : HNode} {p : List Bool} {c : Nat} (f : Nat) (r : HNode) :
      LeafPath l p c → LeafPath (.internal f l r) (false :: p) c
  | right {r : HNode} {p : List Bool} {c : Nat} (f : Nat) (l : HNode) :
      LeafPath r p c → LeafPath (.internal f l r) (true :: p) c

theorem LeafPath.mem_labels {t : HNode} {p : List Bool} {c : Nat} (h : LeafPath t p c) :
    c ∈ t.labels := by
  induction h with
  | leaf f c => simp [HNode.labels]
  | left f r hl ih => simp [HNode.labels, ih]
  | right f l hr ih => simp [HNode.labels, ih]

theorem exists_leafPath_of_mem {t : HNode} {c : Nat} (h : c ∈ t.labels) :
    ∃ p, LeafPath t p c := by
  induction t with
  | leaf f c0 =>
      simp [HNode.labels] at h
      subst h
      exact ⟨[], LeafPath.leaf f c⟩
  | internal f l r ihl ihr =>
      simp [HNode.labels] at h
      rcases h with h | h
      · obtain ⟨p, hp⟩ := ihl h
        exact ⟨false :: p, LeafPath.left f r hp⟩
      · obtain ⟨p, hp⟩ := ihr h
        exact ⟨true :: p, LeafPath.right f l hp⟩

theorem LeafPath.length_le_depth {t : HNode} {p : List Bool} {c : Nat} (h : LeafPath t p c) :
    p.length ≤ t.depth := by
  induction h with
  | leaf f c => simp [HNode.depth]
  | left f r hl ih =>
      simp only [HNode.depth, List.length_cons]
      omega
  | right f l hr ih =>
      simp only [HNode.depth, List.length_cons]
      omega

/-- `p` is a (possibly improper) prefix of `q`. -/
def prefixOf (p q : List Bool) : Prop :=
  ∃ s, p ++ s = q

/-- Paths to leaves are never proper prefixes of each other: if one path is a
prefix of another, they are the same path to the same leaf. -/
theorem leafPath_prefix_eq {t : HNode} :
    ∀ {p q : List Bool} {c d : Nat}, LeafPath t p c → LeafPath t q d →
      prefixOf p q → p = q ∧ c = d := by
  induction t with
  | leaf f c0 =>
      intro p q c d hp hq _
      cases hp
      cases hq
      exact ⟨rfl, rfl⟩
  | internal f l r ihl ihr =>
      intro p q c d hp hq hpre
      cases hp with
      | left _ _ hpl =>
          cases hq with
          | left _ _ hql =>
              obtain ⟨s, hs⟩ := hpre
              simp only [List.cons_append, List.cons.injEq] at hs
              obtain ⟨he, hc⟩ := ihl hpl hql ⟨s, hs.2⟩
              exact ⟨by rw [he], hc⟩
          | right _ _ hqr =>
              obtain ⟨s, hs⟩ := hpre
              simp at hs
      | right _ _ hpr =>
          cases hq with
          | left _ _ hql =>
              obtain ⟨s, hs⟩ := hpre
              simp at hs
          | right _ _ hqr =>
              obtain ⟨s, hs⟩ := hpre
              simp only [List.cons_append, List.cons.injEq] at hs
              obtain ⟨he, hc⟩ := ihr hpr hqr ⟨s, hs.2⟩
              exact ⟨by rw [he], hc⟩

/-- With duplicate-free leaf labels, each label has a unique path. -/
theorem leafPath_unique {t : HNode} (hnd : t.labels.Nodup) :
    ∀ {p q : List Bool} {c : Nat}, LeafPath t p c → LeafPath t q c → p = q := by
  induction t with
  | leaf f c0 =>
      intro p q c hp hq
      cases hp
      cases hq
      rfl
  | internal f l r ihl ihr =>
      intro p q c hp hq
      have hndl : l.labels.Nodup := (List.nodup_append.1 (by simpa [HNode.labels] using hnd)).1
      have hndr : r.labels.Nodup := (List.nodup_append.1 (by simpa [HNode.labels] using hnd)).2.1
      have hdisj : ∀ a, a ∈ l.labels → a ∉ r.labels := by
        have := (List.nodup_append.1 (by simpa [HNode.labels] using hnd)).2.2
        intro a hal har
        exact this hal har
      cases hp with
      | left _ _ hpl =>
          cases hq with
          | left _ _ hql => rw [ihl hndl hpl hql]
          | right _ _ hqr => exact absurd hqr.mem_labels (hdisj c hpl.mem_labels)
      | right _ _ hpr =>
          cases hq with
          | left _ _ hql => exact absurd hpr.mem_labels (hdisj c hql.mem_labels)
          | right _ _ hqr => rw [ihr hndr hpr hqr]

theorem build_code_syms (n : HNode) : ∀ (len out1 out2 : Nat),
    (build_code n len out1 out2).map CodeEntry.sym = n.labels := by
  induction n with
  | leaf f c =>
      intro len out1 out2
      unfold build_code HNode.labels
      split_ifs <;> rfl
  | internal f l r ihl ihr =>
      intro len out1 out2
      unfold build_code HNode.labels
      split_ifs <;> simp [List.map_append, ihl, ihr]

theorem find?_sym_append_left (L R : List CodeEntry) (c : Nat)
    (hc : c ∈ L.map CodeEntry.sym) :
    (L ++ R).find? (fun e => e.sym == c) = L.find? (fun e => e.sym == c) := by
  obtain ⟨e, he, hes⟩ := List.mem_map.1 hc
  have hsome : (L.find? (fun e => e.sym == c)).isSome :=
    List.find?_isSome.2 ⟨e, he, by simp [hes]⟩
  rw [List.find?_append]
  obtain ⟨x, hx⟩ := Option.isSome_iff_exists.1 hsome
  rw [hx]
  rfl

theorem find?_sym_append_right (L R : List CodeEntry) (c : Nat)
    (hc : c ∉ L.map CodeEntry.sym) :
    (L ++ R).find? (fun e => e.sym == c) = R.find? (fun e => e.sym == c) := by
  rw [List.find?_append]
  have hnone : L.find? (fun e => e.sym == c) = none := by
    rw [List.find?_eq_none]
    intro x hx
    simp only [beq_iff_eq]
    intro h
    exact hc (h ▸ List.mem_map_of_mem CodeEntry.sym hx)
  rw [hnone]
  rfl

theorem coutOf_append_left (L R : List CodeEntry) (c : Nat)
    (hc : c ∈ L.map CodeEntry.sym) : coutOf (L ++ R) c = coutOf L c := by
  unfold coutOf
  rw [find?_sym_append_left L R c hc]

theorem coutOf_append_right (L R : List CodeEntry) (c : Nat)
    (hc : c ∉ L.map CodeEntry.sym) : coutOf (L ++ R) c = coutOf R c := by
  unfold coutOf
  rw [find?_sym_append_right L R c hc]

theorem code0Of_append_left (L R : List CodeEntry) (c : Nat)
    (hc : c ∈ L.map CodeEntry.sym) : code0Of (L ++ R) c = code0Of L c := by
  unfold code0Of
  rw [find?_sym_append_left L R c hc]

theorem code0Of_append_right (L R : List CodeEntry) (c : Nat)
    (hc : c ∉ L.map CodeEntry.sym) : code0Of (L ++ R) c = code0Of R c := by
  unfold code0Of
  rw [find?_sym_append_right L R c hc]

theorem coutOf_build (t : HNode) : ∀ (len out1 out2 : Nat) (p : List Bool) (c : Nat),
    t.labels.Nodup → LeafPath t p c →
    coutOf (build_code t len out1 out2) c = (len + p.length) % 256 := by
  induction t with
  | leaf f c0 =>
      intro len out1 out2 p c _ hp
      cases hp
      unfold build_code coutOf
      split_ifs <;> simp [List.find?]
  | internal f l r ihl ihr =>
      intro len out1 out2 p c hnd hp
      have hndl : l.labels.Nodup := (List.nodup_append.1 (by simpa [HNode.labels] using hnd)).1
      have hndr : r.labels.Nodup := (List.nodup_append.1 (by simpa [HNode.labels] using hnd)).2.1
      have hdisj : ∀ a, a ∈ l.labels → a ∉ r.labels :=
        fun a hal har => (List.nodup_append.1 (by simpa [HNode.labels] using hnd)).2.2 hal har
      cases hp with
      | left _ _ hpl =>
          have hcl : c ∈ l.labels := hpl.mem_labels
          unfold build_code
          split_ifs <;>
          · rw [coutOf_append_left _ _ _ (by rw [build_code_syms]; exact hcl)]
            refine (ihl _ _ _ _ c hndl hpl).trans ?_
            congr 1
            simp only [List.length_cons]
            omega
      | right _ _ hpr =>
          have hcr : c ∈ r.labels := hpr.mem_labels
          have hncl : c ∉ l.labels := fun hc => hdisj c hc hcr
          unfold build_code
          split_ifs <;>
          · rw [coutOf_append_right _ _ _ (by rw [build_code_syms]; exact hncl)]
            refine (ihr _ _ _ _ c hndr hpr).trans ?_
            congr 1
            simp only [List.length_cons]
            omega

theorem natOfBits_snoc (acc : List Bool) (b : Bool) :
    natOfBits (acc ++ [b]) = 2 * natOfBits acc + b.toNat := by
  rw [natOfBits_append]
  have h1 : natOfBits [b] = b.toNat := by
    unfold natOfBits
    simp
  rw [h1]
  simp [pow_one]
  ring

/-- The stored word 0 of a leaf at total depth ≤ 64 is its path's bits,
left-aligned in the 64-bit word. -/
theorem code0Of_build (t : HNode) : ∀ (acc : List Bool) (out2 : Nat) (p : List Bool) (c : Nat),
    t.labels.Nodup → LeafPath t p c → acc.length + p.length ≤ 64 →
    code0Of (build_code t acc.length (natOfBits acc) out2) c
      = natOfBits (acc ++ p) * 2 ^ (64 - (acc.length + p.length)) := by
  induction t with
  | leaf f c0 =>
      intro acc out2 p c _ hp hle
      cases hp
      unfold build_code code0Of
      rw [if_pos (by omega : acc.length ≤ 64)]
      simp only [List.find?, beq_self_eq_true]
      have hlt : natOfBits acc * 2 ^ (64 - acc.length) < 2 ^ 64 := by
        have h1 := natOfBits_lt acc
        calc natOfBits acc * 2 ^ (64 - acc.length)
            < 2 ^ acc.length * 2 ^ (64 - acc.length) :=
              Nat.mul_lt_mul_of_lt_of_le h1 (Nat.le_refl _) (pow_two_pos _)
          _ = 2 ^ 64 := by
              rw [← pow_add]
              congr 1
              omega
      rw [Nat.shiftLeft_eq, Nat.mod_eq_of_lt hlt]
      simp
  | internal f l r ihl ihr =>
      intro acc out2 p c hnd hp hle
      have hndl : l.labels.Nodup := (List.nodup_append.1 (by simpa [HNode.labels] using hnd)).1
      have hndr : r.labels.Nodup := (List.nodup_append.1 (by simpa [HNode.labels] using hnd)).2.1
      have hdisj : ∀ a, a ∈ l.labels → a ∉ r.labels :=
        fun a hal har => (List.nodup_append.1 (by simpa [HNode.labels] using hnd)).2.2 hal har
      have hplen : 1 ≤ p.length := by
        cases hp <;> simp
      have hacc63 : acc.length ≤ 63 := by omega
      have hidx : acc.length >>> 6 = 0 := by
        rw [Nat.shiftRight_eq_div_pow]
        omega
      have hshift : (natOfBits acc <<< 1) % 2 ^ 64 = 2 * natOfBits acc := by
        rw [Nat.shiftLeft_eq, pow_one]
        rw [Nat.mod_eq_of_lt]
        · ring
        · have h1 := natOfBits_lt acc
          have h2 : (2 : Nat) ^ acc.length * 2 ≤ 2 ^ 64 := by
            have : (2 : Nat) ^ acc.length * 2 = 2 ^ (acc.length + 1) := by ring
            rw [this]
            exact Nat.pow_le_pow_right (by norm_num) (by omega)
          omega
      unfold build_code
      rw [if_pos hidx]
      cases hp with
      | left _ _ hpl =>
          simp only [List.length_cons] at hle
          have hcl : c ∈ l.labels := hpl.mem_labels
          rw [code0Of_append_left _ _ _ (by rw [build_code_syms]; exact hcl)]
          have hout1 : ((natOfBits acc <<< 1) % 2 ^ 64) ||| 0 = natOfBits (acc ++ [false]) := by
            rw [hshift, natOfBits_snoc]
            simp
          have hlen1 : acc.length + 1 = (acc ++ [false]).length := by simp
          rw [hout1]
          have := ihl (acc ++ [false]) 0 _ c hndl hpl (by simp; omega)
          rw [← hlen1] at this
          rw [this]
          rw [List.append_assoc]
          congr 2 <;> simp <;> omega
      | right _ _ hpr =>
          simp only [List.length_cons] at hle
          have hcr : c ∈ r.labels := hpr.mem_labels
          have hncl : c ∉ l.labels := fun hc => hdisj c hc hcr
          rw [code0Of_append_right _ _ _ (by rw [build_code_syms]; exact hncl)]
          have hout1 : ((natOfBits acc <<< 1) % 2 ^ 64) ||| 1 = natOfBits (acc ++ [true]) := by
            rw [hshift, natOfBits_snoc]
            have hdvd : 2 ^ 1 ∣ 2 * natOfBits acc := ⟨natOfBits acc, by ring⟩
            rw [lor_eq_add 1 _ 1 hdvd (by norm_num)]
            simp
          have hlen1 : acc.length + 1 = (acc ++ [true]).length := by simp
          rw [hout1]
          have := ihr (acc ++ [true]) 0 _ c hndr hpr (by simp; omega)
          rw [← hlen1] at this
          rw [this]
          rw [List.append_assoc]
          congr 2 <;> simp <;> omega

/-! ## The bit packer shared by `encodeRR` / `encodeRR2` / `encodeRR22` / `encodeRR3`

All four encoders contain the identical `lackBits` packing block per encoded
vertex; they differ only in the code-length cutoff (`bitSize < 20` in
`encodeRR`, `bitSize <= 32` in the others) and in whether `maxvtx` is first
swapped to the front (`encodeRR22` / `encodeRR3`).  We transcribe the packing
block once (`packStep`) and instantiate the loop per encoder. -/

structure PackState where
  buf : Nat → Nat
  p : Nat
  lackBits : Nat
  encodeSize : Nat

/-- `longToBytes_bigEndian(b, num)`: write the 8 bytes of `num`, big-endian,
at offsets `p .. p+7`. -/
def longToBytes_bigEndian (buf : Nat → Nat) (p : Nat) (num : Nat) : Nat → Nat :=
  fun i => if p ≤ i ∧ i < p + 8 then (num >>> (8 * (7 - (i - p)))) % 256 else buf i

/-- The `*p = (*p) | x` merge into the current partial byte. -/
def orByte (buf : Nat → Nat) (p : Nat) (x : Nat) : Nat → Nat :=
  fun i => if i = p then buf p ||| x else buf i

/-- One vertex's packing step: the `if (lackBits == 0) ... else ...` block.
`w0`, `w1` are `code[state][0..1]`, `bitSize0` is `cout[state]`.  The
`bitSize > 64` sub-branch is transcribed structurally but is unreachable from
every encoder in the source (their guards force `bitSize ≤ 32`); in the
source that branch also adds a stale, uninitialised `byteSize` to
`*encodeSize`, which a deterministic model cannot reproduce — we leave
`encodeSize` unchanged there and prove nothing about it. -/
def packStep (w0 w1 : Nat) (bitSize0 : Nat) (st : PackState) : PackState :=
  if st.lackBits = 0 then
    if (if bitSize0 % 8 = 0 then bitSize0 / 8 else bitSize0 / 8 + 1) ≤ 8 then
      { buf := longToBytes_bigEndian st.buf st.p w0,
        p := st.p + bitSize0 / 8,
        lackBits := if bitSize0 % 8 = 0 then 0 else 8 - bitSize0 % 8,
        encodeSize := st.encodeSize
          + (if bitSize0 % 8 = 0 then bitSize0 / 8 else bitSize0 / 8 + 1) }
    else
      { buf := longToBytes_bigEndian (longToBytes_bigEndian st.buf st.p w0) (st.p + 8) w1,
        p := st.p + 8 + (bitSize0 / 8 - 8),
        lackBits := if bitSize0 % 8 = 0 then 0 else 8 - bitSize0 % 8,
        encodeSize := st.encodeSize
          + (if bitSize0 % 8 = 0 then bitSize0 / 8 else bitSize0 / 8 + 1) }
  else
    if st.lackBits < bitSize0 then
      if bitSize0 ≤ 64 then
        { buf := longToBytes_bigEndian (orByte st.buf st.p (w0 >>> (64 - st.lackBits)))
            (st.p + 1) ((w0 <<< st.lackBits) % 2 ^ 64),
          p := st.p + 1 + (bitSize0 - st.lackBits) / 8,
          lackBits := if (bitSize0 - st.lackBits) % 8 = 0 then 0
            else 8 - (bitSize0 - st.lackBits) % 8,
          encodeSize := st.encodeSize + (if (bitSize0 - st.lackBits) % 8 = 0
            then (bitSize0 - st.lackBits) / 8 else (bitSize0 - st.lackBits) / 8 + 1) }
      else
        { buf := longToBytes_bigEndian (orByte st.buf st.p (w0 >>> (64 - st.lackBits)))
            (st.p + 1) ((w0 <<< st.lackBits) % 2 ^ 64),
          p := st.p + 1 + 7, lackBits := st.lackBits, encodeSize := st.encodeSize }
    else
      { buf := orByte st.buf st.p (w0 >>> (64 - st.lackBits)),
        p := if st.lackBits - bitSize0 = 0 then st.p + 1 else st.p,
        lackBits := st.lackBits - bitSize0,
        encodeSize := st.encodeSize }

/-- The packing invariant tying a `PackState` to the abstract bit stream
written so far: the pointer, remainder, byte count and every byte of the
buffer are determined by the stream. -/
def PackInv (st : PackState) (S : List Bool) : Prop :=
  st.p = S.length / 8 ∧
  st.lackBits = (8 - S.length % 8) % 8 ∧
  st.encodeSize = (S.length + 7) / 8 ∧
  ∀ i, st.buf i = streamByte S i

theorem streamByte_eq_zero (S : List Bool) (i : Nat) (h : S.length ≤ 8 * i) :
    streamByte S i = 0 := by
  unfold streamByte
  rw [List.drop_eq_nil_of_le h]
  have : takePad 8 [] = List.replicate 8 false := by simp [takePad]
  rw [this, natOfBits_replicate_false]

theorem streamByte_append_low (S T : List Bool) (i : Nat) (h : 8 * i + 8 ≤ S.length) :
    streamByte (S ++ T) i = streamByte S i := by
  rw [streamByte_explicit, streamByte_explicit]
  have hg : ∀ j, j < S.length → (S ++ T).getD j false = S.getD j false := by
    intro j hj
    rw [List.getD_eq_getElem _ _ (by simp; omega), List.getD_eq_getElem _ _ hj]
    exact List.getElem_append_left hj
  rw [hg _ (by omega), hg _ (by omega), hg _ (by omega), hg _ (by omega),
    hg _ (by omega), hg _ (by omega), hg _ (by omega), hg _ (by omega)]

theorem drop_append_ge (S T : List Bool) (n : Nat) (h : S.length ≤ n) :
    (S ++ T).drop n = T.drop (n - S.length) := by
  rw [List.drop_append_eq_append_drop]
  rw [List.drop_eq_nil_of_le h, List.nil_append]

theorem streamByte_append_high (S T : List Bool) (i : Nat) (h : S.length ≤ 8 * i) :
    streamByte (S ++ T) i = natOfBits (takePad 8 (T.drop (8 * i - S.length))) := by
  unfold streamByte
  rw [drop_append_ge S T _ h]

/-- A partial final byte: when `|S| = 8p + r` with `r ≤ 8`, byte `p` holds the
last `r` bits shifted into the high end. -/
theorem streamByte_last (S : List Bool) (p : Nat) (hlo : 8 * p ≤ S.length)
    (hhi : S.length ≤ 8 * p + 8) :
    streamByte S p = natOfBits (S.drop (8 * p)) * 2 ^ (8 - (S.length - 8 * p)) := by
  unfold streamByte takePad
  have hlen : (S.drop (8 * p)).length = S.length - 8 * p := List.length_drop _ _
  rw [List.take_of_length_le (by omega)]
  rw [natOfBits_append_replicate, hlen]

theorem natOfBits_take_drop (cb : List Bool) (lam : Nat) (hlam : lam ≤ cb.length) :
    natOfBits cb = natOfBits (cb.take lam) * 2 ^ (cb.length - lam) + natOfBits (cb.drop lam) := by
  conv_lhs => rw [← List.take_append_drop lam cb]
  rw [natOfBits_append, List.length_drop]

theorem word_shift_top (cb : List Bool) (lam : Nat) (hL : cb.length ≤ 64)
    (hlam : lam ≤ cb.length) :
    (natOfBits cb * 2 ^ (64 - cb.length)) >>> (64 - lam) = natOfBits (cb.take lam) := by
  rw [Nat.shiftRight_eq_div_pow]
  rw [natOfBits_take_drop cb lam hlam]
  have hd := natOfBits_lt (cb.drop lam)
  rw [List.length_drop] at hd
  have hsplit : (natOfBits (cb.take lam) * 2 ^ (cb.length - lam) + natOfBits (cb.drop lam))
      * 2 ^ (64 - cb.length)
      = natOfBits (cb.drop lam) * 2 ^ (64 - cb.length)
        + 2 ^ (64 - lam) * natOfBits (cb.take lam) := by
    have he : (cb.length - lam) + (64 - cb.length) = 64 - lam := by omega
    rw [Nat.add_mul, Nat.mul_assoc, ← pow_add, he]
    ring
  rw [hsplit, Nat.add_mul_div_left _ _ (pow_two_pos _)]
  have hz : natOfBits (cb.drop lam) * 2 ^ (64 - cb.length) / 2 ^ (64 - lam) = 0 := by
    apply Nat.div_eq_of_lt
    calc natOfBits (cb.drop lam) * 2 ^ (64 - cb.length)
        < 2 ^ (cb.length - lam) * 2 ^ (64 - cb.length) :=
          Nat.mul_lt_mul_of_lt_of_le hd (Nat.le_refl _) (pow_two_pos _)
      _ = 2 ^ (64 - lam) := by
          rw [← pow_add]
          congr 1
          omega
  rw [hz]
  omega

theorem word_shift_top_all (cb : List Bool) (lam : Nat) (hL : cb.length ≤ 64)
    (hlam : cb.length ≤ lam) (hlam8 : lam ≤ 64) :
    (natOfBits cb * 2 ^ (64 - cb.length)) >>> (64 - lam) = natOfBits cb * 2 ^ (lam - cb.length) := by
  rw [Nat.shiftRight_eq_div_pow]
  have he : 64 - cb.length = (lam - cb.length) + (64 - lam) := by omega
  rw [he, pow_add, ← Nat.mul_assoc]
  exact Nat.mul_div_cancel _ (pow_two_pos _)

theorem word_shift_left (cb : List Bool) (lam : Nat) (hL : cb.length ≤ 64)
    (hlam : lam < cb.length) :
    ((natOfBits cb * 2 ^ (64 - cb.length)) <<< lam) % 2 ^ 64
      = natOfBits (cb.drop lam) * 2 ^ (64 - (cb.length - lam)) := by
  rw [Nat.shiftLeft_eq]
  rw [natOfBits_take_drop cb lam (by omega)]
  have hsplit : (natOfBits (cb.take lam) * 2 ^ (cb.length - lam) + natOfBits (cb.drop lam))
      * 2 ^ (64 - cb.length) * 2 ^ lam
      = natOfBits (cb.take lam) * 2 ^ 64 + natOfBits (cb.drop lam) * 2 ^ (64 - (cb.length - lam)) := by
    have p2 : (2 : Nat) ^ (64 - cb.length) * 2 ^ lam = 2 ^ (64 - (cb.length - lam)) := by
      rw [← pow_add]
      congr 1
      omega
    have p1 : (2 : Nat) ^ (cb.length - lam) * (2 ^ (64 - cb.length) * 2 ^ lam) = 2 ^ 64 := by
      rw [p2, ← pow_add]
      congr 1
      omega
    rw [Nat.add_mul, Nat.add_mul, Nat.mul_assoc, Nat.mul_assoc, Nat.mul_assoc, p1, p2]
  rw [hsplit]
  have hlt : natOfBits (cb.drop lam) * 2 ^ (64 - (cb.length - lam)) < 2 ^ 64 := by
    have hd := natOfBits_lt (cb.drop lam)
    rw [List.length_drop] at hd
    calc natOfBits (cb.drop lam) * 2 ^ (64 - (cb.length - lam))
        < 2 ^ (cb.length - lam) * 2 ^ (64 - (cb.length - lam)) :=
          Nat.mul_lt_mul_of_lt_of_le hd (Nat.le_refl _) (pow_two_pos _)
      _ = 2 ^ 64 := by
          rw [← pow_add]
          congr 1
          omega
  rw [Nat.mul_comm (natOfBits (cb.take lam)) (2 ^ 64), Nat.mul_add_mod, Nat.mod_eq_of_lt hlt]

/-- One packing step appends exactly the code's bits to the abstract stream.
This is the correctness of the `lackBits` byte-merging machinery for codes of
1..32 bits (every code the encoders emit, given their `< 20` / `≤ 32` guards). -/
theorem packStep_inv (st : PackState) (S cb : List Bool) (w1 : Nat)
    (h1 : 1 ≤ cb.length) (h32 : cb.length ≤ 32) (hinv : PackInv st S) :
    PackInv (packStep (natOfBits cb * 2 ^ (64 - cb.length)) w1 cb.length st) (S ++ cb) := by
  obtain ⟨hp, hlam, hsz, hbytes⟩ := hinv
  have hrlt : S.length % 8 < 8 := Nat.mod_lt _ (by norm_num)
  have hdiv : 8 * (S.length / 8) + S.length % 8 = S.length := by omega
  unfold packStep
  by_cases hl0 : st.lackBits = 0
  · rw [if_pos hl0]
    have hr0 : S.length % 8 = 0 := by omega
    have hbs : (if cb.length % 8 = 0 then cb.length / 8 else cb.length / 8 + 1) ≤ 8 := by
      split_ifs <;> omega
    rw [if_pos hbs]
    refine ⟨?_, ?_, ?_, ?_⟩
    · simp only [List.length_append]
      omega
    · simp only [List.length_append]
      split_ifs <;> omega
    · simp only [List.length_append]
      split_ifs <;> omega
    · intro i
      simp only [longToBytes_bigEndian]
      by_cases hblo : i < st.p
      · rw [if_neg (by omega)]
        rw [hbytes i]
        exact (streamByte_append_low S cb i (by omega)).symm
      · by_cases hbmid : i < st.p + 8
        · rw [if_pos ⟨by omega, hbmid⟩]
          have hd8 : i - st.p < 8 := by omega
          rw [Nat.shiftRight_eq_div_pow]
          rw [extract_byte cb (by omega) (i - st.p) hd8]
          rw [streamByte_append_high S cb i (by omega)]
          have he : 8 * i - S.length = 8 * (i - st.p) := by omega
          rw [he]
          rfl
        · rw [if_neg (by omega)]
          rw [hbytes i]
          rw [streamByte_eq_zero S i (by omega), streamByte_eq_zero _ i (by simp; omega)]
  · rw [if_neg hl0]
    have hlam7 : st.lackBits ≤ 7 := by omega
    have hlam1 : 1 ≤ st.lackBits := by omega
    have hB : S.length = 8 * st.p + (8 - st.lackBits) := by omega
    have hdropS : ((S ++ cb).drop (8 * st.p)) = S.drop (8 * st.p) ++ cb := by
      rw [List.drop_append_eq_append_drop]
      have : 8 * st.p - S.length = 0 := by omega
      rw [this, List.drop_zero]
    have hlenDropS : (S.drop (8 * st.p)).length = 8 - st.lackBits := by
      rw [List.length_drop]
      omega
    have hbufp : st.buf st.p = natOfBits (S.drop (8 * st.p)) * 2 ^ st.lackBits := by
      rw [hbytes st.p]
      rw [streamByte_last S st.p (by omega) (by omega)]
      have he8 : 8 - (S.length - 8 * st.p) = st.lackBits := by omega
      rw [he8]
    by_cases hcmp : st.lackBits < cb.length
    · rw [if_pos hcmp, if_pos (by omega : cb.length ≤ 64)]
      have hx : (natOfBits cb * 2 ^ (64 - cb.length)) >>> (64 - st.lackBits)
          = natOfBits (cb.take st.lackBits) :=
        word_shift_top cb st.lackBits (by omega) (by omega)
      have hxlt : natOfBits (cb.take st.lackBits) < 2 ^ st.lackBits := by
        have := natOfBits_lt (cb.take st.lackBits)
        rw [List.length_take] at this
        have hmin : min st.lackBits cb.length = st.lackBits := by omega
        rw [hmin] at this
        exact this
      have hnew : ((natOfBits cb * 2 ^ (64 - cb.length)) <<< st.lackBits) % 2 ^ 64
          = natOfBits (cb.drop st.lackBits) * 2 ^ (64 - (cb.length - st.lackBits)) :=
        word_shift_left cb st.lackBits (by omega) hcmp
      refine ⟨?_, ?_, ?_, ?_⟩
      · simp only [List.length_append]
        omega
      · simp only [List.length_append]
        split_ifs <;> omega
      · simp only [List.length_append]
        split_ifs <;> omega
      · intro i
        simp only [longToBytes_bigEndian, orByte]
        by_cases hblo : i < st.p
        · rw [if_neg (by omega), if_neg (by omega)]
          rw [hbytes i]
          exact (streamByte_append_low S cb i (by omega)).symm
        · by_cases hbp : i = st.p
          · rw [if_neg (by omega), if_pos hbp, hbufp, hx]
            rw [lor_eq_add st.lackBits _ _ ⟨natOfBits (S.drop (8 * st.p)), by ring⟩ hxlt]
            subst hbp
            unfold streamByte
            rw [hdropS]
            unfold takePad
            have hlen2 : (S.drop (8 * st.p) ++ cb).length = 8 - st.lackBits + cb.length := by
              rw [List.length_append, hlenDropS]
            have htk : (S.drop (8 * st.p) ++ cb).take 8
                = S.drop (8 * st.p) ++ cb.take st.lackBits := by
              rw [List.take_append_eq_append_take]
              rw [List.take_of_length_le (by rw [hlenDropS]; omega)]
              rw [hlenDropS]
              have he2 : 8 - (8 - st.lackBits) = st.lackBits := by omega
              rw [he2]
            have hrep : 8 - (S.drop (8 * st.p) ++ cb).length = 0 := by
              rw [hlen2]
              omega
            rw [htk, hrep, List.replicate_zero, List.append_nil, natOfBits_append]
            rw [List.length_take]
            have hmin : min st.lackBits cb.length = st.lackBits := by omega
            rw [hmin]
          · by_cases hbmid : i < st.p + 9
            · rw [if_pos ⟨by omega, by omega⟩]
              rw [hnew, Nat.shiftRight_eq_div_pow]
              have hd8 : i - (st.p + 1) < 8 := by omega
              have hlen3 : (cb.drop st.lackBits).length = cb.length - st.lackBits :=
                List.length_drop _ _
              have hext := extract_byte (cb.drop st.lackBits) (by omega) (i - (st.p + 1)) hd8
              rw [hlen3] at hext
              rw [hext]
              rw [streamByte_append_high S cb i (by omega)]
              unfold streamByte
              have hdd : cb.drop (8 * i - S.length)
                  = (cb.drop st.lackBits).drop (8 * (i - (st.p + 1))) := by
                rw [List.drop_drop]
                congr 1
                omega
              rw [hdd]
            · rw [if_neg (by omega), if_neg (by omega)]
              rw [hbytes i]
              rw [streamByte_eq_zero S i (by omega), streamByte_eq_zero _ i (by simp; omega)]
    · rw [if_neg hcmp]
      have hx : (natOfBits cb * 2 ^ (64 - cb.length)) >>> (64 - st.lackBits)
          = natOfBits cb * 2 ^ (st.lackBits - cb.length) :=
        word_shift_top_all cb st.lackBits (by omega) (by omega) (by omega)
      have hxlt : natOfBits cb * 2 ^ (st.lackBits - cb.length) < 2 ^ st.lackBits := by
        have hc := natOfBits_lt cb
        calc natOfBits cb * 2 ^ (st.lackBits - cb.length)
            < 2 ^ cb.length * 2 ^ (st.lackBits - cb.length) :=
              Nat.mul_lt_mul_of_lt_of_le hc (Nat.le_refl _) (pow_two_pos _)
          _ = 2 ^ st.lackBits := by
              rw [← pow_add]
              congr 1
              omega
      refine ⟨?_, ?_, ?_, ?_⟩
      · simp only [List.length_append]
        split_ifs <;> omega
      · simp only [List.length_append]
        omega
      · simp only [List.length_append]
        omega
      · intro i
        simp only [orByte]
        by_cases hbp : i = st.p
        · rw [if_pos hbp, hbufp, hx]
          rw [lor_eq_add st.lackBits _ _ ⟨natOfBits (S.drop (8 * st.p)), by ring⟩ hxlt]
          subst hbp
          rw [streamByte_last (S ++ cb) st.p (by simp; omega) (by simp; omega)]
          rw [hdropS, natOfBits_append]
          have hre : (S ++ cb).length - 8 * st.p = 8 - st.lackBits + cb.length := by
            simp
            omega
          rw [hre]
          have hexp2 : 8 - (8 - st.lackBits + cb.length) = st.lackBits - cb.length := by omega
          rw [hexp2, Nat.add_mul]
          congr 1
          rw [Nat.mul_assoc, ← pow_add]
          congr 2
          omega
        · rw [if_neg hbp]
          by_cases hblo : i < st.p
          · rw [hbytes i]
            exact (streamByte_append_low S cb i (by omega)).symm
          · rw [hbytes i]
            rw [streamByte_eq_zero S i (by omega), streamByte_eq_zero _ i (by simp; omega)]

/-- Cutoff of `encodeRR`: `if(bitSize<20 && bitSize)`. -/
def guard20 (bs : Nat) : Bool := bs < 20 && bs != 0

/-- Cutoff of `encodeRR2` / `encodeRR22` / `encodeRR3`: `if(bitSize<=32 && bitSize)`. -/
def guard32 (bs : Nat) : Bool := bs ≤ 32 && bs != 0

structure EncState where
  pack : PackState
  code_cnt : Nat
  copy_cnt : Nat
  cpy : List Nat

/-- One iteration of the encoder's vertex loop: look up `bitSize = cout[state]`;
if the cutoff admits it, run the packer, else count (and, in lossless mode,
store) an overflow vertex. -/
def encodeStep (cout code0 code1 : Nat → Nat) (guard : Nat → Bool) (storeCopy : Bool)
    (st : EncState) (v : Nat) : EncState :=
  if guard (cout v) then
    { st with pack := packStep (code0 v) (code1 v) (cout v) st.pack,
              code_cnt := st.code_cnt + 1 }
  else
    { st with copy_cnt := st.copy_cnt + 1,
              cpy := if storeCopy then st.cpy ++ [v] else st.cpy }

/-- Fresh state: zeroed output buffer (`memset`), `*encodeSize = *code_cnt =
*copy_cnt = 0`. -/
def encInit : EncState :=
  ⟨⟨fun _ => 0, 0, 0, 0⟩, 0, 0, []⟩

def encodeLoop (cout code0 code1 : Nat → Nat) (guard : Nat → Bool) (storeCopy : Bool)
    (R : List Nat) : EncState :=
  R.foldl (encodeStep cout code0 code1 guard storeCopy) encInit

/-- The `std::find` + `iter_swap` prologue of `encodeRR22` / `encodeRR3`:
swap the first occurrence of `maxvtx` (if any) to the front, mutating the RR
set in place. -/
def swapFront (maxvtx : Nat) (R : List Nat) : List Nat :=
  if h : R.findIdx (fun v => v == maxvtx) < R.length then
    (R.set 0 (R.getD (R.findIdx (fun v => v == maxvtx)) 0)).set
      (R.findIdx (fun v => v == maxvtx)) (R.getD 0 0)
  else R

/-- `encodeRR(huffmanTree, in_begin, length, out, ...)` (the `< 20` cutoff,
no swap, overflow always stored). -/
def encodeRR (cout code0 code1 : Nat → Nat) (R : List Nat) : EncState :=
  encodeLoop cout code0 code1 guard20 true R

/-- `encodeRR22(huffmanTree, in_begin, length, out, ..., maxvtx, lossyFlag)`:
swap `maxvtx` to the front, then encode with the `≤ 32` cutoff; overflow
vertices are stored only in lossless mode (`lossyFlag == "N"`).  The second
component is the RR set as left in the pool (mutated by the swap). -/
def encodeRR22 (cout code0 code1 : Nat → Nat) (maxvtx : Nat) (lossyFlag : String)
    (R : List Nat) : EncState × List Nat :=
  (encodeLoop cout code0 code1 guard32 (lossyFlag == "N") (swapFront maxvtx R),
   swapFront maxvtx R)

/-- Concatenated code bits of a vertex sequence. -/
def streamOf (bits : Nat → List Bool) (l : List Nat) : List Bool :=
  (l.map bits).flatten

theorem encodeStep_pos (cout code0 code1 : Nat → Nat) (guard : Nat → Bool) (storeCopy : Bool)
    (st : EncState) (v : Nat) (hg : guard (cout v) = true) :
    encodeStep cout code0 code1 guard storeCopy st v
      = { st with pack := packStep (code0 v) (code1 v) (cout v) st.pack,
                  code_cnt := st.code_cnt + 1 } := by
  unfold encodeStep
  rw [if_pos hg]

theorem encodeStep_neg (cout code0 code1 : Nat → Nat) (guard : Nat → Bool) (storeCopy : Bool)
    (st : EncState) (v : Nat) (hg : ¬guard (cout v) = true) :
    encodeStep cout code0 code1 guard storeCopy st v
      = { st with copy_cnt := st.copy_cnt + 1,
                  cpy := if storeCopy then st.cpy ++ [v] else st.cpy } := by
  unfold encodeStep
  rw [if_neg hg]

theorem packInv_init : PackInv encInit.pack [] := by
  refine ⟨rfl, rfl, rfl, ?_⟩
  intro i
  rw [streamByte_eq_zero [] i (by simp)]
  rfl

theorem encodeLoop_inv (cout code0 code1 : Nat → Nat) (guard : Nat → Bool)
    (storeCopy : Bool) (bits : Nat → List Bool) :
    ∀ (R : List Nat),
      (∀ v ∈ R, guard (cout v) = true → cout v = (bits v).length ∧ 1 ≤ (bits v).length ∧
        (bits v).length ≤ 32 ∧ code0 v = natOfBits (bits v) * 2 ^ (64 - (bits v).length)) →
      PackInv (encodeLoop cout code0 code1 guard storeCopy R).pack
          (streamOf bits (R.filter (fun v => guard (cout v)))) ∧
        (encodeLoop cout code0 code1 guard storeCopy R).code_cnt
          = (R.filter (fun v => guard (cout v))).length ∧
        (encodeLoop cout code0 code1 guard storeCopy R).cpy
          = (if storeCopy then R.filter (fun v => !(guard (cout v))) else []) ∧
        (encodeLoop cout code0 code1 guard storeCopy R).copy_cnt
          = (R.filter (fun v => !(guard (cout v)))).length := by
  intro R
  induction R using List.reverseRecOn with
  | nil =>
      intro _
      refine ⟨packInv_init, rfl, ?_, rfl⟩
      cases storeCopy <;> rfl
  | append_singleton R v ih =>
      intro hall
      have hR := ih (fun w hw hg => hall w (List.mem_append.2 (Or.inl hw)) hg)
      obtain ⟨hpack, hcnt, hcpy, hccnt⟩ := hR
      unfold encodeLoop at hpack hcnt hcpy hccnt ⊢
      rw [List.foldl_append, List.foldl_cons, List.foldl_nil]
      by_cases hg : guard (cout v) = true
      · rw [encodeStep_pos cout code0 code1 guard storeCopy _ v hg]
        obtain ⟨hcl, hb1, hb32, hc0⟩ := hall v (List.mem_append.2 (Or.inr (by simp))) hg
        have hfl : (R ++ [v]).filter (fun w => guard (cout w))
            = R.filter (fun w => guard (cout w)) ++ [v] := by
          rw [List.filter_append]
          simp [hg]
        have hfl2 : (R ++ [v]).filter (fun w => !(guard (cout w)))
            = R.filter (fun w => !(guard (cout w))) := by
          rw [List.filter_append]
          simp [hg]
        refine ⟨?_, ?_, ?_, ?_⟩
        · rw [hfl]
          unfold streamOf
          rw [List.map_append, List.flatten_append]
          have hflat : ([v].map bits).flatten = bits v := by simp
          rw [hflat]
          have := packStep_inv _ _ (bits v) (code1 v) hb1 hb32 hpack
          rw [← hc0, ← hcl] at this
          exact this
        · rw [hfl]
          simp [hcnt]
        · rw [hfl2]
          exact hcpy
        · rw [hfl2]
          exact hccnt
      · rw [encodeStep_neg cout code0 code1 guard storeCopy _ v hg]
        have hgf : guard (cout v) = false := by
          cases hgv : guard (cout v)
          · rfl
          · exact absurd hgv hg
        have hfl : (R ++ [v]).filter (fun w => guard (cout w))
            = R.filter (fun w => guard (cout w)) := by
          rw [List.filter_append]
          simp [hgf]
        have hfl2 : (R ++ [v]).filter (fun w => !(guard (cout w)))
            = R.filter (fun w => !(guard (cout w))) ++ [v] := by
          rw [List.filter_append]
          simp [hgf]
        refine ⟨?_, ?_, ?_, ?_⟩
        · rw [hfl]
          exact hpack
        · rw [hfl]
          exact hcnt
        · rw [hfl2, hcpy]
          cases storeCopy <;> simp
        · rw [hfl2]
          simp [hccnt]

/-! ## Decoding (`decode`, `decodeCheck`)

The decoder walks the tree bit by bit, MSB-first, restarting at the root on
each emitted leaf, until `targetLength` symbols have been produced.  The C
loop indexes an unbounded byte stream; we materialise its first `nbits` bits
(`8 * encodeSize` at every call site), which is enough whenever the walk
completes within the written bytes — exactly what the round-trip theorem
proves. -/

def decodeBits (root : HNode) : HNode → List Bool → Nat → List Nat
  | _, _, 0 => []
  | _, [], _ + 1 => []
  | cur, b :: bs, k + 1 =>
      match cur with
      | .leaf _ _ => []
      | .internal _ l r =>
          match (if b then r else l) with
          | .leaf _ c => c :: decodeBits root root bs k
          | .internal f2 l2 r2 => decodeBits root (.internal f2 l2 r2) bs (k + 1)

/-- `decode(s, targetLength, t, out)`.  A single-leaf root (`root->t == 1`)
emits `targetLength` copies of its vertex without reading bits. -/
def decode (s : Nat → Nat) (nbits targetLength : Nat) (t : HNode) : List Nat :=
  match t with
  | .leaf _ c => List.replicate targetLength c
  | .internal f l r =>
      decodeBits (.internal f l r) (.internal f l r)
        ((List.range nbits).map (fun i => bufBit s i)) targetLength

/-- `decodeCheck`: like `decode` but stops early (setting `*find_flag`) as
soon as an emitted vertex equals `target`.  Note the single-leaf special case
returns without ever setting the flag, even when the leaf is the target. -/
def decodeCheckBits (root : HNode) (target : Nat) : HNode → List Bool → Nat → List Nat × Bool
  | _, _, 0 => ([], false)
  | _, [], _ + 1 => ([], false)
  | cur, b :: bs, k + 1 =>
      match cur with
      | .leaf _ _ => ([], false)
      | .internal _ l r =>
          match (if b then r else l) with
          | .leaf _ c =>
              if c = target then ([c], true)
              else
                ((decodeCheckBits root target root bs k).1.cons c,
                 (decodeCheckBits root target root bs k).2)
          | .internal f2 l2 r2 => decodeCheckBits root target (.internal f2 l2 r2) bs (k + 1)

def decodeCheck (s : Nat → Nat) (nbits targetLength : Nat) (t : HNode) (target : Nat) :
    List Nat × Bool :=
  match t with
  | .leaf _ c => (List.replicate targetLength c, false)
  | .internal f l r =>
      decodeCheckBits (.internal f l r) target (.internal f l r)
        ((List.range nbits).map (fun i => bufBit s i)) targetLength

theorem leafPath_cons_internal {t : HNode} {b : Bool} {p : List Bool} {c : Nat}
    (h : LeafPath t (b :: p) c) : ∃ f l r, t = .internal f l r := by
  cases h with
  | left f r hl => exact ⟨_, _, _, rfl⟩
  | right f l hr => exact ⟨_, _, _, rfl⟩

/-- Walking a leaf's path from the root emits that leaf and leaves the rest
of the stream for the next symbol. -/
theorem decodeBits_path (root : HNode) :
    ∀ (p : List Bool) (cur : HNode) (c : Nat) (rest : List Bool) (k : Nat),
      LeafPath cur p c → p ≠ [] →
      decodeBits root cur (p ++ rest) (k + 1) = c :: decodeBits root root rest k := by
  intro p
  induction p with
  | nil =>
      intro cur c rest k _ hne
      exact absurd rfl hne
  | cons b p2 ih =>
      intro cur c rest k hp _
      cases b
      · cases hp with
        | left f r hl =>
            cases p2 with
            | nil =>
                cases hl
                rfl
            | cons b2 p3 =>
                obtain ⟨f2, l2, r2, rfl⟩ := leafPath_cons_internal hl
                have hstep : decodeBits root (HNode.internal f (HNode.internal f2 l2 r2) r)
                    ((false :: b2 :: p3) ++ rest) (k + 1)
                    = decodeBits root (HNode.internal f2 l2 r2) ((b2 :: p3) ++ rest) (k + 1) := rfl
                rw [hstep]
                exact ih _ c rest k hl (by simp)
      · cases hp with
        | right f l hr =>
            cases p2 with
            | nil =>
                cases hr
                rfl
            | cons b2 p3 =>
                obtain ⟨f2, l2, r2, rfl⟩ := leafPath_cons_internal hr
                have hstep : decodeBits root (HNode.internal f l (HNode.internal f2 l2 r2))
                    ((true :: b2 :: p3) ++ rest) (k + 1)
                    = decodeBits root (HNode.internal f2 l2 r2) ((b2 :: p3) ++ rest) (k + 1) := rfl
                rw [hstep]
                exact ih _ c rest k hr (by simp)

/-- Decoding the concatenation of the code paths of `vs` (plus any trailing
bits) yields exactly `vs`. -/
theorem decodeBits_concat (root : HNode) (bits : Nat → List Bool) :
    ∀ (vs : List Nat) (rest : List Bool),
      (∀ v ∈ vs, LeafPath root (bits v) v ∧ bits v ≠ []) →
      decodeBits root root (streamOf bits vs ++ rest) vs.length = vs := by
  intro vs
  induction vs with
  | nil =>
      intro rest _
      cases h : streamOf bits [] ++ rest with
      | nil => rfl
      | cons b bs => rfl
  | cons v vs2 ih =>
      intro rest hall
      have hv := hall v (by simp)
      have hstream : streamOf bits (v :: vs2) ++ rest
          = bits v ++ (streamOf bits vs2 ++ rest) := by
        unfold streamOf
        simp
      rw [hstream]
      have hlen : (v :: vs2).length = vs2.length + 1 := rfl
      rw [hlen]
      rw [decodeBits_path root (bits v) root v _ vs2.length hv.1 hv.2]
      rw [ih rest (fun w hw => hall w (by simp [hw]))]

/-! ## Round trip: `encodeRR22` then `decode` recovers the RR set

`encodeRRRSets2` drives `encodeRR22` per RR set and `DecompAndFind2` replays
the bitstream through `decode`; together with the stored overflow vertices the
original set is recovered as a multiset. -/

/-- Reading `code[v][1]` (second word, only relevant beyond 64-bit codes). -/
def code1Of (es : List CodeEntry) (v : Nat) : Nat :=
  match es.find? (fun e => e.sym == v) with
  | some e => e.w1
  | none => 0

/-- A vertex at no leaf keeps `cout[v] = 0` from the `memset`. -/
theorem coutOf_not_mem (t : HNode) (len out1 out2 v : Nat) (hv : v ∉ t.labels) :
    coutOf (build_code t len out1 out2) v = 0 := by
  unfold coutOf
  have hnone : (build_code t len out1 out2).find? (fun e => e.sym == v) = none := by
    rw [List.find?_eq_none]
    intro e he hbeq
    apply hv
    have hes : e.sym = v := by simpa using hbeq
    rw [← build_code_syms t len out1 out2, ← hes]
    exact List.mem_map_of_mem _ he
  rw [hnone]

theorem set_swap_perm_list {α : Type} [DecidableEq α] (l : List α) (p q : Nat)
    (hp : p < l.length) (hq : q < l.length) (hpq : p ≠ q) :
    (((l.set p (l[q])).set q (l[p]))).Perm l := by
  apply List.perm_iff_count.mpr
  intro a
  have hq2 : q < (l.set p (l[q])).length := by simp [hq]
  have e1 := count_set_add (l.set p (l[q])) q (l[p]) a hq2
  have e2 := count_set_add l p (l[q]) a hp
  have hgg : (l.set p (l[q]))[q] = l[q] := by
    rw [List.getElem_set_ne]
    omega
  rw [hgg] at e1
  split_ifs at e1 e2 ⊢ <;> omega

theorem set_getElem_self {α : Type} (l : List α) (i : Nat) (h : i < l.length) :
    l.set i l[i] = l := by
  apply List.ext_getElem (by simp)
  intro j h1 h2
  rw [List.getElem_set]
  split
  · subst_eqs; rfl
  · rfl

/-- The `iter_swap` prologue only permutes the RR set. -/
theorem swapFront_perm (maxvtx : Nat) (R : List Nat) : (swapFront maxvtx R).Perm R := by
  unfold swapFront
  split_ifs with h
  · have h0 : 0 < R.length := by omega
    have hgd1 : R.getD (R.findIdx (fun v => v == maxvtx)) 0
        = R[R.findIdx (fun v => v == maxvtx)] := List.getD_eq_getElem R 0 h
    have hgd0 : R.getD 0 0 = R[0] := List.getD_eq_getElem R 0 h0
    simp only [hgd1, hgd0]
    by_cases hq : R.findIdx (fun v => v == maxvtx) = 0
    · simp only [hq, List.set_set, set_getElem_self]
      exact List.Perm.refl R
    · exact set_swap_perm_list R 0 _ h0 h (fun he => hq he.symm)
  · exact List.Perm.refl R

/-- Materialising the written bytes as bits recovers the packed stream, padded
with zero bits up to the byte boundary. -/
theorem range_bufBit_stream (S : List Bool) (n : Nat) (hn : S.length ≤ n) :
    (List.range n).map (fun i => bufBit (streamByte S) i)
      = S ++ List.replicate (n - S.length) false := by
  have h1 : (List.range n).map (fun i => bufBit (streamByte S) i)
      = (List.range n).map (fun j => S.getD j false) := by
    simp only [bufBit_streamByte]
  rw [h1, ← takePad_eq_map_range]
  unfold takePad
  rw [List.take_of_length_le hn]

/-- Round trip of the shared encoder loop against a fixed code tree: decoding
the packed stream for `code_cnt` symbols and appending the stored overflow
list recovers the encoded RR set as a multiset. -/
theorem decode_encodeLoop (t : HNode) (code1f : Nat → Nat) (R2 : List Nat) (E : EncState)
    (hnd : t.labels.Nodup) (hdepth : t.depth ≤ 255)
    (hE : E = encodeLoop (coutOf (build_code t 0 0 0)) (code0Of (build_code t 0 0 0))
      code1f guard32 true R2) :
    (decode E.pack.buf (8 * E.pack.encodeSize) E.code_cnt t ++ E.cpy).Perm R2 := by
  subst hE
  cases t with
  | leaf fr c =>
      have hcout_leaf : ∀ v, coutOf (build_code (.leaf fr c) 0 0 0) v = 0 := by
        intro v
        unfold build_code coutOf
        rw [if_pos (by norm_num)]
        cases hbc : (c == v)
        · simp [List.find?, hbc]
        · simp [List.find?, hbc]
      have hinv := encodeLoop_inv (coutOf (build_code (.leaf fr c) 0 0 0))
        (code0Of (build_code (.leaf fr c) 0 0 0)) code1f guard32 true (fun _ => []) R2
        (fun v _ hg => by rw [hcout_leaf v] at hg; simp [guard32] at hg)
      obtain ⟨_, hcnt, hcpy, _⟩ := hinv
      have hflt : R2.filter (fun v => guard32 (coutOf (build_code (.leaf fr c) 0 0 0) v))
          = [] := by
        have hcg : ∀ v ∈ R2, (guard32 (coutOf (build_code (.leaf fr c) 0 0 0) v))
            = (fun _ : Nat => false) v := by
          intro v _
          simp [hcout_leaf v, guard32]
        rw [List.filter_congr hcg, List.filter_false]
      have hflt2 : R2.filter (fun v => !(guard32 (coutOf (build_code (.leaf fr c) 0 0 0) v)))
          = R2 := by
        have hcg : ∀ v ∈ R2, (!(guard32 (coutOf (build_code (.leaf fr c) 0 0 0) v)))
            = (fun _ : Nat => true) v := by
          intro v _
          simp [hcout_leaf v, guard32]
        rw [List.filter_congr hcg, List.filter_true]
      rw [hcnt, hflt, hcpy, hflt2]
      simp [decode]
  | internal fr l r =>
      set t := HNode.internal fr l r with ht
      have hbfspec : ∀ v, v ∈ t.labels → ∃ p, LeafPath t p v :=
        fun v hv => exists_leafPath_of_mem hv
      set bitsf : Nat → List Bool :=
        fun v => if h : v ∈ t.labels then (exists_leafPath_of_mem h).choose else [] with hbf
      have hpath : ∀ v ∈ t.labels, LeafPath t (bitsf v) v := by
        intro v hv
        simp only [hbf]
        rw [dif_pos hv]
        exact (exists_leafPath_of_mem hv).choose_spec
      have hprops : ∀ v, guard32 (coutOf (build_code t 0 0 0) v) = true →
          coutOf (build_code t 0 0 0) v = (bitsf v).length ∧ 1 ≤ (bitsf v).length ∧
          (bitsf v).length ≤ 32 ∧
          code0Of (build_code t 0 0 0) v
            = natOfBits (bitsf v) * 2 ^ (64 - (bitsf v).length) ∧
          LeafPath t (bitsf v) v := by
        intro v hg
        have hm : v ∈ t.labels := by
          by_contra hm
          rw [coutOf_not_mem t 0 0 0 v hm] at hg
          simp [guard32] at hg
        have hp := hpath v hm
        have hlen255 : (bitsf v).length ≤ 255 := le_trans hp.length_le_depth hdepth
        have hco := coutOf_build t 0 0 0 (bitsf v) v hnd hp
        have hco2 : coutOf (build_code t 0 0 0) v = (bitsf v).length := by
          rw [hco, Nat.zero_add, Nat.mod_eq_of_lt (Nat.lt_succ_of_le hlen255)]
        have hg2 : (bitsf v).length ≤ 32 ∧ 1 ≤ (bitsf v).length := by
          rw [hco2] at hg
          unfold guard32 at hg
          rw [Bool.and_eq_true, decide_eq_true_eq, bne_iff_ne] at hg
          exact ⟨hg.1, Nat.one_le_iff_ne_zero.2 hg.2⟩
        have hc0 := code0Of_build t [] 0 (bitsf v) v hnd hp (by simp; omega)
        refine ⟨hco2, hg2.2, hg2.1, ?_, hp⟩
        simpa using hc0
      have hinv := encodeLoop_inv (coutOf (build_code t 0 0 0))
        (code0Of (build_code t 0 0 0)) code1f guard32 true bitsf R2
        (fun v _ hg => ⟨(hprops v hg).1, (hprops v hg).2.1, (hprops v hg).2.2.1,
          (hprops v hg).2.2.2.1⟩)
      obtain ⟨hpack, hcnt, hcpy, _⟩ := hinv
      obtain ⟨_, _, hp3, hp4⟩ := hpack
      have hbufeq : (encodeLoop (coutOf (build_code t 0 0 0)) (code0Of (build_code t 0 0 0))
          code1f guard32 true R2).pack.buf
          = streamByte (streamOf bitsf
              (R2.filter (fun v => guard32 (coutOf (build_code t 0 0 0) v)))) :=
        funext hp4
      have hSle : (streamOf bitsf
          (R2.filter (fun v => guard32 (coutOf (build_code t 0 0 0) v)))).length
          ≤ 8 * (encodeLoop (coutOf (build_code t 0 0 0)) (code0Of (build_code t 0 0 0))
              code1f guard32 true R2).pack.encodeSize := by
        rw [hp3]
        omega
      have hdec : decode (encodeLoop (coutOf (build_code t 0 0 0))
          (code0Of (build_code t 0 0 0)) code1f guard32 true R2).pack.buf
          (8 * (encodeLoop (coutOf (build_code t 0 0 0))
            (code0Of (build_code t 0 0 0)) code1f guard32 true R2).pack.encodeSize)
          (encodeLoop (coutOf (build_code t 0 0 0)) (code0Of (build_code t 0 0 0))
            code1f guard32 true R2).code_cnt t
          = decodeBits t t
              ((List.range (8 * (encodeLoop (coutOf (build_code t 0 0 0))
                (code0Of (build_code t 0 0 0)) code1f guard32 true R2).pack.encodeSize)).map
                (fun i => bufBit (encodeLoop (coutOf (build_code t 0 0 0))
                  (code0Of (build_code t 0 0 0)) code1f guard32 true R2).pack.buf i))
              (encodeLoop (coutOf (build_code t 0 0 0)) (code0Of (build_code t 0 0 0))
                code1f guard32 true R2).code_cnt := by
        rw [ht]
        rfl
      have hconds : ∀ v ∈ R2.filter (fun v => guard32 (coutOf (build_code t 0 0 0) v)),
          LeafPath t (bitsf v) v ∧ bitsf v ≠ [] := by
        intro v hvf
        have hg := (List.mem_filter.1 hvf).2
        have hps := hprops v (by simpa using hg)
        refine ⟨hps.2.2.2.2, ?_⟩
        intro hnil
        have := hps.2.1
        rw [hnil] at this
        simp at this
      rw [hdec, hbufeq, range_bufBit_stream _ _ hSle, hcnt]
      rw [decodeBits_concat t bitsf
        (R2.filter (fun v => guard32 (coutOf (build_code t 0 0 0) v)))
        (List.replicate _ false) hconds]
      rw [hcpy]
      simp only [if_pos]
      exact List.filter_append_perm _ R2

/-- The per-RR-set compression performed by `encodeRRRSets2` / `encodeRRRSets3`:
code book and `maxvtx` from `initByRRRSets*`, then `encodeRR22`. -/
def compressRR (R : List (List Nat)) (stateNum : Nat) (lossyFlag : String)
    (R0 : List Nat) : EncState × List Nat :=
  encodeRR22 (coutOf (huffmanCodes R stateNum)) (code0Of (huffmanCodes R stateNum))
    (code1Of (huffmanCodes R stateNum)) (huffmanMaxvtx R stateNum) lossyFlag R0

/-- **C1.** Huffman round-trip in lossless mode (`lossyFlag = "N"`): for every
RR set `R0` of the pool `R`, decoding the bitstream produced by the encoder for
`code_cnt` symbols through the Huffman tree, taken together with the stored
overflow list, equals the original RR set as a multiset. -/
theorem huffman_roundtrip_lossless (R : List (List Nat)) (stateNum : Nat) (R0 : List Nat)
    (hR0 : R0 ∈ R) (hv : ∀ s ∈ R, ∀ w ∈ s, w < stateNum) (hne : R.flatten ≠ [])
    (hdepth : (huffmanTreeOf R stateNum).depth ≤ 255) :
    (decode (compressRR R stateNum "N" R0).1.pack.buf
        (8 * (compressRR R stateNum "N" R0).1.pack.encodeSize)
        (compressRR R stateNum "N" R0).1.code_cnt (huffmanTreeOf R stateNum)
      ++ (compressRR R stateNum "N" R0).1.cpy).Perm R0 := by
  obtain ⟨w0, hw0⟩ := List.exists_mem_of_ne_nil _ hne
  obtain ⟨s0, hs0, hws0⟩ := List.mem_flatten.1 hw0
  have hw0lt : w0 < stateNum := hv s0 hs0 w0 hws0
  have hfreq0 : rrFreq R w0 ≠ 0 := by
    unfold rrFreq
    have := List.count_pos_iff.2 hw0
    omega
  have hmemf : w0 ∈ (List.range (2 * stateNum)).filter (fun i => rrFreq R i ≠ 0) := by
    rw [List.mem_filter]
    exact ⟨List.mem_range.2 (by omega), by simpa using hfreq0⟩
  have hheapne : 1 ≤ (huffmanHeapInit R stateNum).length := by
    by_contra hlen
    have h0 : huffmanHeapInit R stateNum = [] := List.length_eq_zero.1 (by omega)
    have hp := huffmanHeapInit_labels R stateNum
    rw [h0] at hp
    have hlab0 : heapLabels [] = ([] : List Nat) := by simp [heapLabels]
    rw [hlab0] at hp
    have hfe : ((List.range (2 * stateNum)).filter (fun i => rrFreq R i ≠ 0)) = [] :=
      hp.symm.eq_nil
    rw [hfe] at hmemf
    exact (List.not_mem_nil _) hmemf
  have hnd : (huffmanTreeOf R stateNum).labels.Nodup :=
    (huffmanTreeOf_labels R stateNum hheapne).nodup_iff.2
      (List.Nodup.filter _ (List.nodup_range _))
  have hlossy : (("N" : String) == "N") = true := by decide
  have hEq : (compressRR R stateNum "N" R0).1
      = encodeLoop (coutOf (build_code (huffmanTreeOf R stateNum) 0 0 0))
          (code0Of (build_code (huffmanTreeOf R stateNum) 0 0 0))
          (code1Of (huffmanCodes R stateNum)) guard32 true
          (swapFront (huffmanMaxvtx R stateNum) R0) := by
    unfold compressRR encodeRR22 huffmanCodes
    rw [hlossy]
  have hcore := decode_encodeLoop (huffmanTreeOf R stateNum)
    (code1Of (huffmanCodes R stateNum)) (swapFront (huffmanMaxvtx R stateNum) R0)
    ((compressRR R stateNum "N" R0).1) hnd hdepth hEq
  exact hcore.trans (swapFront_perm _ R0)

theorem huffman_roundtrip_lossless_witness :
    (decode (compressRR [[0, 1]] 2 "N" [0, 1]).1.pack.buf
        (8 * (compressRR [[0, 1]] 2 "N" [0, 1]).1.pack.encodeSize)
        (compressRR [[0, 1]] 2 "N" [0, 1]).1.code_cnt (huffmanTreeOf [[0, 1]] 2)
      ++ (compressRR [[0, 1]] 2 "N" [0, 1]).1.cpy).Perm [0, 1] :=
  huffman_roundtrip_lossless [[0, 1]] 2 [0, 1] (by decide) (by decide) (by decide) (by decide)

/-! ## Prefix-freeness of the code book -/

theorem huffmanTreeOf_nodup (R : List (List Nat)) (stateNum : Nat)
    (hv : ∀ s ∈ R, ∀ w ∈ s, w < stateNum) (hne : R.flatten ≠ []) :
    (huffmanTreeOf R stateNum).labels.Nodup := by
  obtain ⟨w0, hw0⟩ := List.exists_mem_of_ne_nil _ hne
  obtain ⟨s0, hs0, hws0⟩ := List.mem_flatten.1 hw0
  have hw0lt : w0 < stateNum := hv s0 hs0 w0 hws0
  have hfreq0 : rrFreq R w0 ≠ 0 := by
    unfold rrFreq
    have := List.count_pos_iff.2 hw0
    omega
  have hmemf : w0 ∈ (List.range (2 * stateNum)).filter (fun i => rrFreq R i ≠ 0) := by
    rw [List.mem_filter]
    exact ⟨List.mem_range.2 (by omega), by simpa using hfreq0⟩
  have hheapne : 1 ≤ (huffmanHeapInit R stateNum).length := by
    by_contra hlen
    have h0 : huffmanHeapInit R stateNum = [] := List.length_eq_zero.1 (by omega)
    have hp := huffmanHeapInit_labels R stateNum
    rw [h0] at hp
    have hlab0 : heapLabels [] = ([] : List Nat) := by simp [heapLabels]
    rw [hlab0] at hp
    have hfe : ((List.range (2 * stateNum)).filter (fun i => rrFreq R i ≠ 0)) = [] :=
      hp.symm.eq_nil
    rw [hfe] at hmemf
    exact (List.not_mem_nil _) hmemf
  exact (huffmanTreeOf_labels R stateNum hheapne).nodup_iff.2
    (List.Nodup.filter _ (List.nodup_range _))

/-- **C10.** The code book produced by `build_code` on the Huffman tree built
from the RR sets is prefix-free: for two distinct vertices at leaves, their
stored entries record exactly the left-aligned path bits and path length, and
neither path is a prefix of the other, so decoding a delimiter-free
concatenated bitstream is well defined. -/
theorem build_code_prefix_free (R : List (List Nat)) (stateNum : Nat)
    (u v : Nat) (pu pv : List Bool)
    (hv : ∀ s ∈ R, ∀ w ∈ s, w < stateNum) (hne : R.flatten ≠ [])
    (hd64 : (huffmanTreeOf R stateNum).depth ≤ 64)
    (hu : LeafPath (huffmanTreeOf R stateNum) pu u)
    (hvp : LeafPath (huffmanTreeOf R stateNum) pv v)
    (huv : u ≠ v) :
    coutOf (huffmanCodes R stateNum) u = pu.length ∧
    code0Of (huffmanCodes R stateNum) u = natOfBits pu * 2 ^ (64 - pu.length) ∧
    ¬ prefixOf pu pv := by
  have hnd := huffmanTreeOf_nodup R stateNum hv hne
  have hlu : pu.length ≤ 64 := le_trans hu.length_le_depth hd64
  refine ⟨?_, ?_, ?_⟩
  · have hco := coutOf_build (huffmanTreeOf R stateNum) 0 0 0 pu u hnd hu
    unfold huffmanCodes
    rw [hco, Nat.zero_add, Nat.mod_eq_of_lt (by omega)]
  · have hc0 := code0Of_build (huffmanTreeOf R stateNum) [] 0 pu u hnd hu (by simpa using hlu)
    unfold huffmanCodes
    simpa using hc0
  · intro hpre
    exact huv (leafPath_prefix_eq hu hvp hpre).2

theorem build_code_prefix_free_witness :
    coutOf (huffmanCodes [[0, 1]] 2) 0 = [false].length ∧
    code0Of (huffmanCodes [[0, 1]] 2) 0 = natOfBits [false] * 2 ^ (64 - [false].length) ∧
    ¬ prefixOf [false] [true] := by
  have ht : huffmanTreeOf [[0, 1]] 2
      = HNode.internal 2 (HNode.leaf 1 0) (HNode.leaf 1 1) := by decide
  refine build_code_prefix_free [[0, 1]] 2 0 1 [false] [true] (by decide) (by decide)
    (by decide) ?_ ?_ (by decide)
  · rw [ht]
    exact LeafPath.left _ _ (LeafPath.leaf _ _)
  · rw [ht]
    exact LeafPath.right _ _ (LeafPath.leaf _ _)

/-! ## Encoding cutoffs (`bitSize < 20` in `encodeRR`, `bitSize <= 32` in
`encodeRR2`/`encodeRR22`/`encodeRR3`) -/

theorem encodeLoop_counts (cout code0f code1f : Nat → Nat) (guard : Nat → Bool)
    (storeCopy : Bool) : ∀ (R : List Nat),
    (encodeLoop cout code0f code1f guard storeCopy R).code_cnt
        = (R.filter (fun v => guard (cout v))).length ∧
      (encodeLoop cout code0f code1f guard storeCopy R).cpy
        = (if storeCopy then R.filter (fun v => !(guard (cout v))) else []) ∧
      (encodeLoop cout code0f code1f guard storeCopy R).copy_cnt
        = (R.filter (fun v => !(guard (cout v)))).length := by
  intro R
  induction R using List.reverseRecOn with
  | nil =>
      refine ⟨rfl, ?_, rfl⟩
      cases storeCopy <;> rfl
  | append_singleton R v ih =>
      obtain ⟨hcnt, hcpy, hccnt⟩ := ih
      unfold encodeLoop at hcnt hcpy hccnt ⊢
      rw [List.foldl_append, List.foldl_cons, List.foldl_nil]
      by_cases hg : guard (cout v) = true
      · rw [encodeStep_pos cout code0f code1f guard storeCopy _ v hg]
        have hfl : (R ++ [v]).filter (fun w => guard (cout w))
            = R.filter (fun w => guard (cout w)) ++ [v] := by
          rw [List.filter_append]; simp [hg]
        have hfl2 : (R ++ [v]).filter (fun w => !(guard (cout w)))
            = R.filter (fun w => !(guard (cout w))) := by
          rw [List.filter_append]; simp [hg]
        refine ⟨?_, ?_, ?_⟩
        · rw [hfl]; simp [hcnt]
        · rw [hfl2]; exact hcpy
        · rw [hfl2]; exact hccnt
      · rw [encodeStep_neg cout code0f code1f guard storeCopy _ v hg]
        have hgf : guard (cout v) = false := by
          cases hgv : guard (cout v)
          · rfl
          · exact absurd hgv hg
        have hfl : (R ++ [v]).filter (fun w => guard (cout w))
            = R.filter (fun w => guard (cout w)) := by
          rw [List.filter_append]; simp [hgf]
        have hfl2 : (R ++ [v]).filter (fun w => !(guard (cout w)))
            = R.filter (fun w => !(guard (cout w))) ++ [v] := by
          rw [List.filter_append]; simp [hgf]
        refine ⟨?_, ?_, ?_⟩
        · rw [hfl]; exact hcnt
        · rw [hfl2, hcpy]; cases storeCopy <;> simp
        · rw [hfl2]; simp [hccnt]

theorem guard20_iff (b : Nat) : guard20 b = decide (0 < b ∧ b < 20) := by
  unfold guard20
  by_cases h1 : b < 20 <;> by_cases h2 : b = 0
  · subst h2; decide
  · simp [h1, h2, Nat.pos_of_ne_zero h2]
  · subst h2; decide
  · simp [h1]

theorem guard32_iff (b : Nat) : guard32 b = decide (0 < b ∧ b ≤ 32) := by
  unfold guard32
  by_cases h1 : b ≤ 32 <;> by_cases h2 : b = 0
  · subst h2; decide
  · simp [h1, h2, Nat.pos_of_ne_zero h2]
  · subst h2; decide
  · simp [h1]

/-- **C6** (amended).  The cutoff differs between entry points: `encodeRR`
(driven by `encodeRRRSets`) appends a vertex to the bitstream exactly when
`0 < cout v < 20`, while `encodeRR22` (driven by `encodeRRRSets2`) appends it
exactly when `0 < cout v ≤ 32`; all other vertices are counted as overflow,
and stored in the overflow list when it is kept. -/
theorem encode_cutoffs (cout code0f code1f : Nat → Nat) (R : List Nat) (maxvtx : Nat)
    (lossyFlag : String) :
    (encodeRR cout code0f code1f R).code_cnt
        = (R.filter (fun v => decide (0 < cout v ∧ cout v < 20))).length ∧
    (encodeRR cout code0f code1f R).cpy
        = R.filter (fun v => !(decide (0 < cout v ∧ cout v < 20))) ∧
    (encodeRR22 cout code0f code1f maxvtx lossyFlag R).1.code_cnt
        = ((swapFront maxvtx R).filter (fun v => decide (0 < cout v ∧ cout v ≤ 32))).length ∧
    (encodeRR22 cout code0f code1f maxvtx lossyFlag R).1.copy_cnt
        = ((swapFront maxvtx R).filter (fun v => !(decide (0 < cout v ∧ cout v ≤ 32)))).length := by
  have e20 : ∀ (l : List Nat), l.filter (fun v => guard20 (cout v))
      = l.filter (fun v => decide (0 < cout v ∧ cout v < 20)) :=
    fun l => List.filter_congr (fun v _ => guard20_iff (cout v))
  have e20n : ∀ (l : List Nat), l.filter (fun v => !(guard20 (cout v)))
      = l.filter (fun v => !(decide (0 < cout v ∧ cout v < 20))) :=
    fun l => List.filter_congr (fun v _ => by rw [guard20_iff (cout v)])
  have e32 : ∀ (l : List Nat), l.filter (fun v => guard32 (cout v))
      = l.filter (fun v => decide (0 < cout v ∧ cout v ≤ 32)) :=
    fun l => List.filter_congr (fun v _ => guard32_iff (cout v))
  have e32n : ∀ (l : List Nat), l.filter (fun v => !(guard32 (cout v)))
      = l.filter (fun v => !(decide (0 < cout v ∧ cout v ≤ 32))) :=
    fun l => List.filter_congr (fun v _ => by rw [guard32_iff (cout v)])
  obtain ⟨h1, h2, h3⟩ := encodeLoop_counts cout code0f code1f guard20 true R
  obtain ⟨h4, _, h6⟩ := encodeLoop_counts cout code0f code1f guard32 (lossyFlag == "N")
    (swapFront maxvtx R)
  unfold encodeRR encodeRR22
  refine ⟨?_, ?_, ?_, ?_⟩
  · rw [h1, e20]
  · rw [h2]
    simp only [if_pos]
    exact e20n R
  · rw [h4, e32]
  · rw [h6, e32n]

/-- A right-leaning code tree of depth `d + 1` whose deepest leaf is vertex
20, as the Huffman construction produces for Fibonacci-distributed
frequencies; at `d = 19` the leaf's code is 20 bits long. -/
def deepChain : Nat → HNode
  | 0 => HNode.internal 0 (HNode.leaf 0 0) (HNode.leaf 0 20)
  | d + 1 => HNode.internal 0 (HNode.leaf 0 (d + 1)) (deepChain d)

/-- Vertex 20 receives a 20-bit code in this code book; `encodeRR22` sends it
to the bitstream but `encodeRR` spills it to the overflow list, refuting the
uniform `≤ 32` cutoff. -/
theorem encode_cutoff_counterexample :
    coutOf (build_code (deepChain 19) 0 0 0) 20 = 20 ∧
    (encodeRR (coutOf (build_code (deepChain 19) 0 0 0))
      (code0Of (build_code (deepChain 19) 0 0 0))
      (code1Of (build_code (deepChain 19) 0 0 0)) [20]).code_cnt = 0 ∧
    (encodeRR (coutOf (build_code (deepChain 19) 0 0 0))
      (code0Of (build_code (deepChain 19) 0 0 0))
      (code1Of (build_code (deepChain 19) 0 0 0)) [20]).cpy = [20] ∧
    (encodeRR22 (coutOf (build_code (deepChain 19) 0 0 0))
      (code0Of (build_code (deepChain 19) 0 0 0))
      (code1Of (build_code (deepChain 19) 0 0 0)) 0 "N" [20]).1.code_cnt = 1 := by
  decide

/-! ## The `globalcnt` argmax scan of `DecompAndFind*`

`tmpmax = 0; nxtmax = 0; for (i...) if (globalcnt[i] > tmpmax) update` — the
strict comparison keeps the first maximum, so ties resolve to the smallest
index. -/

def argmaxScan (cnt : Nat → Nat) (n : Nat) : Nat × Nat :=
  (List.range n).foldl (fun st i => if st.1 < cnt i then (cnt i, i) else st) (0, 0)

def argmaxInv (cnt : Nat → Nat) (seen : List Nat) (st : Nat × Nat) : Prop :=
  (st.1 = 0 ∧ st.2 = 0 ∧ ∀ j ∈ seen, cnt j = 0) ∨
  (st.2 ∈ seen ∧ cnt st.2 = st.1 ∧ 0 < st.1 ∧ (∀ j ∈ seen, cnt j ≤ st.1) ∧
    ∀ j ∈ seen, cnt j = st.1 → st.2 ≤ j)

theorem argmaxInv_step (cnt : Nat → Nat) (seen : List Nat) (st : Nat × Nat) (i : Nat)
    (hlt : ∀ j ∈ seen, j < i) (hinv : argmaxInv cnt seen st) :
    argmaxInv cnt (seen ++ [i]) (if st.1 < cnt i then (cnt i, i) else st) := by
  rcases hinv with ⟨h1, h2, h3⟩ | ⟨hmem, hval, hpos, hub, hties⟩
  · by_cases hc : st.1 < cnt i
    · rw [if_pos hc]
      right
      refine ⟨by simp, rfl, by omega, ?_, ?_⟩
      · intro j hj
        rcases List.mem_append.1 hj with hj | hj
        · rw [h3 j hj]; exact Nat.zero_le _
        · simp at hj; subst hj; exact Nat.le_refl _
      · intro j hj hjv
        rcases List.mem_append.1 hj with hj | hj
        · rw [h3 j hj] at hjv; omega
        · simp at hj; omega
    · rw [if_neg hc]
      left
      refine ⟨h1, h2, ?_⟩
      intro j hj
      rcases List.mem_append.1 hj with hj | hj
      · exact h3 j hj
      · simp at hj; subst hj; omega
  · by_cases hc : st.1 < cnt i
    · rw [if_pos hc]
      right
      refine ⟨by simp, rfl, by omega, ?_, ?_⟩
      · intro j hj
        rcases List.mem_append.1 hj with hj | hj
        · have := hub j hj; omega
        · simp at hj; subst hj; exact Nat.le_refl _
      · intro j hj hjv
        rcases List.mem_append.1 hj with hj | hj
        · have := hub j hj; omega
        · simp at hj; omega
    · rw [if_neg hc]
      right
      refine ⟨List.mem_append.2 (Or.inl hmem), hval, hpos, ?_, ?_⟩
      · intro j hj
        rcases List.mem_append.1 hj with hj | hj
        · exact hub j hj
        · simp at hj; subst hj; omega
      · intro j hj hjv
        rcases List.mem_append.1 hj with hj | hj
        · exact hties j hj hjv
        · simp at hj
          subst hj
          exact le_of_lt (hlt st.2 hmem)

theorem argmaxScan_inv (cnt : Nat → Nat) (n : Nat) :
    argmaxInv cnt (List.range n) (argmaxScan cnt n) := by
  unfold argmaxScan
  induction n with
  | zero =>
      left
      exact ⟨rfl, rfl, by simp⟩
  | succ m ih =>
      rw [List.range_succ, List.foldl_append, List.foldl_cons, List.foldl_nil]
      exact argmaxInv_step cnt (List.range m) _ m (fun j hj => List.mem_range.1 hj) ih

/-- **C7** (amended).  Tie-breaking differs between the two compression-side
sites: the `freq[i] >= max_freq` scan of `initByRRRSets*` picks the *largest*
vertex id attaining the maximum frequency, while the strict
`globalcnt[i] > tmpmax` scan of `DecompAndFind*` picks the *smallest* index
attaining the maximum count. -/
theorem tie_break_sites (R : List (List Nat)) (stateNum : Nat) (i : Nat)
    (cnt : Nat → Nat) (n j : Nat)
    (hi : i < 2 * stateNum) (hne : rrFreq R i ≠ 0)
    (htie : rrFreq R i = rrFreq R (huffmanMaxvtx R stateNum))
    (hj : j < n) (htie2 : cnt j = (argmaxScan cnt n).1) :
    i ≤ huffmanMaxvtx R stateNum ∧ (argmaxScan cnt n).2 ≤ j := by
  refine ⟨huffmanMaxvtx_largest R stateNum i hi hne htie, ?_⟩
  have hinv := argmaxScan_inv cnt n
  rcases hinv with ⟨h1, h2, h3⟩ | ⟨hmem, hval, hpos, hub, hties⟩
  · rw [h2]
    exact Nat.zero_le _
  · exact hties j (List.mem_range.2 hj) htie2

/-- With `freq[1] = freq[2] = 1` tied for the maximum, `initByRRRSets` records
`maxvtx = 2`, not the smallest id 1. -/
theorem tie_break_counterexample :
    rrFreq [[1], [2]] 1 = 1 ∧ rrFreq [[1], [2]] 2 = 1 ∧
    huffmanMaxvtx [[1], [2]] 3 = 2 := by decide

theorem tie_break_sites_witness :
    2 ≤ huffmanMaxvtx [[1], [2]] 3 ∧
    (argmaxScan (fun v => [0, 1, 1].getD v 0) 3).2 ≤ 1 :=
  tie_break_sites [[1], [2]] 3 2 (fun v => [0, 1, 1].getD v 0) 3 1 (by decide) (by decide)
    (by decide) (by decide) (by decide)

/-! ## Mutation of pool RR sets by the encoder -/

/-- **C9** (amended).  `encodeRR22` / `encodeRR3` do mutate the RR sets in the
pool — the `std::find` + `iter_swap` prologue swaps the first occurrence of
`maxvtx` to the front, so sortedness is not preserved — but the mutation is
only a rearrangement: the set as left in the pool is a permutation of the
original. -/
theorem encodeRR22_mutates_by_permutation (cout code0f code1f : Nat → Nat) (maxvtx : Nat)
    (lossyFlag : String) (R0 : List Nat) :
    (encodeRR22 cout code0f code1f maxvtx lossyFlag R0).2.Perm R0 := by
  unfold encodeRR22
  exact swapFront_perm maxvtx R0

/-- A sorted two-element RR set comes back from `encodeRR22` with `maxvtx`
swapped to the front: the stored set is changed and no longer sorted. -/
theorem rr_mutation_counterexample :
    (encodeRR22 (fun _ => 0) (fun _ => 0) (fun _ => 0) 1 "N" [0, 1]).2 = [1, 0] ∧
    (encodeRR22 (fun _ => 0) (fun _ => 0) (fun _ => 0) 1 "N" [0, 1]).2 ≠ [0, 1] ∧
    ¬ List.Sorted (· < ·)
      (encodeRR22 (fun _ => 0) (fun _ => 0) (fun _ => 0) 1 "N" [0, 1]).2 := by
  refine ⟨by decide, by decide, ?_⟩
  intro hs
  have h2 : (encodeRR22 (fun _ => 0) (fun _ => 0) (fun _ => 0) 1 "N" [0, 1]).2
      = [1, 0] := by decide
  rw [h2] at hs
  have := List.rel_of_sorted_cons hs 0 (by simp)
  omega

/-! ## The raw selector (`FindMostInfluentialSet`)

`CountOccurrencies` adds one count per occurrence of a vertex in a pool set,
so the counter vector is `rrFreq`.  `std::binary_search` is a library routine
whose precondition is a sorted range, where it decides membership; we embed it
by that contract.  The `std::priority_queue` with comparator
`a.second < b.second` is embedded as a list sorted by decreasing count:
`top`/`pop` act on the head, `push` inserts in front of the first strictly
smaller count.  The source's heap order on equal counts is unspecified; no
theorem below relies on where a tie is placed. -/

def binarySearchC (a : List Nat) (v : Nat) : Bool :=
  a.contains v

def pqPush (q : List (Nat × Nat)) (e : Nat × Nat) : List (Nat × Nat) :=
  match q with
  | [] => [e]
  | x :: t => if x.2 < e.2 then e :: x :: t else x :: pqPush t e

/-- `InitHeapStorage` + heap construction: every vertex of `[0, n)` enters the
queue paired with its counter. -/
def pqInit (coverage : Nat → Nat) (n : Nat) : List (Nat × Nat) :=
  (List.range n).foldl (fun q v => pqPush q (v, coverage v)) []

structure FMIState where
  queue : List (Nat × Nat)
  coverage : Nat → Nat
  live : List (List Nat)
  uncovered : Nat
  result : List Nat

/-- One iteration of the selection loop: pop the top; lazily re-push a stale
entry; otherwise select the vertex, retire the RR sets it covers (the
`partition` by `!std::binary_search` — embedded as the two filters, which
agree with the partition up to order within each side, and only counts and
membership of the live side are ever read), and update the counters along the
cheaper direction (`UpdateCounters` on the covered suffix, or zero-and-recount
on the surviving prefix). -/
def fmiStep (st : FMIState) : FMIState :=
  match st.queue with
  | [] => st
  | e :: qrest =>
      if st.coverage e.1 < e.2 then
        { st with queue := pqPush qrest (e.1, st.coverage e.1) }
      else
        { queue := qrest,
          coverage :=
            if (st.live.filter (fun a => binarySearchC a e.1)).length
                < (st.live.filter (fun a => !(binarySearchC a e.1))).length then
              fun u => st.coverage u - rrFreq (st.live.filter (fun a => binarySearchC a e.1)) u
            else
              fun u => rrFreq (st.live.filter (fun a => !(binarySearchC a e.1))) u,
          live := st.live.filter (fun a => !(binarySearchC a e.1)),
          uncovered := st.uncovered - e.2,
          result := st.result ++ [e.1] }

def fmiLoop (k : Nat) : Nat → FMIState → FMIState
  | 0, st => st
  | fuel + 1, st =>
      if st.result.length < k ∧ st.uncovered ≠ 0 then fmiLoop k fuel (fmiStep st)
      else st

/-- `double(a) / double(b)`, modelling the IEEE quotient as a rational when it
is finite and `none` on a zero denominator (the only case arising below is
`0.0 / 0.0`, a NaN). -/
def doubleDiv (num den : ℚ) : Option ℚ :=
  if den = 0 then none else some (num / den)

def FindMostInfluentialSet (n k : Nat) (pool : List (List Nat)) (fuel : Nat) :
    Option ℚ × List Nat :=
  let st := fmiLoop k fuel ⟨pqInit (rrFreq pool) n, rrFreq pool, pool, pool.length, []⟩
  (doubleDiv ((pool.length - st.uncovered : Nat) : ℚ) (pool.length : ℚ), st.result)

theorem fmiLoop_exit (k fuel : Nat) (st : FMIState) (h : st.uncovered = 0) :
    fmiLoop k fuel st = st := by
  cases fuel with
  | zero => rfl
  | succ m =>
      rw [fmiLoop]
      rw [if_neg]
      intro hc
      exact hc.2 h

/-- **C8** (amended).  On an empty pool the raw selector returns an empty seed
list, and its coverage fraction is the IEEE quotient `0.0 / 0.0` — a NaN
(modelled `none`), not `0.0`. -/
theorem find_most_influential_empty_pool (n k fuel : Nat) :
    FindMostInfluentialSet n k [] fuel = (none, []) := by
  unfold FindMostInfluentialSet
  rw [fmiLoop_exit k fuel _ rfl]
  rfl

/-- The selector on an empty pool does not return the claimed `f = 0.0`: the
division `0.0 / 0.0` is not a number. -/
theorem empty_pool_f_counterexample :
    (FindMostInfluentialSet 3 2 [] 5).1 = none ∧
    (FindMostInfluentialSet 3 2 [] 5).2 = [] ∧ (none : Option ℚ) ≠ some 0 := by
  refine ⟨by decide, rfl, by simp⟩

theorem pqPush_keys_perm (e : Nat × Nat) : ∀ (q : List (Nat × Nat)),
    ((pqPush q e).map Prod.fst).Perm (e.1 :: q.map Prod.fst) := by
  intro q
  induction q with
  | nil => exact List.Perm.refl _
  | cons x t ih =>
      rw [pqPush]
      split_ifs with hc
      · exact List.Perm.refl _
      · simp only [List.map_cons]
        refine (List.Perm.cons x.1 ih).trans ?_
        exact List.Perm.swap _ _ _

theorem pqInit_keys_perm (cov : Nat → Nat) : ∀ (l : List Nat) (q : List (Nat × Nat)),
    (((l.foldl (fun q v => pqPush q (v, cov v)) q)).map Prod.fst).Perm
      (l ++ q.map Prod.fst) := by
  intro l
  induction l with
  | nil => intro q; exact List.Perm.refl _
  | cons v t ih =>
      intro q
      rw [List.foldl_cons]
      refine (ih (pqPush q (v, cov v))).trans ?_
      refine (List.Perm.append_left t (pqPush_keys_perm (v, cov v) q)).trans ?_
      exact @List.perm_middle _ v t (q.map Prod.fst)

theorem fmiStep_nil (st : FMIState) (h : st.queue = []) : fmiStep st = st := by
  obtain ⟨q, cov, live, unc, res⟩ := st
  simp only [] at h
  subst h
  rfl

theorem fmiStep_cons (st : FMIState) (e : Nat × Nat) (qrest : List (Nat × Nat))
    (h : st.queue = e :: qrest) :
    fmiStep st =
      if st.coverage e.1 < e.2 then
        { st with queue := pqPush qrest (e.1, st.coverage e.1) }
      else
        { queue := qrest,
          coverage :=
            if (st.live.filter (fun a => binarySearchC a e.1)).length
                < (st.live.filter (fun a => !(binarySearchC a e.1))).length then
              fun u => st.coverage u - rrFreq (st.live.filter (fun a => binarySearchC a e.1)) u
            else
              fun u => rrFreq (st.live.filter (fun a => !(binarySearchC a e.1))) u,
          live := st.live.filter (fun a => !(binarySearchC a e.1)),
          uncovered := st.uncovered - e.2,
          result := st.result ++ [e.1] } := by
  obtain ⟨q, cov, live, unc, res⟩ := st
  simp only [] at h
  subst h
  rfl

theorem fmiStep_result_app (st : FMIState) :
    (fmiStep st).result = st.result ∨ ∃ x, (fmiStep st).result = st.result ++ [x] := by
  rcases hq : st.queue with _ | ⟨e, qrest⟩
  · rw [fmiStep_nil st hq]
    exact Or.inl rfl
  · rw [fmiStep_cons st e qrest hq]
    by_cases hc : st.coverage e.1 < e.2
    · rw [if_pos hc]
      exact Or.inl rfl
    · rw [if_neg hc]
      exact Or.inr ⟨e.1, rfl⟩

theorem fmiStep_nodup (st : FMIState)
    (h : ((st.queue.map Prod.fst) ++ st.result).Nodup) :
    (((fmiStep st).queue.map Prod.fst) ++ (fmiStep st).result).Nodup := by
  rcases hq : st.queue with _ | ⟨e, qrest⟩
  · rw [fmiStep_nil st hq]
    exact h
  · rw [hq] at h
    rw [fmiStep_cons st e qrest hq]
    by_cases hc : st.coverage e.1 < e.2
    · rw [if_pos hc]
      refine ((List.Perm.append ?_ (List.Perm.refl st.result)).nodup_iff).2 h
      exact pqPush_keys_perm (e.1, st.coverage e.1) qrest
    · rw [if_neg hc]
      simp only []
      have hp : ((qrest.map Prod.fst) ++ (st.result ++ [e.1])).Perm
          (((e :: qrest).map Prod.fst) ++ st.result) := by
        refine (List.Perm.append_left _ (List.perm_append_comm)).trans ?_
        rw [← List.append_assoc]
        simp only [List.map_cons, List.singleton_append]
        refine List.Perm.append ?_ (List.Perm.refl st.result)
        have := @List.perm_middle _ e.1 (qrest.map Prod.fst) ([] : List Nat)
        simpa using this.symm.symm
      exact hp.nodup_iff.2 h

theorem fmiStep_result_len (st : FMIState) :
    (fmiStep st).result.length ≤ st.result.length + 1 := by
  rcases fmiStep_result_app st with h | ⟨x, h⟩
  · rw [h]; omega
  · rw [h]; simp

theorem fmiLoop_nodup_len (k : Nat) : ∀ (fuel : Nat) (st : FMIState),
    ((st.queue.map Prod.fst) ++ st.result).Nodup → st.result.length ≤ k →
    (((fmiLoop k fuel st).queue.map Prod.fst) ++ (fmiLoop k fuel st).result).Nodup ∧
    (fmiLoop k fuel st).result.length ≤ k := by
  intro fuel
  induction fuel with
  | zero => intro st h1 h2; exact ⟨h1, h2⟩
  | succ m ih =>
      intro st h1 h2
      rw [fmiLoop]
      split_ifs with hc
      · exact ih (fmiStep st) (fmiStep_nodup st h1)
          (le_trans (fmiStep_result_len st) (by omega))
      · exact ⟨h1, h2⟩

/-- **C3.** For `k ∈ [1, n]` and a pool of RR sets over `[0, n)`, the raw
selector returns at most `k` seeds, pairwise distinct. -/
theorem find_most_influential_distinct (n k : Nat) (pool : List (List Nat)) (fuel : Nat)
    (hk : 1 ≤ k) (hkn : k ≤ n) (hp : ∀ s ∈ pool, ∀ w ∈ s, w < n) :
    (FindMostInfluentialSet n k pool fuel).2.length ≤ k ∧
    (FindMostInfluentialSet n k pool fuel).2.Nodup := by
  unfold FindMostInfluentialSet
  have hinit : ((((⟨pqInit (rrFreq pool) n, rrFreq pool, pool, pool.length, []⟩ :
      FMIState)).queue.map Prod.fst) ++ ([] : List Nat)).Nodup := by
    rw [List.append_nil]
    refine (pqInit_keys_perm (rrFreq pool) (List.range n) []).nodup_iff.2 ?_
    simpa using List.nodup_range n
  have h := fmiLoop_nodup_len k fuel _ hinit (by simp)
  exact ⟨h.2, h.1.of_append_right⟩

theorem find_most_influential_distinct_witness :
    (FindMostInfluentialSet 2 1 [[0], [0, 1]] 5).2.length ≤ 1 ∧
    (FindMostInfluentialSet 2 1 [[0], [0, 1]] 5).2.Nodup :=
  find_most_influential_distinct 2 1 [[0], [0, 1]] 5 (by decide) (by decide) (by decide)

/-! ## The lazy-heap invariant of the raw selector -/

theorem rrFreq_cons (s : List Nat) (L : List (List Nat)) (u : Nat) :
    rrFreq (s :: L) u = s.count u + rrFreq L u := by
  simp [rrFreq, List.count_append]

theorem rrFreq_filter_split (L : List (List Nat)) (p : List Nat → Bool) (u : Nat) :
    rrFreq (L.filter p) u + rrFreq (L.filter (fun a => !(p a))) u = rrFreq L u := by
  unfold rrFreq
  rw [← List.count_append, ← List.flatten_append]
  exact (List.filter_append_perm p L).flatten.count_eq u

theorem rrFreq_eq_length (L : List (List Nat)) (u : Nat)
    (hmem : ∀ s ∈ L, u ∈ s) (hnd : ∀ s ∈ L, s.Nodup) : rrFreq L u = L.length := by
  induction L with
  | nil => rfl
  | cons s t ih =>
      rw [rrFreq_cons, ih (fun a ha => hmem a (by simp [ha])) (fun a ha => hnd a (by simp [ha]))]
      rw [List.count_eq_one_of_mem (hnd s (by simp)) (hmem s (by simp))]
      simp only [List.length_cons]
      omega

theorem rrFreq_eq_zero (L : List (List Nat)) (u : Nat)
    (hmem : ∀ s ∈ L, u ∉ s) : rrFreq L u = 0 := by
  induction L with
  | nil => rfl
  | cons s t ih =>
      rw [rrFreq_cons, ih (fun a ha => hmem a (by simp [ha]))]
      rw [List.count_eq_zero.2 (hmem s (by simp))]

theorem pqPush_mem (e x : Nat × Nat) : ∀ (q : List (Nat × Nat)),
    x ∈ pqPush q e → x = e ∨ x ∈ q := by
  intro q
  induction q with
  | nil =>
      intro hx
      simp [pqPush] at hx
      exact Or.inl hx
  | cons y t ih =>
      intro hx
      rw [pqPush] at hx
      by_cases hc : y.2 < e.2
      · rw [if_pos hc] at hx
        simp only [List.mem_cons] at hx
        rcases hx with hx | hx
        · exact Or.inl hx
        · exact Or.inr (List.mem_cons.2 hx)
      · rw [if_neg hc] at hx
        simp only [List.mem_cons] at hx
        rcases hx with hx | hx
        · exact Or.inr (List.mem_cons.2 (Or.inl hx))
        · rcases ih hx with h | h
          · exact Or.inl h
          · exact Or.inr (List.mem_cons.2 (Or.inr h))

theorem pqInit_mem (cov : Nat → Nat) : ∀ (l : List Nat) (q : List (Nat × Nat)),
    (∀ x ∈ q, x.2 = cov x.1) →
    ∀ x ∈ l.foldl (fun q v => pqPush q (v, cov v)) q, x.2 = cov x.1 := by
  intro l
  induction l with
  | nil => intro q hq; exact hq
  | cons v t ih =>
      intro q hq
      rw [List.foldl_cons]
      refine ih (pqPush q (v, cov v)) ?_
      intro x hx
      rcases pqPush_mem (v, cov v) x q hx with h | h
      · rw [h]
      · exact hq x h

/-- Invariant of the selection loop: the counters are the exact occurrence
counts over the live RR sets, every queue entry is an upper bound on the
count of its vertex, `uncovered` is the number of live sets, and live sets
stay duplicate-free. -/
def fmiInv (st : FMIState) : Prop :=
  (∀ u, st.coverage u = rrFreq st.live u) ∧
  (∀ e ∈ st.queue, rrFreq st.live e.1 ≤ e.2) ∧
  st.uncovered = st.live.length ∧
  (∀ s ∈ st.live, s.Nodup)

theorem fmiSelect_freq (st : FMIState) (e : Nat × Nat) (qrest : List (Nat × Nat))
    (hq : st.queue = e :: qrest) (hc : ¬ st.coverage e.1 < e.2) (hinv : fmiInv st) :
    e.2 = rrFreq st.live e.1 ∧
    rrFreq (st.live.filter (fun a => binarySearchC a e.1)) e.1
      = (st.live.filter (fun a => binarySearchC a e.1)).length ∧
    rrFreq (st.live.filter (fun a => !(binarySearchC a e.1))) e.1 = 0 := by
  obtain ⟨hcov, hub, hunc, hnds⟩ := hinv
  have hup := hub e (by rw [hq]; simp)
  have hexact : e.2 = rrFreq st.live e.1 := by
    have := hcov e.1
    omega
  refine ⟨hexact, ?_, ?_⟩
  · refine rrFreq_eq_length _ _ ?_ ?_
    · intro s hs
      have := (List.mem_filter.1 hs).2
      simpa [binarySearchC] using this
    · intro s hs
      exact hnds s (List.mem_filter.1 hs).1
  · refine rrFreq_eq_zero _ _ ?_
    intro s hs
    have := (List.mem_filter.1 hs).2
    simpa [binarySearchC] using this

theorem fmiStep_inv (st : FMIState) (hinv : fmiInv st) : fmiInv (fmiStep st) := by
  obtain ⟨hcov, hub, hunc, hnds⟩ := hinv
  rcases hq : st.queue with _ | ⟨e, qrest⟩
  · rw [fmiStep_nil st hq]
    exact ⟨hcov, hub, hunc, hnds⟩
  · rw [fmiStep_cons st e qrest hq]
    by_cases hc : st.coverage e.1 < e.2
    · rw [if_pos hc]
      refine ⟨hcov, ?_, hunc, hnds⟩
      intro x hx
      rcases pqPush_mem (e.1, st.coverage e.1) x qrest hx with h | h
      · rw [h]
        have := hcov e.1
        simp only []
        omega
      · exact hub x (by rw [hq]; simp [h])
    · rw [if_neg hc]
      obtain ⟨hexact, hdead, hlive2⟩ := fmiSelect_freq st e qrest hq hc ⟨hcov, hub, hunc, hnds⟩
      have hsplit : ∀ u, rrFreq (st.live.filter (fun a => binarySearchC a e.1)) u
          + rrFreq (st.live.filter (fun a => !(binarySearchC a e.1))) u
          = rrFreq st.live u := fun u => rrFreq_filter_split st.live _ u
      have hlen : (st.live.filter (fun a => binarySearchC a e.1)).length
          + (st.live.filter (fun a => !(binarySearchC a e.1))).length
          = st.live.length := by
        have := (List.filter_append_perm (fun a => binarySearchC a e.1) st.live).length_eq
        simpa using this
      refine ⟨?_, ?_, ?_, ?_⟩
      · intro u
        simp only []
        split_ifs with hcb
        · simp only [hcov]
          have := hsplit u
          omega
        · rfl
      · intro x hx
        show rrFreq (st.live.filter (fun a => !(binarySearchC a e.1))) x.1 ≤ x.2
        have hle := hub x (by rw [hq]; simp [hx])
        have := hsplit x.1
        omega
      · show st.uncovered - e.2
            = (st.live.filter (fun a => !(binarySearchC a e.1))).length
        have h1 := hsplit e.1
        have h2 := hdead
        have h3 := hlive2
        omega
      · intro s hs
        exact hnds s (List.mem_filter.1 hs).1

theorem fmiLoop_inv (k : Nat) : ∀ (fuel : Nat) (st : FMIState),
    fmiInv st → fmiInv (fmiLoop k fuel st) := by
  intro fuel
  induction fuel with
  | zero => intro st h; exact h
  | succ m ih =>
      intro st h
      rw [fmiLoop]
      split_ifs with hc
      · exact ih (fmiStep st) (fmiStep_inv st h)
      · exact h

theorem fmiInv_init (n : Nat) (pool : List (List Nat)) (hnd : ∀ s ∈ pool, s.Nodup) :
    fmiInv ⟨pqInit (rrFreq pool) n, rrFreq pool, pool, pool.length, []⟩ := by
  refine ⟨fun u => rfl, ?_, rfl, hnd⟩
  intro e he
  show rrFreq pool e.1 ≤ e.2
  have := pqInit_mem (rrFreq pool) (List.range n) [] (by simp) e he
  omega

/-- **C4.** Lazy-heap invariant of the raw selector: at every point of the
selection loop every heap entry `(v, c)` has `c ≥` the count of live RR sets
containing `v` (occurrence count, equal to the set count for duplicate-free
sets); a popped entry with `c > coverage[v]` is re-pushed as
`(v, coverage[v])` instead of being selected; and on selection the popped
value is the exact current coverage, so `uncovered` drops by exactly the
number of newly covered RR sets. -/
theorem lazy_heap_invariant (n k : Nat) (pool : List (List Nat)) (fuel : Nat)
    (hnd : ∀ s ∈ pool, s.Nodup) :
    (∀ e ∈ (fmiLoop k fuel
        ⟨pqInit (rrFreq pool) n, rrFreq pool, pool, pool.length, []⟩).queue,
      rrFreq (fmiLoop k fuel
        ⟨pqInit (rrFreq pool) n, rrFreq pool, pool, pool.length, []⟩).live e.1 ≤ e.2) ∧
    (∀ e qrest,
      (fmiLoop k fuel
        ⟨pqInit (rrFreq pool) n, rrFreq pool, pool, pool.length, []⟩).queue = e :: qrest →
      (fmiLoop k fuel
        ⟨pqInit (rrFreq pool) n, rrFreq pool, pool, pool.length, []⟩).coverage e.1 < e.2 →
      fmiStep (fmiLoop k fuel
          ⟨pqInit (rrFreq pool) n, rrFreq pool, pool, pool.length, []⟩)
        = { (fmiLoop k fuel
            ⟨pqInit (rrFreq pool) n, rrFreq pool, pool, pool.length, []⟩) with
            queue := pqPush qrest (e.1, (fmiLoop k fuel
              ⟨pqInit (rrFreq pool) n, rrFreq pool, pool, pool.length, []⟩).coverage e.1) }) ∧
    (∀ e qrest,
      (fmiLoop k fuel
        ⟨pqInit (rrFreq pool) n, rrFreq pool, pool, pool.length, []⟩).queue = e :: qrest →
      ¬ (fmiLoop k fuel
        ⟨pqInit (rrFreq pool) n, rrFreq pool, pool, pool.length, []⟩).coverage e.1 < e.2 →
      e.2 = rrFreq (fmiLoop k fuel
        ⟨pqInit (rrFreq pool) n, rrFreq pool, pool, pool.length, []⟩).live e.1 ∧
      (fmiStep (fmiLoop k fuel
          ⟨pqInit (rrFreq pool) n, rrFreq pool, pool, pool.length, []⟩)).result
        = (fmiLoop k fuel
            ⟨pqInit (rrFreq pool) n, rrFreq pool, pool, pool.length, []⟩).result ++ [e.1] ∧
      (fmiStep (fmiLoop k fuel
          ⟨pqInit (rrFreq pool) n, rrFreq pool, pool, pool.length, []⟩)).uncovered
          + ((fmiLoop k fuel
              ⟨pqInit (rrFreq pool) n, rrFreq pool, pool, pool.length, []⟩).live.filter
                (fun a => binarySearchC a e.1)).length
        = (fmiLoop k fuel
            ⟨pqInit (rrFreq pool) n, rrFreq pool, pool, pool.length, []⟩).uncovered) := by
  have hinv := fmiLoop_inv k fuel _ (fmiInv_init n pool hnd)
  obtain ⟨hcov, hub, hunc, hnds⟩ := hinv
  refine ⟨hub, ?_, ?_⟩
  · intro e qrest hq hc
    rw [fmiStep_cons _ e qrest hq, if_pos hc]
  · intro e qrest hq hc
    obtain ⟨hexact, hdead, hlive2⟩ :=
      fmiSelect_freq _ e qrest hq hc ⟨hcov, hub, hunc, hnds⟩
    refine ⟨hexact, ?_, ?_⟩
    · rw [fmiStep_cons _ e qrest hq, if_neg hc]
    · rw [fmiStep_cons _ e qrest hq, if_neg hc]
      show (fmiLoop k fuel
          ⟨pqInit (rrFreq pool) n, rrFreq pool, pool, pool.length, []⟩).uncovered - e.2
            + ((fmiLoop k fuel
              ⟨pqInit (rrFreq pool) n, rrFreq pool, pool, pool.length, []⟩).live.filter
                (fun a => binarySearchC a e.1)).length
          = (fmiLoop k fuel
            ⟨pqInit (rrFreq pool) n, rrFreq pool, pool, pool.length, []⟩).uncovered
      have h1 := rrFreq_filter_split (fmiLoop k fuel
        ⟨pqInit (rrFreq pool) n, rrFreq pool, pool, pool.length, []⟩).live
        (fun a => binarySearchC a e.1) e.1
      have h4 := hunc
      have h5 := (List.filter_append_perm (fun a => binarySearchC a e.1)
        (fmiLoop k fuel
          ⟨pqInit (rrFreq pool) n, rrFreq pool, pool, pool.length, []⟩).live).length_eq
      simp only [List.length_append] at h5
      omega

theorem lazy_heap_invariant_witness :
    (∀ e ∈ (fmiLoop 1 0
        ⟨pqInit (rrFreq [[0]]) 1, rrFreq [[0]], [[0]], [[0]].length, []⟩).queue,
      rrFreq (fmiLoop 1 0
        ⟨pqInit (rrFreq [[0]]) 1, rrFreq [[0]], [[0]], [[0]].length, []⟩).live e.1 ≤ e.2) ∧
    (∀ e qrest,
      (fmiLoop 1 0
        ⟨pqInit (rrFreq [[0]]) 1, rrFreq [[0]], [[0]], [[0]].length, []⟩).queue = e :: qrest →
      (fmiLoop 1 0
        ⟨pqInit (rrFreq [[0]]) 1, rrFreq [[0]], [[0]], [[0]].length, []⟩).coverage e.1 < e.2 →
      fmiStep (fmiLoop 1 0
          ⟨pqInit (rrFreq [[0]]) 1, rrFreq [[0]], [[0]], [[0]].length, []⟩)
        = { (fmiLoop 1 0
            ⟨pqInit (rrFreq [[0]]) 1, rrFreq [[0]], [[0]], [[0]].length, []⟩) with
            queue := pqPush qrest (e.1, (fmiLoop 1 0
              ⟨pqInit (rrFreq [[0]]) 1, rrFreq [[0]], [[0]], [[0]].length, []⟩).coverage e.1) }) ∧
    (∀ e qrest,
      (fmiLoop 1 0
        ⟨pqInit (rrFreq [[0]]) 1, rrFreq [[0]], [[0]], [[0]].length, []⟩).queue = e :: qrest →
      ¬ (fmiLoop 1 0
        ⟨pqInit (rrFreq [[0]]) 1, rrFreq [[0]], [[0]], [[0]].length, []⟩).coverage e.1 < e.2 →
      e.2 = rrFreq (fmiLoop 1 0
        ⟨pqInit (rrFreq [[0]]) 1, rrFreq [[0]], [[0]], [[0]].length, []⟩).live e.1 ∧
      (fmiStep (fmiLoop 1 0
          ⟨pqInit (rrFreq [[0]]) 1, rrFreq [[0]], [[0]], [[0]].length, []⟩)).result
        = (fmiLoop 1 0
            ⟨pqInit (rrFreq [[0]]) 1, rrFreq [[0]], [[0]], [[0]].length, []⟩).result ++ [e.1] ∧
      (fmiStep (fmiLoop 1 0
          ⟨pqInit (rrFreq [[0]]) 1, rrFreq [[0]], [[0]], [[0]].length, []⟩)).uncovered
          + ((fmiLoop 1 0
              ⟨pqInit (rrFreq [[0]]) 1, rrFreq [[0]], [[0]], [[0]].length, []⟩).live.filter
                (fun a => binarySearchC a e.1)).length
        = (fmiLoop 1 0
            ⟨pqInit (rrFreq [[0]]) 1, rrFreq [[0]], [[0]], [[0]].length, []⟩).uncovered) :=
  lazy_heap_invariant 1 1 [[0]] 0 (by decide)

/-! ## The parallel partition (`swap_ranges`, `PartitionIndices::operator+`,
`partition(..., omp_parallel_tag)`)

Iterators into the shared vector are embedded as indices; per-thread
`std::partition` of a slice is embedded by its contract (stable split of the
slice into satisfiers and non-satisfiers — only the multiset within the slice
matters to the merge); `swap_ranges` of two disjoint equal-length ranges is
transcribed as the corresponding splice.  The OpenMP phases execute disjoint
slices, so their sequentialisation below is exact. -/

theorem getD_take {α : Type} (l : List α) (n i : Nat) (h : i < n) (d : α) :
    (l.take n).getD i d = l.getD i d := by
  simp [List.getD_eq_getElem?_getD, List.getElem?_take, h]

theorem getD_append_left {α : Type} (l r : List α) (i : Nat) (d : α) (h : i < l.length) :
    (l ++ r).getD i d = l.getD i d := by
  simp [List.getD_eq_getElem?_getD, List.getElem?_append_left h]

theorem getD_append_right {α : Type} (l r : List α) (i : Nat) (d : α) (h : l.length ≤ i) :
    (l ++ r).getD i d = r.getD (i - l.length) d := by
  simp [List.getD_eq_getElem?_getD, List.getElem?_append_right h]

theorem getD_drop_any {α : Type} (l : List α) (k j : Nat) (d : α) :
    (l.drop k).getD j d = l.getD (k + j) d := by
  simp [List.getD_eq_getElem?_getD, List.getElem?_drop]

/-- `swap_ranges(first1, last1, first2)` for the disjoint ranges
`[s1, e1)` and `[s2, s2 + (e1 - s1))`, `e1 ≤ s2`: element-wise swap, i.e. the
splice that exchanges the two blocks. -/
def swapRanges (v : List Nat) (s1 e1 s2 : Nat) : List Nat :=
  v.take s1 ++ ((v.drop s2).take (e1 - s1)) ++ ((v.drop e1).take (s2 - e1))
    ++ ((v.drop s1).take (e1 - s1)) ++ v.drop (s2 + (e1 - s1))

theorem swapRanges_decomp (v : List Nat) (s1 e1 s2 : Nat)
    (h1 : s1 ≤ e1) (h2 : e1 ≤ s2) :
    v = v.take s1 ++ ((v.drop s1).take (e1 - s1)) ++ ((v.drop e1).take (s2 - e1))
      ++ ((v.drop s2).take (e1 - s1)) ++ v.drop (s2 + (e1 - s1)) := by
  have hx : v.drop s1 = (v.drop s1).take (e1 - s1) ++ v.drop e1 := by
    have h := (List.take_append_drop (e1 - s1) (v.drop s1)).symm
    rw [List.drop_drop] at h
    have he : s1 + (e1 - s1) = e1 := by omega
    rw [he] at h
    exact h
  have hy : v.drop e1 = (v.drop e1).take (s2 - e1) ++ v.drop s2 := by
    have h := (List.take_append_drop (s2 - e1) (v.drop e1)).symm
    rw [List.drop_drop] at h
    have he : e1 + (s2 - e1) = s2 := by omega
    rw [he] at h
    exact h
  have hz : v.drop s2 = (v.drop s2).take (e1 - s1) ++ v.drop (s2 + (e1 - s1)) := by
    have h := (List.take_append_drop (e1 - s1) (v.drop s2)).symm
    rw [List.drop_drop] at h
    exact h
  conv_lhs => rw [← List.take_append_drop s1 v, hx, hy, hz]
  simp [List.append_assoc]

theorem swapRanges_perm (v : List Nat) (s1 e1 s2 : Nat)
    (h1 : s1 ≤ e1) (h2 : e1 ≤ s2) :
    (swapRanges v s1 e1 s2).Perm v := by
  conv_rhs => rw [swapRanges_decomp v s1 e1 s2 h1 h2]
  unfold swapRanges
  apply List.perm_iff_count.mpr
  intro a
  simp only [List.count_append]
  omega

theorem swapRanges_length (v : List Nat) (s1 e1 s2 : Nat)
    (h1 : s1 ≤ e1) (h2 : e1 ≤ s2) :
    (swapRanges v s1 e1 s2).length = v.length :=
  (swapRanges_perm v s1 e1 s2 h1 h2).length_eq

theorem swapRanges_getD_low (v : List Nat) (s1 e1 s2 i : Nat)
    (h1 : s1 ≤ e1) (h2 : e1 ≤ s2) (h3 : s2 + (e1 - s1) ≤ v.length)
    (hi : i < s1) :
    (swapRanges v s1 e1 s2).getD i 0 = v.getD i 0 := by
  unfold swapRanges
  simp only [List.append_assoc]
  have hA : (v.take s1).length = s1 := by simp; omega
  rw [getD_append_left _ _ _ _ (by rw [hA]; omega)]
  exact getD_take v s1 i hi 0

theorem swapRanges_getD_second (v : List Nat) (s1 e1 s2 o : Nat)
    (h1 : s1 ≤ e1) (h2 : e1 ≤ s2) (h3 : s2 + (e1 - s1) ≤ v.length)
    (ho : o < e1 - s1) :
    (swapRanges v s1 e1 s2).getD (s1 + o) 0 = v.getD (s2 + o) 0 := by
  unfold swapRanges
  simp only [List.append_assoc]
  have hA : (v.take s1).length = s1 := by simp; omega
  have hY : (((v.drop s2).take (e1 - s1))).length = e1 - s1 := by simp; omega
  rw [getD_append_right _ _ _ _ (by rw [hA]; omega), hA]
  rw [getD_append_left _ _ _ _ (by rw [hY]; omega)]
  rw [getD_take _ _ _ (by omega), getD_drop_any]
  congr 1
  omega

theorem swapRanges_getD_mid (v : List Nat) (s1 e1 s2 i : Nat)
    (h1 : s1 ≤ e1) (h2 : e1 ≤ s2) (h3 : s2 + (e1 - s1) ≤ v.length)
    (hi1 : e1 ≤ i) (hi2 : i < s2) :
    (swapRanges v s1 e1 s2).getD i 0 = v.getD i 0 := by
  unfold swapRanges
  simp only [List.append_assoc]
  have hA : (v.take s1).length = s1 := by simp; omega
  have hY : (((v.drop s2).take (e1 - s1))).length = e1 - s1 := by simp; omega
  have hB : (((v.drop e1).take (s2 - e1))).length = s2 - e1 := by simp; omega
  rw [getD_append_right _ _ _ _ (by rw [hA]; omega), hA]
  rw [getD_append_right _ _ _ _ (by rw [hY]; omega), hY]
  rw [getD_append_left _ _ _ _ (by rw [hB]; omega)]
  rw [getD_take _ _ _ (by omega), getD_drop_any]
  congr 1
  omega

theorem swapRanges_getD_first (v : List Nat) (s1 e1 s2 o : Nat)
    (h1 : s1 ≤ e1) (h2 : e1 ≤ s2) (h3 : s2 + (e1 - s1) ≤ v.length)
    (ho : o < e1 - s1) :
    (swapRanges v s1 e1 s2).getD (s2 + o) 0 = v.getD (s1 + o) 0 := by
  unfold swapRanges
  simp only [List.append_assoc]
  have hA : (v.take s1).length = s1 := by simp; omega
  have hY : (((v.drop s2).take (e1 - s1))).length = e1 - s1 := by simp; omega
  have hB : (((v.drop e1).take (s2 - e1))).length = s2 - e1 := by simp; omega
  have hX : (((v.drop s1).take (e1 - s1))).length = e1 - s1 := by simp; omega
  rw [getD_append_right _ _ _ _ (by rw [hA]; omega), hA]
  rw [getD_append_right _ _ _ _ (by rw [hY]; omega), hY]
  rw [getD_append_right _ _ _ _ (by rw [hB]; omega), hB]
  rw [getD_append_left _ _ _ _ (by rw [hX]; omega)]
  rw [getD_take _ _ _ (by omega), getD_drop_any]
  congr 1
  omega

theorem swapRanges_getD_high (v : List Nat) (s1 e1 s2 i : Nat)
    (h1 : s1 ≤ e1) (h2 : e1 ≤ s2) (h3 : s2 + (e1 - s1) ≤ v.length)
    (hi : s2 + (e1 - s1) ≤ i) :
    (swapRanges v s1 e1 s2).getD i 0 = v.getD i 0 := by
  unfold swapRanges
  simp only [List.append_assoc]
  have hA : (v.take s1).length = s1 := by simp; omega
  have hY : (((v.drop s2).take (e1 - s1))).length = e1 - s1 := by simp; omega
  have hB : (((v.drop e1).take (s2 - e1))).length = s2 - e1 := by simp; omega
  have hX : (((v.drop s1).take (e1 - s1))).length = e1 - s1 := by simp; omega
  rw [getD_append_right _ _ _ _ (by rw [hA]; omega), hA]
  rw [getD_append_right _ _ _ _ (by rw [hY]; omega), hY]
  rw [getD_append_right _ _ _ _ (by rw [hB]; omega), hB]
  rw [getD_append_right _ _ _ _ (by rw [hX]; omega), hX]
  rw [getD_drop_any]
  congr 1
  omega

structure PartIdx where
  b : Nat
  e : Nat
  p : Nat
deriving DecidableEq, Repr, Inhabited

/-- `[x.b, x.p)` satisfies `P`, `[x.p, x.e)` violates it. -/
def ValidOn (P : Nat → Bool) (v : List Nat) (x : PartIdx) : Prop :=
  x.b ≤ x.p ∧ x.p ≤ x.e ∧ x.e ≤ v.length ∧
  (∀ i < x.p, x.b ≤ i → P (v.getD i 0) = true) ∧
  (∀ i < x.e, x.p ≤ i → P (v.getD i 0) = false)

/-- `PartitionIndices::operator+` on two adjacent partitioned ranges, acting
on the shared vector: the three source cases, with `swap_ranges` moving the
smaller of {left's false-block, right's true-block}. -/
def partPlus (v : List Nat) (x y : PartIdx) : List Nat × PartIdx :=
  if x.p = x.b ∧ y.p = y.b then (v, ⟨x.b, y.e, x.p⟩)
  else if x.p = x.e then (v, ⟨x.b, y.e, y.p⟩)
  else if x.e - x.p < y.p - y.b then
    (swapRanges v x.p x.e (y.p - (x.e - x.p)), ⟨x.b, y.e, y.p - (x.e - x.p)⟩)
  else
    (swapRanges v x.p (x.p + (y.p - y.b)) y.b, ⟨x.b, y.e, x.p + (y.p - y.b)⟩)

theorem validOn_mk (P : Nat → Bool) (v : List Nat) (b e p : Nat)
    (h1 : b ≤ p) (h2 : p ≤ e) (h3 : e ≤ v.length)
    (h4 : ∀ i < p, b ≤ i → P (v.getD i 0) = true)
    (h5 : ∀ i < e, p ≤ i → P (v.getD i 0) = false) :
    ValidOn P v ⟨b, e, p⟩ :=
  ⟨h1, h2, h3, h4, h5⟩

theorem partPlus_spec (P : Nat → Bool) (v : List Nat) (x y : PartIdx)
    (hx : ValidOn P v x) (hy : ValidOn P v y) (hadj : y.b = x.e) :
    (partPlus v x y).2.b = x.b ∧ (partPlus v x y).2.e = y.e ∧
    ValidOn P (partPlus v x y).1 (partPlus v x y).2 ∧
    (partPlus v x y).1.Perm v ∧
    (∀ i, i < x.b → (partPlus v x y).1.getD i 0 = v.getD i 0) ∧
    (∀ i, y.e ≤ i → (partPlus v x y).1.getD i 0 = v.getD i 0) := by
  obtain ⟨hxbp, hxpe, hxeL, hxT, hxF⟩ := hx
  obtain ⟨hybp, hype, hyeL, hyT, hyF⟩ := hy
  unfold partPlus
  split_ifs with hc1 hc2 hc3
  · refine ⟨rfl, rfl,
      validOn_mk P v x.b y.e x.p (by omega) (by omega) (by omega) ?_ ?_,
      List.Perm.refl v, fun i _ => rfl, fun i _ => rfl⟩
    · intro i hi hbi
      exact hxT i hi hbi
    · intro i hi hpi
      by_cases hie : i < x.e
      · exact hxF i hie hpi
      · exact hyF i hi (by omega)
  · refine ⟨rfl, rfl,
      validOn_mk P v x.b y.e y.p (by omega) (by omega) (by omega) ?_ ?_,
      List.Perm.refl v, fun i _ => rfl, fun i _ => rfl⟩
    · intro i hi hbi
      by_cases hip : i < x.p
      · exact hxT i hip hbi
      · exact hyT i hi (by omega)
    · intro i hi hpi
      exact hyF i hi (by omega)
  · have h1 : x.p ≤ x.e := by omega
    have h2 : x.e ≤ y.p - (x.e - x.p) := by omega
    have h3 : (y.p - (x.e - x.p)) + (x.e - x.p) ≤ v.length := by omega
    refine ⟨rfl, rfl,
      validOn_mk P (swapRanges v x.p x.e (y.p - (x.e - x.p))) x.b y.e (y.p - (x.e - x.p))
        (by omega) (by omega)
        (by rw [swapRanges_length v x.p x.e _ h1 h2]; omega) ?_ ?_,
      swapRanges_perm v x.p x.e _ h1 h2, ?_, ?_⟩
    · intro i hi hbi
      by_cases hip : i < x.p
      · rw [swapRanges_getD_low v x.p x.e _ i h1 h2 h3 hip]
        exact hxT i hip hbi
      · by_cases hie : i < x.e
        · have hseg := swapRanges_getD_second v x.p x.e (y.p - (x.e - x.p)) (i - x.p)
            h1 h2 h3 (by omega)
          rw [show x.p + (i - x.p) = i from by omega] at hseg
          rw [hseg]
          exact hyT _ (by omega) (by omega)
        · rw [swapRanges_getD_mid v x.p x.e _ i h1 h2 h3 (by omega) (by omega)]
          exact hyT i (by omega) (by omega)
    · intro i hi hpi
      by_cases hiyp : i < y.p
      · have hseg := swapRanges_getD_first v x.p x.e (y.p - (x.e - x.p))
          (i - (y.p - (x.e - x.p))) h1 h2 h3 (by omega)
        rw [show (y.p - (x.e - x.p)) + (i - (y.p - (x.e - x.p))) = i from by omega] at hseg
        rw [hseg]
        exact hxF _ (by omega) (by omega)
      · rw [swapRanges_getD_high v x.p x.e _ i h1 h2 h3 (by omega)]
        exact hyF i hi (by omega)
    · intro i hi
      exact swapRanges_getD_low v x.p x.e _ i h1 h2 h3 (by omega)
    · intro i hi
      exact swapRanges_getD_high v x.p x.e _ i h1 h2 h3 (by omega)
  · have h1 : x.p ≤ x.p + (y.p - y.b) := by omega
    have h2 : x.p + (y.p - y.b) ≤ y.b := by omega
    have h3 : y.b + (x.p + (y.p - y.b) - x.p) ≤ v.length := by
      simp only [Nat.add_sub_cancel_left]
      omega
    refine ⟨rfl, rfl,
      validOn_mk P (swapRanges v x.p (x.p + (y.p - y.b)) y.b) x.b y.e (x.p + (y.p - y.b))
        (by omega) (by omega)
        (by rw [swapRanges_length v x.p (x.p + (y.p - y.b)) y.b h1 h2]; omega) ?_ ?_,
      swapRanges_perm v x.p (x.p + (y.p - y.b)) y.b h1 h2, ?_, ?_⟩
    · intro i hi hbi
      by_cases hip : i < x.p
      · rw [swapRanges_getD_low v x.p (x.p + (y.p - y.b)) y.b i h1 h2 h3 hip]
        exact hxT i hip hbi
      · have hseg := swapRanges_getD_second v x.p (x.p + (y.p - y.b)) y.b (i - x.p)
          h1 h2 h3 (by omega)
        rw [show x.p + (i - x.p) = i from by omega] at hseg
        rw [hseg]
        exact hyT _ (by omega) (by omega)
    · intro i hi hpi
      by_cases hie : i < x.e
      · rw [swapRanges_getD_mid v x.p (x.p + (y.p - y.b)) y.b i h1 h2 h3 (by omega) (by omega)]
        exact hxF i hie (by omega)
      · by_cases hiyp : i < y.p
        · have hseg := swapRanges_getD_first v x.p (x.p + (y.p - y.b)) y.b (i - y.b)
            h1 h2 h3 (by omega)
          rw [show y.b + (i - y.b) = i from by omega] at hseg
          rw [hseg]
          exact hxF _ (by omega) (by omega)
        · rw [swapRanges_getD_high v x.p (x.p + (y.p - y.b)) y.b i h1 h2 h3 (by omega)]
          exact hyF i hi (by omega)
    · intro i hi
      exact swapRanges_getD_low v x.p (x.p + (y.p - y.b)) y.b i h1 h2 h3 (by omega)
    · intro i hi
      exact swapRanges_getD_high v x.p (x.p + (y.p - y.b)) y.b i h1 h2 h3 (by omega)

/-- Slice bound `num_elements * t / numthreads`. -/
def lo (N T i : Nat) : Nat := N * i / T

theorem lo_mono (N T : Nat) {i j : Nat} (h : i ≤ j) : lo N T i ≤ lo N T j :=
  Nat.div_le_div_right (Nat.mul_le_mul_left N h)

theorem lo_zero (N T : Nat) : lo N T 0 = 0 := by simp [lo]

theorem lo_top (N T : Nat) (hT : 1 ≤ T) : lo N T T = N := by
  unfold lo
  exact Nat.mul_div_cancel N (by omega)

theorem lo_le (N T i : Nat) (hT : 1 ≤ T) (hi : i ≤ T) : lo N T i ≤ N := by
  have := lo_mono N T hi
  rw [lo_top N T hT] at this
  exact this

def sliceOf (v : List Nat) (b e : Nat) : List Nat := (v.drop b).take (e - b)

/-- `std::partition` of the slice `[b, e)` of the shared vector, by its
contract: the slice is replaced by its `P`-satisfiers followed by its
non-satisfiers; the returned pivot is `b` + number of satisfiers. -/
def stdPartitionSlice (P : Nat → Bool) (v : List Nat) (b e : Nat) : List Nat :=
  v.take b ++ (sliceOf v b e).filter P ++ (sliceOf v b e).filter (fun a => !(P a)) ++ v.drop e

def slicePivot (P : Nat → Bool) (v : List Nat) (b e : Nat) : Nat :=
  b + ((sliceOf v b e).filter P).length

theorem validOn_congr (P : Nat → Bool) (v w : List Nat) (x : PartIdx)
    (hv : ValidOn P v x) (hlen : x.e ≤ w.length)
    (hagree : ∀ i, x.b ≤ i → i < x.e → w.getD i 0 = v.getD i 0) :
    ValidOn P w x := by
  obtain ⟨h1, h2, h3, h4, h5⟩ := hv
  refine ⟨h1, h2, hlen, ?_, ?_⟩
  · intro i hi hbi
    rw [hagree i hbi (by omega)]
    exact h4 i hi hbi
  · intro i hi hpi
    rw [hagree i (by omega) hi]
    exact h5 i hi hpi

theorem stdPartitionSlice_spec (P : Nat → Bool) (v : List Nat) (b e : Nat)
    (hbe : b ≤ e) (heL : e ≤ v.length) :
    (stdPartitionSlice P v b e).Perm v ∧
    (stdPartitionSlice P v b e).length = v.length ∧
    ValidOn P (stdPartitionSlice P v b e) ⟨b, e, slicePivot P v b e⟩ ∧
    (∀ i, i < b → (stdPartitionSlice P v b e).getD i 0 = v.getD i 0) ∧
    (∀ i, e ≤ i → (stdPartitionSlice P v b e).getD i 0 = v.getD i 0) := by
  have hdecomp : v = v.take b ++ sliceOf v b e ++ v.drop e := by
    have h := (List.take_append_drop (e - b) (v.drop b)).symm
    rw [List.drop_drop] at h
    have he : b + (e - b) = e := by omega
    rw [he] at h
    conv_lhs => rw [← List.take_append_drop b v, h]
    rw [List.append_assoc]
    rfl
  have hA : (v.take b).length = b := by simp; omega
  have hS : (sliceOf v b e).length = e - b := by
    unfold sliceOf
    simp
    omega
  have hFG : ((sliceOf v b e).filter P).length
      + ((sliceOf v b e).filter (fun a => !(P a))).length = e - b := by
    have := (List.filter_append_perm P (sliceOf v b e)).length_eq
    simp only [List.length_append] at this
    rw [this]
    exact hS
  have hF : ((sliceOf v b e).filter P).length ≤ e - b := by omega
  have hperm : (stdPartitionSlice P v b e).Perm v := by
    conv_rhs => rw [hdecomp]
    unfold stdPartitionSlice
    apply List.perm_iff_count.mpr
    intro a
    simp only [List.count_append]
    have hc := (List.filter_append_perm P (sliceOf v b e)).count_eq a
    simp only [List.count_append] at hc
    omega
  have hlen : (stdPartitionSlice P v b e).length = v.length := hperm.length_eq
  refine ⟨hperm, hlen, ?_, ?_, ?_⟩
  · refine validOn_mk P _ b e (slicePivot P v b e) (by unfold slicePivot; omega)
      (by unfold slicePivot; omega) (by rw [hlen]; omega) ?_ ?_
    · intro i hi hbi
      unfold slicePivot at hi
      unfold stdPartitionSlice
      simp only [List.append_assoc]
      rw [getD_append_right _ _ _ _ (by rw [hA]; omega), hA]
      rw [getD_append_left _ _ _ _ (by omega)]
      have hmemi : i - b < ((sliceOf v b e).filter P).length := by omega
      have hx : ((sliceOf v b e).filter P).getD (i - b) 0
          ∈ (sliceOf v b e).filter P := by
        rw [List.getD_eq_getElem _ _ hmemi]
        exact List.getElem_mem _
      exact (List.mem_filter.1 hx).2
    · intro i hi hpi
      unfold slicePivot at hpi
      unfold stdPartitionSlice
      simp only [List.append_assoc]
      rw [getD_append_right _ _ _ _ (by rw [hA]; omega), hA]
      rw [getD_append_right _ _ _ _ (by omega)]
      rw [getD_append_left _ _ _ _ (by omega)]
      have hmemi : i - b - ((sliceOf v b e).filter P).length
          < ((sliceOf v b e).filter (fun a => !(P a))).length := by omega
      have hx : ((sliceOf v b e).filter (fun a => !(P a))).getD
          (i - b - ((sliceOf v b e).filter P).length) 0
          ∈ (sliceOf v b e).filter (fun a => !(P a)) := by
        rw [List.getD_eq_getElem _ _ hmemi]
        exact List.getElem_mem _
      have := (List.mem_filter.1 hx).2
      simpa using this
  · intro i hi
    unfold stdPartitionSlice
    simp only [List.append_assoc]
    rw [getD_append_left _ _ _ _ (by rw [hA]; omega)]
    exact getD_take v b i (by omega) 0
  · intro i hi
    unfold stdPartitionSlice
    simp only [List.append_assoc]
    rw [getD_append_right _ _ _ _ (by rw [hA]; omega), hA]
    rw [getD_append_right _ _ _ _ (by omega)]
    rw [getD_append_right _ _ _ _ (by omega)]
    rw [getD_drop_any]
    congr 1
    have h1 := hFG
    omega

/-- One thread of phase 1 of `partition(..., omp_parallel_tag)`:
`std::partition` on the slice `[lo t, lo (t+1))` and record of its indices
triple.  The slices are pairwise disjoint, so the parallel phase equals this
sequentialisation. -/
def phase1Step (P : Nat → Bool) (N T : Nat) (st : List Nat × List PartIdx) (t : Nat) :
    List Nat × List PartIdx :=
  (stdPartitionSlice P st.1 (lo N T t) (lo N T (t + 1)),
   st.2 ++ [⟨lo N T t, lo N T (t + 1), slicePivot P st.1 (lo N T t) (lo N T (t + 1))⟩])

def phase1 (P : Nat → Bool) (T : Nat) (v : List Nat) : List Nat × List PartIdx :=
  (List.range T).foldl (phase1Step P v.length T) (v, [])

theorem phase1_inv (P : Nat → Bool) (T : Nat) (v : List Nat) (hT : 1 ≤ T) :
    ∀ m, m ≤ T →
    ((List.range m).foldl (phase1Step P v.length T) (v, [])).2.length = m ∧
    ((List.range m).foldl (phase1Step P v.length T) (v, [])).1.Perm v ∧
    (∀ t, t < m →
      ValidOn P ((List.range m).foldl (phase1Step P v.length T) (v, [])).1
        (((List.range m).foldl (phase1Step P v.length T) (v, [])).2.getD t default) ∧
      (((List.range m).foldl (phase1Step P v.length T) (v, [])).2.getD t default).b
        = lo v.length T t ∧
      (((List.range m).foldl (phase1Step P v.length T) (v, [])).2.getD t default).e
        = lo v.length T (t + 1)) := by
  intro m
  induction m with
  | zero =>
      intro _
      refine ⟨rfl, List.Perm.refl v, ?_⟩
      intro t ht
      omega
  | succ m ih =>
      intro hm
      obtain ⟨hlen2, hperm, htrip⟩ := ih (by omega)
      rw [List.range_succ, List.foldl_append, List.foldl_cons, List.foldl_nil]
      have hlenv : ((List.range m).foldl (phase1Step P v.length T) (v, [])).1.length
          = v.length := hperm.length_eq
      have hbe : lo v.length T m ≤ lo v.length T (m + 1) := lo_mono _ _ (by omega)
      have heN : lo v.length T (m + 1) ≤ v.length := lo_le _ _ _ hT (by omega)
      obtain ⟨hsp, hslen, hsvalid, hslow, hshigh⟩ :=
        stdPartitionSlice_spec P ((List.range m).foldl (phase1Step P v.length T) (v, [])).1
          (lo v.length T m) (lo v.length T (m + 1)) hbe (by omega)
      have hstep : phase1Step P v.length T
          ((List.range m).foldl (phase1Step P v.length T) (v, [])) m
          = (stdPartitionSlice P ((List.range m).foldl (phase1Step P v.length T) (v, [])).1
              (lo v.length T m) (lo v.length T (m + 1)),
             ((List.range m).foldl (phase1Step P v.length T) (v, [])).2
              ++ [(⟨lo v.length T m, lo v.length T (m + 1),
                  slicePivot P ((List.range m).foldl (phase1Step P v.length T) (v, [])).1
                    (lo v.length T m) (lo v.length T (m + 1))⟩ : PartIdx)]) := rfl
      rw [hstep]
      refine ⟨by simp [hlen2], hsp.trans hperm, ?_⟩
      intro t ht
      by_cases htm : t < m
      · obtain ⟨hv1, hb1, he1⟩ := htrip t htm
        have hget :
            ((((List.range m).foldl (phase1Step P v.length T) (v, [])).2
              ++ [(⟨lo v.length T m, lo v.length T (m + 1),
                   slicePivot P ((List.range m).foldl (phase1Step P v.length T) (v, [])).1
                     (lo v.length T m) (lo v.length T (m + 1))⟩ : PartIdx)]).getD t default)
            = ((List.range m).foldl (phase1Step P v.length T) (v, [])).2.getD t default :=
          getD_append_left _ _ _ _ (by rw [hlen2]; omega)
        simp only [] at hget ⊢
        rw [hget]
        refine ⟨validOn_congr P _ _ _ hv1
          (by rw [hslen, hlenv, he1]; exact lo_le _ _ _ hT (by omega)) ?_, hb1, he1⟩
        intro i hbi hie
        refine hslow i ?_
        rw [he1] at hie
        have := lo_mono v.length T (show t + 1 ≤ m from by omega)
        omega
      · have htm2 : t = m := by omega
        subst htm2
        have hget :
            ((((List.range t).foldl (phase1Step P v.length T) (v, [])).2
              ++ [(⟨lo v.length T t, lo v.length T (t + 1),
                   slicePivot P ((List.range t).foldl (phase1Step P v.length T) (v, [])).1
                     (lo v.length T t) (lo v.length T (t + 1))⟩ : PartIdx)]).getD t default)
            = (⟨lo v.length T t, lo v.length T (t + 1),
                slicePivot P ((List.range t).foldl (phase1Step P v.length T) (v, [])).1
                  (lo v.length T t) (lo v.length T (t + 1))⟩ : PartIdx) := by
          rw [getD_append_right _ _ _ _ (by rw [hlen2])]
          rw [hlen2]
          simp
        simp only [] at hget ⊢
        rw [hget]
        refine ⟨?_, rfl, rfl⟩
        refine validOn_congr P _ _ _ hsvalid (by rw [hslen, hlenv]; exact heN) ?_
        intro i _ _
        rfl

/-- `indices[i] = indices[i] + indices[i+j]` of the reduction loop. -/
def mergeStep (j : Nat) (st : List Nat × List PartIdx) (i : Nat) : List Nat × List PartIdx :=
  ((partPlus st.1 (st.2.getD i default) (st.2.getD (i + j) default)).1,
   st.2.set i (partPlus st.1 (st.2.getD i default) (st.2.getD (i + j) default)).2)

/-- `for (size_t i = 0; (i + j) < num_threads; i += j * 2)`: the inner task
loop of one reduction round, sequentialised (the merged ranges are pairwise
disjoint). -/
def mergeRoundAux (T j : Nat) : Nat → Nat → (List Nat × List PartIdx) → List Nat × List PartIdx
  | 0, _, st => st
  | fuel + 1, i, st =>
      if i + j < T then mergeRoundAux T j fuel (i + 2 * j) (mergeStep j st i)
      else st

/-- `for (size_t j = 1; j < num_threads; j <<= 1)`: the reduction rounds. -/
def treeReduce (T : Nat) : Nat → Nat → (List Nat × List PartIdx) → List Nat × List PartIdx
  | 0, _, st => st
  | fuel + 1, j, st =>
      if j < T then treeReduce T fuel (2 * j) (mergeRoundAux T j T 0 st)
      else st

/-- `partition(B, E, P, omp_parallel_tag)` with `num_threads = T`, returning
the reordered vector and `indices[0].pivot`. -/
def partitionOmp (P : Nat → Bool) (T : Nat) (v : List Nat) : List Nat × Nat :=
  ((treeReduce T T 1 (phase1 P T v)).1,
   ((treeReduce T T 1 (phase1 P T v)).2.getD 0 default).p)

def Trip (P : Nat → Bool) (N T step : Nat) (st : List Nat × List PartIdx) (i : Nat) : Prop :=
  ValidOn P st.1 (st.2.getD i default) ∧
  (st.2.getD i default).b = lo N T i ∧
  (st.2.getD i default).e = lo N T (min (i + step) T)

def StInv (P : Nat → Bool) (N T j : Nat) (st : List Nat × List PartIdx) : Prop :=
  st.2.length = T ∧ st.1.length = N ∧ ∀ i, i < T → i % j = 0 → Trip P N T j st i

theorem getD_set_self {α : Type} [Inhabited α] (l : List α) (n : Nat) (a : α)
    (h : n < l.length) : (l.set n a).getD n default = a := by
  rw [List.getD_eq_getElem _ _ (by simp [h])]
  exact List.getElem_set_self ..

theorem getD_set_ne {α : Type} [Inhabited α] (l : List α) (n m : Nat) (a : α)
    (h : n ≠ m) : (l.set n a).getD m default = l.getD m default := by
  simp [List.getD_eq_getElem?_getD, List.getElem?_set_ne h]

theorem mult_gap (j i i0 : Nat) (hj : 1 ≤ j) (hi : i % (2 * j) = 0)
    (hi0 : i0 % (2 * j) = 0) (hlt : i < i0) : i + 2 * j ≤ i0 := by
  obtain ⟨a, ha⟩ := Nat.dvd_of_mod_eq_zero hi
  obtain ⟨b, hb⟩ := Nat.dvd_of_mod_eq_zero hi0
  subst ha hb
  have hab : a < b := by
    by_contra hab
    have : 2 * j * b ≤ 2 * j * a := Nat.mul_le_mul_left _ (by omega)
    omega
  calc 2 * j * a + 2 * j = 2 * j * (a + 1) := by ring
    _ ≤ 2 * j * b := Nat.mul_le_mul_left _ (by omega)

theorem mod_half (j i : Nat) (hi : i % (2 * j) = 0) : i % j = 0 :=
  Nat.mod_eq_zero_of_dvd (dvd_trans ⟨2, by ring⟩ (Nat.dvd_of_mod_eq_zero hi))

theorem mergeRoundAux_inv (P : Nat → Bool) (N T j : Nat) (hj : 1 ≤ j) :
    ∀ (fuel i0 : Nat) (st : List Nat × List PartIdx),
    i0 % (2 * j) = 0 →
    st.2.length = T → st.1.length = N →
    (∀ i, i < T → i % (2 * j) = 0 → i < i0 → Trip P N T (2 * j) st i) →
    (∀ i, i < T → i % j = 0 → i0 ≤ i → Trip P N T j st i) →
    T ≤ i0 + 2 * j * fuel →
    StInv P N T (2 * j) (mergeRoundAux T j fuel i0 st) ∧
    (mergeRoundAux T j fuel i0 st).1.Perm st.1 := by
  intro fuel
  induction fuel with
  | zero =>
      intro i0 st hmod hlen2 hlen1 hdone hpend hfuel
      refine ⟨⟨hlen2, hlen1, ?_⟩, List.Perm.refl _⟩
      intro i hi hi2
      exact hdone i hi hi2 (by omega)
  | succ f ih =>
      intro i0 st hmod hlen2 hlen1 hdone hpend hfuel
      rw [mergeRoundAux]
      split_ifs with hc
      · have hi0T : i0 < T := by omega
        have hmodj : i0 % j = 0 := mod_half j i0 hmod
        have htx := hpend i0 hi0T hmodj (Nat.le_refl _)
        have hty := hpend (i0 + j) (by omega)
          (by rw [Nat.add_mod_right]; exact hmodj) (by omega)
        obtain ⟨hxv, hxb, hxe⟩ := htx
        obtain ⟨hyv, hyb, hye⟩ := hty
        have hxe2 : (st.2.getD i0 default).e = lo N T (i0 + j) := by
          rw [hxe]
          congr 1
          omega
        have hadj : (st.2.getD (i0 + j) default).b = (st.2.getD i0 default).e := by
          rw [hyb, hxe2]
        have hspec := partPlus_spec P st.1 (st.2.getD i0 default)
          (st.2.getD (i0 + j) default) hxv hyv hadj
        obtain ⟨hzb, hze, hzv, hzperm, hzlow, hzhigh⟩ := hspec
        have hstep1 : (mergeStep j st i0).1
            = (partPlus st.1 (st.2.getD i0 default) (st.2.getD (i0 + j) default)).1 := rfl
        have hstep2 : (mergeStep j st i0).2
            = st.2.set i0
              (partPlus st.1 (st.2.getD i0 default) (st.2.getD (i0 + j) default)).2 := rfl
        have hlen1' : (mergeStep j st i0).1.length = N := by
          rw [hstep1, hzperm.length_eq, hlen1]
        have hlen2' : (mergeStep j st i0).2.length = T := by
          rw [hstep2, List.length_set, hlen2]
        have hi0len : i0 < st.2.length := by omega
        refine (ih (i0 + 2 * j) (mergeStep j st i0)
          (by rw [Nat.add_mod_right]; exact hmod) hlen2' hlen1' ?_ ?_
          (by rw [Nat.mul_succ] at hfuel; omega)).imp
          id (fun hp => hp.trans ?_)
        · intro i hi hi2 hilt
          by_cases hieq : i = i0
          · subst hieq
            have hget : (mergeStep j st i).2.getD i default
                = (partPlus st.1 (st.2.getD i default) (st.2.getD (i + j) default)).2 := by
              rw [hstep2]
              exact getD_set_self _ _ _ hi0len
            refine ⟨?_, ?_, ?_⟩
            · rw [hget, hstep1]
              exact hzv
            · rw [hget, hzb, hxb]
            · rw [hget, hze, hye]
              congr 2
              omega
          · have hilt0 : i < i0 := by
              rcases Nat.lt_or_ge i i0 with h | h
              · exact h
              · exact absurd (mult_gap j i0 i hj hmod hi2 (by omega)) (by omega)
            have hgap : i + 2 * j ≤ i0 := mult_gap j i i0 hj hi2 hmod hilt0
            obtain ⟨hov, hob, hoe⟩ := hdone i hi hi2 hilt0
            have hget : (mergeStep j st i0).2.getD i default = st.2.getD i default := by
              rw [hstep2]
              exact getD_set_ne _ _ _ _ (fun he => hieq he.symm)
            refine ⟨?_, by rw [hget]; exact hob, by rw [hget]; exact hoe⟩
            rw [hget, hstep1]
            refine validOn_congr P st.1 _ _ hov ?_ ?_
            · rw [hzperm.length_eq]
              exact hov.2.2.1
            · intro idx hbidx hidx
              refine hzlow idx ?_
              rw [hxb]
              rw [hoe] at hidx
              have hle1 : min (i + 2 * j) T ≤ i0 := by omega
              have := lo_mono N T hle1
              omega
        · intro i hi hi2 hile
          obtain ⟨hov, hob, hoe⟩ := hpend i hi hi2 (by omega)
          have hieq : i ≠ i0 := by omega
          have hget : (mergeStep j st i0).2.getD i default = st.2.getD i default := by
            rw [hstep2]
            exact getD_set_ne _ _ _ _ (fun he => hieq he.symm)
          refine ⟨?_, by rw [hget]; exact hob, by rw [hget]; exact hoe⟩
          rw [hget, hstep1]
          refine validOn_congr P st.1 _ _ hov ?_ ?_
          · rw [hzperm.length_eq]
            exact hov.2.2.1
          · intro idx hbidx hidx
            refine hzhigh idx ?_
            rw [hye]
            rw [hob] at hbidx
            have hle1 : min (i0 + j + j) T ≤ i := by omega
            have := lo_mono N T hle1
            omega
        · rw [hstep1]
          exact hzperm
      · refine ⟨⟨hlen2, hlen1, ?_⟩, List.Perm.refl _⟩
        intro i hi hi2
        by_cases hilt : i < i0
        · exact hdone i hi hi2 hilt
        · obtain ⟨hov, hob, hoe⟩ := hpend i hi (mod_half j i hi2) (by omega)
          refine ⟨hov, hob, ?_⟩
          rw [hoe]
          congr 1
          omega

theorem treeReduce_inv (P : Nat → Bool) (N T : Nat) :
    ∀ (fuel j : Nat) (st : List Nat × List PartIdx), 1 ≤ j →
    StInv P N T j st → T ≤ 2 ^ fuel * j →
    ∃ jf, T ≤ jf ∧ StInv P N T jf (treeReduce T fuel j st) ∧
      (treeReduce T fuel j st).1.Perm st.1 := by
  intro fuel
  induction fuel with
  | zero =>
      intro j st hj hst hfuel
      refine ⟨j, ?_, hst, List.Perm.refl _⟩
      simpa using hfuel
  | succ f ih =>
      intro j st hj hst hfuel
      rw [treeReduce]
      split_ifs with hc
      · obtain ⟨hlen2, hlen1, htrip⟩ := hst
        have hT2j : T ≤ 0 + 2 * j * T := by
          have h1 : T = 1 * T := (one_mul T).symm
          have h2 : 1 * T ≤ (2 * j) * T := Nat.mul_le_mul_right T (by omega)
          omega
        have hround := mergeRoundAux_inv P N T j hj T 0 st (Nat.zero_mod _)
          hlen2 hlen1 (fun i _ _ hi0 => absurd hi0 (by omega))
          (fun i hi hi2 _ => htrip i hi hi2) hT2j
        have hpow : T ≤ 2 ^ f * (2 * j) := by
          rw [pow_succ] at hfuel
          calc T ≤ 2 ^ f * 2 * j := hfuel
            _ = 2 ^ f * (2 * j) := by ring
        obtain ⟨jf, hjf1, hjf2, hjf3⟩ := ih (2 * j) (mergeRoundAux T j T 0 st)
          (by omega) hround.1 hpow
        exact ⟨jf, hjf1, hjf2, hjf3.trans hround.2⟩
      · exact ⟨j, by omega, hst, List.Perm.refl _⟩

/-- **C5.** The OpenMP `partition` is correct: the returned vector is a
permutation of the input, every element left of the pivot satisfies `P`,
every element from the pivot on violates `P`, and the pivot equals the count
of satisfiers — hence it is the same for every thread count `T ≥ 1`. -/
theorem parallel_partition_correct (P : Nat → Bool) (T : Nat) (v : List Nat) (hT : 1 ≤ T) :
    (partitionOmp P T v).1.Perm v ∧
    (∀ i, i < (partitionOmp P T v).2 → P ((partitionOmp P T v).1.getD i 0) = true) ∧
    (∀ i, (partitionOmp P T v).2 ≤ i → i < v.length →
      P ((partitionOmp P T v).1.getD i 0) = false) ∧
    (partitionOmp P T v).2 = v.countP P := by
  obtain ⟨hp2len, hpperm, hptrip⟩ := phase1_inv P T v hT T (Nat.le_refl T)
  have hst1 : StInv P v.length T 1 (phase1 P T v) := by
    refine ⟨hp2len, hpperm.length_eq, ?_⟩
    intro i hi _
    unfold phase1
    obtain ⟨hv1, hb1, he1⟩ := hptrip i hi
    refine ⟨hv1, hb1, ?_⟩
    rw [he1]
    congr 1
    omega
  have hpow : T ≤ 2 ^ T * 1 := by
    have := Nat.lt_two_pow T
    omega
  obtain ⟨jf, hjf1, ⟨hflen2, hflen1, hftrip⟩, hfperm⟩ :=
    treeReduce_inv P v.length T T 1 (phase1 P T v) (Nat.le_refl 1) hst1 hpow
  have htrip0 := hftrip 0 (by omega) (Nat.zero_mod _)
  obtain ⟨⟨hb0p, hp0e, he0L, hTt, hFf⟩, hb0, he0⟩ := htrip0
  have hb00 : ((treeReduce T T 1 (phase1 P T v)).2.getD 0 default).b = 0 := by
    rw [hb0, lo_zero]
  have he0N : ((treeReduce T T 1 (phase1 P T v)).2.getD 0 default).e = v.length := by
    rw [he0]
    have hm : min (0 + jf) T = T := by omega
    rw [hm, lo_top _ _ hT]
  have hperm : (partitionOmp P T v).1.Perm v := hfperm.trans hpperm
  have hlenw : (partitionOmp P T v).1.length = v.length := hperm.length_eq
  refine ⟨hperm, ?_, ?_, ?_⟩
  · intro i hi
    exact hTt i hi (by omega)
  · intro i hpi hiN
    refine hFf i ?_ hpi
    rw [he0N]
    exact hiN
  · have hpdef : (partitionOmp P T v).2
        = ((treeReduce T T 1 (phase1 P T v)).2.getD 0 default).p := rfl
    have hpleN : (partitionOmp P T v).2 ≤ v.length := by
      rw [hpdef, ← he0N]
      exact hp0e
    have htake : ((partitionOmp P T v).1.take (partitionOmp P T v).2).countP P
        = (partitionOmp P T v).2 := by
      have hlt : ((partitionOmp P T v).1.take (partitionOmp P T v).2).length
          = (partitionOmp P T v).2 := by
        simp only [List.length_take]
        rw [hlenw]
        omega
      have hall : ∀ a ∈ (partitionOmp P T v).1.take (partitionOmp P T v).2, P a = true := by
        intro a ha
        obtain ⟨i, hi, rfl⟩ := List.mem_iff_getElem.1 ha
        rw [List.getElem_take]
        rw [hlt] at hi
        have hiw : i < (partitionOmp P T v).1.length := by
          rw [hlenw]
          omega
        rw [← List.getD_eq_getElem _ 0 hiw]
        rw [hpdef] at hi
        exact hTt i hi (by rw [hb00]; exact Nat.zero_le i)
      rw [List.countP_eq_length.2 hall]
      exact hlt
    have hdrop : ((partitionOmp P T v).1.drop (partitionOmp P T v).2).countP P = 0 := by
      apply List.countP_eq_zero.2
      intro a ha
      obtain ⟨i, hi, rfl⟩ := List.mem_iff_getElem.1 ha
      rw [List.getElem_drop]
      simp only [List.length_drop, hlenw] at hi
      have hiw : (partitionOmp P T v).2 + i < (partitionOmp P T v).1.length := by
        rw [hlenw]
        omega
      rw [← List.getD_eq_getElem _ 0 hiw]
      have h2 : P ((partitionOmp P T v).1.getD ((partitionOmp P T v).2 + i) 0) = false :=
        hFf ((partitionOmp P T v).2 + i) (by rw [he0N]; omega) (by rw [hpdef]; omega)
      intro hcontra
      rw [h2] at hcontra
      exact Bool.noConfusion hcontra
    have hsplit : (partitionOmp P T v).1.countP P
        = ((partitionOmp P T v).1.take (partitionOmp P T v).2).countP P
          + ((partitionOmp P T v).1.drop (partitionOmp P T v).2).countP P := by
      conv_lhs =>
        rw [← List.take_append_drop (partitionOmp P T v).2 (partitionOmp P T v).1]
      rw [List.countP_append]
    rw [← hperm.countP_eq P, hsplit, htake, hdrop]
    omega

theorem parallel_partition_correct_witness :
    (partitionOmp (fun x => x % 2 == 1) 2 [3, 1, 2]).1.Perm [3, 1, 2] ∧
    (∀ i, i < (partitionOmp (fun x => x % 2 == 1) 2 [3, 1, 2]).2 →
      ((fun x => x % 2 == 1) ((partitionOmp (fun x => x % 2 == 1) 2 [3, 1, 2]).1.getD i 0))
        = true) ∧
    (∀ i, (partitionOmp (fun x => x % 2 == 1) 2 [3, 1, 2]).2 ≤ i → i < [3, 1, 2].length →
      ((fun x => x % 2 == 1) ((partitionOmp (fun x => x % 2 == 1) 2 [3, 1, 2]).1.getD i 0))
        = false) ∧
    (partitionOmp (fun x => x % 2 == 1) 2 [3, 1, 2]).2 = [3, 1, 2].countP (fun x => x % 2 == 1) :=
  parallel_partition_correct (fun x => x % 2 == 1) 2 [3, 1, 2] (by decide)

/-! ## The compressed selector (`HuffmanFind`, first overload)

The pipeline is `createHuffmanTree` + `initByRRRSets` (code book and first
`maxvtx`), `encodeRRRSets` (per-set `encodeRR`), then a loop that records
`maxvtx`, runs `DecompAndFind` — which replays each live set through
`decodeCheck`, scans its overflow list, retires the sets containing `maxvtx`
and accumulates `globalcnt` over the surviving ones — and continues with the
strict argmax of `globalcnt`.  The loop adds one seed per iteration, so fuel
`k` is exact. -/

def decompSet (tree : HNode) (target : Nat) (e : EncState) : Bool × List Nat :=
  if (decodeCheck e.pack.buf (8 * e.pack.encodeSize) e.code_cnt tree target).2 then (true, [])
  else if e.cpy.contains target then (true, [])
  else (false, (decodeCheck e.pack.buf (8 * e.pack.encodeSize) e.code_cnt tree target).1 ++ e.cpy)

def DecompAndFind (tree : HNode) (tot : Nat) (target : Nat) (live : List EncState) :
    Nat × List EncState × Nat :=
  ((live.filter (fun e => (decompSet tree target e).1)).length,
   live.filter (fun e => !((decompSet tree target e).1)),
   (argmaxScan
     (fun u => rrFreq ((live.filter (fun e => !((decompSet tree target e).1))).map
       (fun e => (decompSet tree target e).2)) u) tot).2)

structure HFState where
  S2 : List Nat
  live : List EncState
  uncovered : Nat
  maxvtx : Nat
  f : Option ℚ

def hfStep (tree : HNode) (tot s1 : Nat) (st : HFState) : HFState :=
  { S2 := st.S2 ++ [st.maxvtx],
    live := (DecompAndFind tree tot st.maxvtx st.live).2.1,
    uncovered := st.uncovered - (DecompAndFind tree tot st.maxvtx st.live).1,
    maxvtx := (DecompAndFind tree tot st.maxvtx st.live).2.2,
    f := doubleDiv
      ((s1 - (st.uncovered - (DecompAndFind tree tot st.maxvtx st.live).1) : Nat) : ℚ)
      (s1 : ℚ) }

def hfLoop (tree : HNode) (tot s1 k : Nat) : Nat → HFState → HFState
  | 0, st => st
  | fuel + 1, st =>
      if st.S2.length < k ∧ st.uncovered ≠ 0 then
        hfLoop tree tot s1 k fuel (hfStep tree tot s1 st)
      else st

def HuffmanFind (n k : Nat) (R : List (List Nat)) : Option ℚ × List Nat :=
  ((hfLoop (huffmanTreeOf R n) n R.length k k
      ⟨[], R.map (fun R0 => encodeRR (coutOf (huffmanCodes R n)) (code0Of (huffmanCodes R n))
        (code1Of (huffmanCodes R n)) R0), R.length, huffmanMaxvtx R n, some 0⟩).f,
   (hfLoop (huffmanTreeOf R n) n R.length k k
      ⟨[], R.map (fun R0 => encodeRR (coutOf (huffmanCodes R n)) (code0Of (huffmanCodes R n))
        (code1Of (huffmanCodes R n)) R0), R.length, huffmanMaxvtx R n, some 0⟩).S2)

theorem huffmanMaxvtx_unique (R : List (List Nat)) (n u : Nat) (hu : u < n)
    (hupos : rrFreq R u ≠ 0)
    (humax : ∀ w, w < 2 * n → w ≠ u → rrFreq R w < rrFreq R u) :
    huffmanMaxvtx R n = u := by
  have h := initScan_inv (rrFreq R) (2 * n)
  unfold huffmanMaxvtx
  rcases h with ⟨hmf, hmv, hall⟩ | ⟨hmf, hmem, hfv, hub, hties⟩
  · exact absurd (hall u (List.mem_range.2 (by omega))) hupos
  · by_contra hne
    have hlt := humax _ (List.mem_range.1 hmem) hne
    have := hub u (List.mem_range.2 (by omega))
    omega

def pqSorted (q : List (Nat × Nat)) : Prop :=
  List.Pairwise (fun a b : Nat × Nat => b.2 ≤ a.2) q

theorem pqPush_sorted (e : Nat × Nat) : ∀ (q : List (Nat × Nat)),
    pqSorted q → pqSorted (pqPush q e) := by
  intro q
  induction q with
  | nil =>
      intro _
      exact List.pairwise_singleton _ _
  | cons x t ih =>
      intro hs
      rw [pqPush]
      have hxt := List.pairwise_cons.1 hs
      split_ifs with hc
      · refine List.pairwise_cons.2 ⟨?_, hs⟩
        intro y hy
        rcases List.mem_cons.1 hy with hy | hy
        · subst hy
          omega
        · have := hxt.1 y hy
          omega
      · refine List.pairwise_cons.2 ⟨?_, ih hxt.2⟩
        intro y hy
        rcases pqPush_mem e y t hy with hy | hy
        · subst hy
          omega
        · exact hxt.1 y hy

theorem pqInit_sorted (cov : Nat → Nat) : ∀ (l : List Nat) (q : List (Nat × Nat)),
    pqSorted q →
    pqSorted (l.foldl (fun q v => pqPush q (v, cov v)) q) := by
  intro l
  induction l with
  | nil => intro q hq; exact hq
  | cons v t ih =>
      intro q hq
      rw [List.foldl_cons]
      exact ih (pqPush q (v, cov v)) (pqPush_sorted (v, cov v) q hq)

theorem pqInit_head_max (cov : Nat → Nat) (n u : Nat) (hu : u < n)
    (humax : ∀ w, w < n → w ≠ u → cov w < cov u) :
    ∃ rest, pqInit cov n = (u, cov u) :: rest := by
  have hkeys := pqInit_keys_perm cov (List.range n) []
  simp only [List.map_nil, List.append_nil] at hkeys
  have hsorted : pqSorted (pqInit cov n) := pqInit_sorted cov (List.range n) [] (by
    exact List.Pairwise.nil)
  have hmem : ∀ x ∈ pqInit cov n, x.2 = cov x.1 ∧ x.1 < n := by
    intro x hx
    refine ⟨pqInit_mem cov (List.range n) [] (by simp) x hx, ?_⟩
    have : x.1 ∈ (pqInit cov n).map Prod.fst := List.mem_map_of_mem _ hx
    have := hkeys.mem_iff.1 this
    exact List.mem_range.1 this
  have humem : u ∈ (pqInit cov n).map Prod.fst := hkeys.mem_iff.2 (List.mem_range.2 hu)
  obtain ⟨eu, heu, heufst⟩ := List.mem_map.1 humem
  cases hq : pqInit cov n with
  | nil =>
      rw [hq] at heu
      exact absurd heu (List.not_mem_nil _)
  | cons e rest =>
      refine ⟨rest, ?_⟩
      have he := hmem e (by rw [hq]; simp)
      have heq : e.1 = u := by
        by_contra hne
        have hlt : cov e.1 < cov u := humax e.1 he.2 hne
        rw [hq] at heu hsorted
        rcases List.mem_cons.1 heu with h1 | h1
        · rw [h1] at heufst
          exact hne heufst
        · have htail := (List.pairwise_cons.1 hsorted).1 eu h1
          have heu2 := hmem eu (by rw [hq]; simp [h1])
          rw [heufst] at heu2
          omega
      have h2 : e.2 = cov u := by
        rw [← heq]
        exact he.1
      have hee : e = (u, cov u) := by
        obtain ⟨e1, e2⟩ := e
        simp only [] at heq h2
        rw [heq, h2]
      rw [hee]

theorem head_append_ne_nil {α : Type} (r : List α) (t : List α) (h : r ≠ []) :
    (r ++ t).head? = r.head? := by
  cases r with
  | nil => exact absurd rfl h
  | cons a s => rfl

theorem fmiLoop_head (k : Nat) : ∀ (fuel : Nat) (st : FMIState), st.result ≠ [] →
    (fmiLoop k fuel st).result.head? = st.result.head? := by
  intro fuel
  induction fuel with
  | zero => intro st _; rfl
  | succ m ih =>
      intro st hne
      rw [fmiLoop]
      split_ifs with hc
      · rcases fmiStep_result_app st with h | ⟨x, h⟩
        · rw [ih (fmiStep st) (by rw [h]; exact hne), h]
        · rw [ih (fmiStep st) (by rw [h]; simp), h]
          exact head_append_ne_nil st.result [x] hne
      · rfl

theorem hfLoop_head (tree : HNode) (tot s1 k : Nat) : ∀ (fuel : Nat) (st : HFState),
    st.S2 ≠ [] → (hfLoop tree tot s1 k fuel st).S2.head? = st.S2.head? := by
  intro fuel
  induction fuel with
  | zero => intro st _; rfl
  | succ m ih =>
      intro st hne
      rw [hfLoop]
      split_ifs with hc
      · have hstep : (hfStep tree tot s1 st).S2 = st.S2 ++ [st.maxvtx] := rfl
        rw [ih (hfStep tree tot s1 st) (by rw [hstep]; simp), hstep]
        exact head_append_ne_nil st.S2 [st.maxvtx] hne
      · rfl

/-- **C2** (amended).  The full equivalence fails (see the counterexample:
the compressed selector can repeat a seed), but the two selectors agree on
the first seed whenever the coverage maximum is attained by a unique vertex
`u` with positive coverage: the raw selector pops `u` first, and the
compressed selector's first seed is `initByRRRSets`' `maxvtx = u`. -/
theorem selectors_first_seed_agree (n k : Nat) (pool : List (List Nat)) (fuel : Nat)
    (u : Nat) (hk : 1 ≤ k) (hf : 1 ≤ fuel) (hpne : pool ≠ []) (hu : u < n)
    (hupos : rrFreq pool u ≠ 0)
    (humax : ∀ w, w < 2 * n → w ≠ u → rrFreq pool w < rrFreq pool u) :
    (FindMostInfluentialSet n k pool fuel).2.head? = some u ∧
    (HuffmanFind n k pool).2.head? = some u := by
  constructor
  · obtain ⟨rest, hq⟩ := pqInit_head_max (rrFreq pool) n u hu
      (fun w hw hne => humax w (by omega) hne)
    unfold FindMostInfluentialSet
    obtain ⟨f0, rfl⟩ : ∃ f0, fuel = f0 + 1 := ⟨fuel - 1, by omega⟩
    rw [fmiLoop]
    rw [if_pos ⟨by simpa using hk, by simpa using hpne⟩]
    have hstep : fmiStep ⟨pqInit (rrFreq pool) n, rrFreq pool, pool, pool.length, []⟩
        = { queue := rest,
            coverage :=
              if (pool.filter (fun a => binarySearchC a u)).length
                  < (pool.filter (fun a => !(binarySearchC a u))).length then
                fun w => rrFreq pool w - rrFreq (pool.filter (fun a => binarySearchC a u)) w
              else
                fun w => rrFreq (pool.filter (fun a => !(binarySearchC a u))) w,
            live := pool.filter (fun a => !(binarySearchC a u)),
            uncovered := pool.length - rrFreq pool u,
            result := [] ++ [u] } := by
      rw [fmiStep_cons _ (u, rrFreq pool u) rest hq]
      rw [if_neg (by simp)]
    rw [hstep]
    rw [fmiLoop_head k f0 _ (by simp)]
    rfl
  · unfold HuffmanFind
    have hmax := huffmanMaxvtx_unique pool n u hu hupos humax
    obtain ⟨f0, rfl⟩ : ∃ f0, k = f0 + 1 := ⟨k - 1, by omega⟩
    rw [hfLoop]
    rw [if_pos ⟨by simp, by simpa using hpne⟩]
    have hstep : (hfStep (huffmanTreeOf pool n) n pool.length
        ⟨[], pool.map (fun R0 => encodeRR (coutOf (huffmanCodes pool n))
          (code0Of (huffmanCodes pool n)) (code1Of (huffmanCodes pool n)) R0),
         pool.length, huffmanMaxvtx pool n, some 0⟩).S2
        = [huffmanMaxvtx pool n] := rfl
    rw [hfLoop_head _ _ _ _ f0 _ (by rw [hstep]; simp), hstep, hmax]
    rfl

theorem selectors_first_seed_agree_witness :
    (FindMostInfluentialSet 2 1 [[1]] 3).2.head? = some 1 ∧
    (HuffmanFind 2 1 [[1]]).2.head? = some 1 :=
  selectors_first_seed_agree 2 1 [[1]] 3 1 (by decide) (by decide) (by decide) (by decide)
    (by decide) (by decide)

/-- Raw and compressed selectors disagree beyond the first seed: on the pool
`{∅, {1}}` with `n = 3`, `k = 3`, the raw selector returns three distinct
seeds while `HuffmanFind` repeats vertex 0 — the seed lists differ even as
multisets. -/
theorem selectors_counterexample :
    (FindMostInfluentialSet 3 3 [[], [1]] 10).2 = [1, 0, 2] ∧
    (HuffmanFind 3 3 [[], [1]]).2 = [1, 0, 0] ∧
    ¬ ((FindMostInfluentialSet 3 3 [[], [1]] 10).2.Perm (HuffmanFind 3 3 [[], [1]]).2) := by
  exact ⟨by decide, by decide, by decide⟩

end Ripples
